import Mathlib

/-!
# JucePlugins: snapshot queue, trigger collector and wavetable oscillator

A shallow embedding of these pieces of the repository:

* `AudioBufferQueue`, `ScopeDataCollector`, `Voice` and `AudioEngine` from
  `src/DSP/includes/DSPConvolutionTutorial_01.h`;
* `WavetableOscillator`, `createWavetable`, `prepareToPlay` and
  `getNextAudioBlock` from `src/WaveTable/includes/WavetableSynthTutorial_04.h`;
* `SineOscillator`, `prepareToPlay` and `getNextAudioBlock` from
  `src/WaveTable/includes/WavetableSynthTutorial_01.h`;
* the time code of `addMessageToList` and the pad loop of `setMidiInput` from
  `src/MidiDrivers/includes/HandlingMidiEventsTutorial.h`.

JUCE library classes and functions that this code calls (`juce::AbstractFifo`,
`juce::jmap`, `juce::dsp::AudioBlock`, `juce::MPESynthesiser`,
`juce::AudioSourceChannelInfo`, `juce::MidiMessage`) are embedded after the
library; the signal processors of the library are parameters.

Conventions.

* C++ `int` values are `Int`; `size_t` values are `Nat` (every reachable value is
  at most 512, so unsigned arithmetic never wraps).
* A pointer to samples, and a `std::array` of samples, is a function `Nat → α`
  from the element index to the element.  Only indices inside the array are ever
  read or written by the embedded code.
* Sample values of the collector and of the oscillator are rationals: every
  finite `float` is a rational number and the comparisons `<`, `>=`, `>` on finite
  floats agree with those on the rationals.  Arithmetic on them is exact.
* The `double` arithmetic of `addMessageToList` is modelled with its rounding:
  `roundToDouble` gives the `double` nearest to the exact result of an operation.
-/

namespace JucePlugins

/-! ## juce::AbstractFifo -/

/-- The cursor state of the JUCE library class `juce::AbstractFifo`
(module `juce_core`, file `containers/juce_AbstractFifo.cpp`; the class is used by
`AudioBufferQueue` but its code is library code outside this repository).
`bufferSize` is the constructor argument, `validStart` the read cursor and
`validEnd` the write cursor. -/
structure AbstractFifo where
  bufferSize : Int
  validStart : Int
  validEnd : Int
  deriving DecidableEq, Repr

/-- The four out-parameters of `prepareToWrite` and `prepareToRead`. -/
structure FifoRegion where
  startIndex1 : Int
  blockSize1 : Int
  startIndex2 : Int
  blockSize2 : Int
  deriving DecidableEq, Repr

namespace AbstractFifo

/-- Constructor `AbstractFifo (int capacity)`: both cursors start at 0. -/
def create (capacity : Int) : AbstractFifo :=
  { bufferSize := capacity, validStart := 0, validEnd := 0 }

/-- Library function `AbstractFifo::getNumReady`:
`ve >= vs ? (ve - vs) : (bufferSize - (vs - ve))`. -/
def getNumReady (f : AbstractFifo) : Int :=
  let vs := f.validStart
  let ve := f.validEnd
  if ve ≥ vs then ve - vs else f.bufferSize - (vs - ve)

/-- Library function `AbstractFifo::getFreeSpace`:
`bufferSize - getNumReady() - 1`. -/
def getFreeSpace (f : AbstractFifo) : Int :=
  f.bufferSize - f.getNumReady - 1

/-- Library function `AbstractFifo::prepareToWrite`.  The number of items that
may be written is limited to `freeSpace - 1`: one position of the ring always
stays unused, which is how the two cursors tell a full ring from an empty one. -/
def prepareToWrite (f : AbstractFifo) (numToWrite : Int) : FifoRegion :=
  let vs := f.validStart
  let ve := f.validEnd
  let freeSpace := if ve ≥ vs then f.bufferSize - (ve - vs) else vs - ve
  let numToWrite := min numToWrite (freeSpace - 1)
  if numToWrite ≤ 0 then
    { startIndex1 := 0, blockSize1 := 0, startIndex2 := 0, blockSize2 := 0 }
  else
    let blockSize1 := min (f.bufferSize - ve) numToWrite
    let numToWrite := numToWrite - blockSize1
    { startIndex1 := ve, blockSize1 := blockSize1, startIndex2 := 0,
      blockSize2 := if numToWrite ≤ 0 then 0 else min numToWrite vs }

/-- Library function `AbstractFifo::finishedWrite`: advance the write cursor,
wrapping at `bufferSize`. -/
def finishedWrite (f : AbstractFifo) (numWritten : Int) : AbstractFifo :=
  let newEnd := f.validEnd + numWritten
  let newEnd := if newEnd ≥ f.bufferSize then newEnd - f.bufferSize else newEnd
  { f with validEnd := newEnd }

/-- Library function `AbstractFifo::prepareToRead`. -/
def prepareToRead (f : AbstractFifo) (numWanted : Int) : FifoRegion :=
  let vs := f.validStart
  let ve := f.validEnd
  let numReady := if ve ≥ vs then ve - vs else f.bufferSize - (vs - ve)
  let numWanted := min numWanted numReady
  if numWanted ≤ 0 then
    { startIndex1 := 0, blockSize1 := 0, startIndex2 := 0, blockSize2 := 0 }
  else
    let blockSize1 := min (f.bufferSize - vs) numWanted
    let numWanted := numWanted - blockSize1
    { startIndex1 := vs, blockSize1 := blockSize1, startIndex2 := 0,
      blockSize2 := if numWanted ≤ 0 then 0 else min numWanted ve }

/-- Library function `AbstractFifo::finishedRead`: advance the read cursor,
wrapping at `bufferSize`. -/
def finishedRead (f : AbstractFifo) (numRead : Int) : AbstractFifo :=
  let newStart := f.validStart + numRead
  let newStart := if newStart ≥ f.bufferSize then newStart - f.bufferSize else newStart
  { f with validStart := newStart }

end AbstractFifo

/-! ## AudioBufferQueue -/

/-- Library function `juce::FloatVectorOperations::copy (dest, src, num)`:
`dest[i] = src[i]` for `0 <= i < num`, the rest of `dest` is untouched. -/
def copy {α : Type} (dest src : Nat → α) (num : Nat) : Nat → α :=
  fun i => if i < num then src i else dest i

/-- Source constant `AudioBufferQueue::order`. -/
def order : Nat := 9

/-- Source constant `AudioBufferQueue::bufferSize = 1U << order`. -/
def bufferSize : Nat := 1 <<< order

/-- Source constant `AudioBufferQueue::numBuffers`. -/
def numBuffers : Nat := 5

/-- The members of `AudioBufferQueue<SampleType>`: the fifo cursors and the
`numBuffers` slots of `bufferSize` samples each (`buffers s i` is sample `i` of
slot `s`). -/
structure AudioBufferQueue (α : Type) where
  abstractFifo : AbstractFifo
  buffers : Nat → Nat → α

namespace AudioBufferQueue

variable {α : Type}

/-- A newly constructed queue: `abstractFifo { numBuffers }`; the slot contents
`b` are whatever the storage holds. -/
def create (b : Nat → Nat → α) : AudioBufferQueue α :=
  { abstractFifo := AbstractFifo.create numBuffers, buffers := b }

/-- Source function `AudioBufferQueue::push (dataToPush, numSamples)`. -/
def push (q : AudioBufferQueue α) (dataToPush : Nat → α) (numSamples : Nat) :
    AudioBufferQueue α :=
  let r := q.abstractFifo.prepareToWrite 1
  let buffers :=
    if r.blockSize1 > 0 then
      Function.update q.buffers r.startIndex1.toNat
        (copy (q.buffers r.startIndex1.toNat) dataToPush (min bufferSize numSamples))
    else q.buffers
  { abstractFifo := q.abstractFifo.finishedWrite r.blockSize1, buffers := buffers }

/-- Source function `AudioBufferQueue::pop (outputBuffer)`; the result is the
queue afterwards and the output buffer afterwards. -/
def pop (q : AudioBufferQueue α) (outputBuffer : Nat → α) :
    AudioBufferQueue α × (Nat → α) :=
  let r := q.abstractFifo.prepareToRead 1
  let out :=
    if r.blockSize1 > 0 then copy outputBuffer (q.buffers r.startIndex1.toNat) bufferSize
    else outputBuffer
  ({ q with abstractFifo := q.abstractFifo.finishedRead r.blockSize1 }, out)

/-- Successive `push` calls, one per snapshot of the list, each with
`bufferSize` samples and no `pop` in between. -/
def pushAll (q : AudioBufferQueue α) : List (Nat → α) → AudioBufferQueue α
  | [] => q
  | d :: ds => pushAll (q.push d bufferSize) ds

/-- The cursors are inside the ring managed by the fifo: the state invariant of
`juce::AbstractFifo` for the ring of `numBuffers` slots. -/
def WellFormed (q : AudioBufferQueue α) : Prop :=
  q.abstractFifo.bufferSize = numBuffers ∧
  0 ≤ q.abstractFifo.validStart ∧ q.abstractFifo.validStart < numBuffers ∧
  0 ≤ q.abstractFifo.validEnd ∧ q.abstractFifo.validEnd < numBuffers

instance (q : AudioBufferQueue α) : Decidable q.WellFormed := by
  unfold WellFormed
  infer_instance

/-- The number of unread snapshots, `abstractFifo.getNumReady()`. -/
def numUnread (q : AudioBufferQueue α) : Int := q.abstractFifo.getNumReady

/-- The slot indices holding unread snapshots, oldest first: `getNumReady`
consecutive ring positions starting at the read cursor. -/
def unreadSlots (q : AudioBufferQueue α) : List Nat :=
  (List.range q.abstractFifo.getNumReady.toNat).map
    (fun k => (q.abstractFifo.validStart.toNat + k) % numBuffers)

/-- The unread snapshots, oldest first. -/
def unread (q : AudioBufferQueue α) : List (Nat → α) :=
  q.unreadSlots.map q.buffers

/-- Successive `pop` calls, one per output buffer of the list, with no `push`
in between; the result is the queue afterwards and the output buffers
afterwards, in call order. -/
def popMany (q : AudioBufferQueue α) : List (Nat → α) → AudioBufferQueue α × List (Nat → α)
  | [] => (q, [])
  | out :: outs =>
    let r := q.pop out
    let rs := popMany r.1 outs
    (rs.1, r.2 :: rs.2)

end AudioBufferQueue

/-! ## ScopeDataCollector -/

/-- Source constant `ScopeDataCollector::triggerLevel = SampleType (0.05)`.
The proofs use of its value only that it is above 0, at most 1 and below 100,
which also holds for the `float` and `double` nearest to 0.05. -/
def triggerLevel : ℚ := 0.05

/-- Source type `ScopeDataCollector::State`. -/
inductive State where
  | waitingForTrigger
  | collecting
  deriving DecidableEq, Repr

/-- The members of `ScopeDataCollector<SampleType>` other than the reference to
the queue, which the functions below take and return as a separate argument:
the capture `buffer` of `bufferSize` samples, `numCollected`, `prevSample` and
`state`. -/
structure ScopeDataCollector where
  buffer : Nat → ℚ
  numCollected : Nat
  prevSample : ℚ
  state : State

namespace ScopeDataCollector

/-- A newly constructed collector: `prevSample = SampleType (100)` and
`state = waitingForTrigger`; `buffer` and `numCollected` have no initialiser in
the source, so they start at arbitrary values `b` and `n`. -/
def create (b : Nat → ℚ) (n : Nat) : ScopeDataCollector :=
  { buffer := b, numCollected := n, prevSample := 100, state := State.waitingForTrigger }

/-- The first loop of `ScopeDataCollector::process`, entered in state
`waitingForTrigger`, over the samples of the block not yet read.  The result is
the collector after the loop and the samples of the block left unread. -/
def waitLoop (c : ScopeDataCollector) : List ℚ → ScopeDataCollector × List ℚ
  | [] => (c, [])
  | currentSample :: data =>
    if currentSample ≥ triggerLevel ∧ c.prevSample < triggerLevel then
      ({ c with numCollected := 0, state := State.collecting }, data)
    else
      waitLoop { c with prevSample := currentSample } data

/-- The second loop of `ScopeDataCollector::process`, entered in state
`collecting`, over the samples of the block not yet read.  The `break` after the
push leaves the rest of the block unread. -/
def collectLoop (c : ScopeDataCollector) (q : AudioBufferQueue ℚ) :
    List ℚ → ScopeDataCollector × AudioBufferQueue ℚ
  | [] => (c, q)
  | sample :: data =>
    let c1 := { c with buffer := Function.update c.buffer c.numCollected sample,
                       numCollected := c.numCollected + 1 }
    if c1.numCollected = bufferSize then
      ({ c1 with state := State.waitingForTrigger, prevSample := 100 },
        q.push c1.buffer bufferSize)
    else
      collectLoop c1 q data

/-- Source function `ScopeDataCollector::process (data, numSamples)`; the block
is the list of its `numSamples` samples. -/
def process (c : ScopeDataCollector) (q : AudioBufferQueue ℚ) (data : List ℚ) :
    ScopeDataCollector × AudioBufferQueue ℚ :=
  let r := if c.state = State.waitingForTrigger then waitLoop c data else (c, data)
  if r.1.state = State.collecting then collectLoop r.1 q r.2 else (r.1, q)

/-- Successive `process` calls, one per block of the list, on the same collector
and queue. -/
def processBlocks (c : ScopeDataCollector) (q : AudioBufferQueue ℚ) :
    List (List ℚ) → ScopeDataCollector × AudioBufferQueue ℚ
  | [] => (c, q)
  | block :: blocks => processBlocks (process c q block).1 (process c q block).2 blocks

/-- The sample-by-sample reading of the two loops of `process`, for a stream that
is not cut into blocks: one transition per sample (the body of the first loop in
state `waitingForTrigger`, the body of the second loop in state `collecting`),
stopping at the first push.  The result is the collector then and the buffer
pushed, if any. -/
def firstCapture (c : ScopeDataCollector) : List ℚ → ScopeDataCollector × Option (Nat → ℚ)
  | [] => (c, none)
  | sample :: data =>
    match c.state with
    | State.waitingForTrigger =>
      if sample ≥ triggerLevel ∧ c.prevSample < triggerLevel then
        firstCapture { c with numCollected := 0, state := State.collecting } data
      else
        firstCapture { c with prevSample := sample } data
    | State.collecting =>
      let c1 := { c with buffer := Function.update c.buffer c.numCollected sample,
                         numCollected := c.numCollected + 1 }
      if c1.numCollected = bufferSize then
        ({ c1 with state := State.waitingForTrigger, prevSample := 100 }, some c1.buffer)
      else
        firstCapture c1 data

/-- The queue after an optional push of `bufferSize` samples. -/
def pushOption (q : AudioBufferQueue ℚ) : Option (Nat → ℚ) → AudioBufferQueue ℚ
  | none => q
  | some b => q.push b bufferSize

end ScopeDataCollector

/-! ## WavetableOscillator -/

/-- The members of `WavetableOscillator`: the samples of channel 0 of the
wavetable buffer, `tableSize`, `currentIndex` and `tableDelta`. -/
structure WavetableOscillator where
  wavetable : List ℚ
  tableSize : Int
  currentIndex : ℚ
  tableDelta : ℚ

namespace WavetableOscillator

/-- Constructor `WavetableOscillator (wavetableToUse)`:
`tableSize (wavetable.getNumSamples() - 1)`, `currentIndex` and `tableDelta`
start at 0. -/
def create (wavetableToUse : List ℚ) : WavetableOscillator :=
  { wavetable := wavetableToUse, tableSize := (wavetableToUse.length : Int) - 1,
    currentIndex := 0, tableDelta := 0 }

/-- Source function `WavetableOscillator::setFrequency (frequency, sampleRate)`. -/
def setFrequency (o : WavetableOscillator) (frequency sampleRate : ℚ) : WavetableOscillator :=
  let tableSizeOverSampleRate := (o.tableSize : ℚ) / sampleRate
  { o with tableDelta := frequency * tableSizeOverSampleRate }

/-- Source function `WavetableOscillator::getNextSample`.  The conversion
`(unsigned int) currentIndex` truncates the non-negative index.  The two table
reads are checked against the length of the table: the result is `none` when one
of them is outside it, and otherwise the sample returned and the oscillator
afterwards.  The arithmetic is that of the rationals: the rounding of the
`float` operations is not modelled. -/
def getNextSample (o : WavetableOscillator) : Option (ℚ × WavetableOscillator) :=
  let index0 : Nat := Int.toNat ⌊o.currentIndex⌋
  let index1 : Nat := index0 + 1
  let frac : ℚ := o.currentIndex - (index0 : ℚ)
  match o.wavetable[index0]?, o.wavetable[index1]? with
  | some value0, some value1 =>
    let currentSample := value0 + frac * (value1 - value0)
    let advanced := o.currentIndex + o.tableDelta
    let wrapped := if advanced > (o.tableSize : ℚ) then advanced - (o.tableSize : ℚ) else advanced
    some (currentSample, { o with currentIndex := wrapped })
  | _, _ => none

/-- The oscillator after `n` successive `getNextSample` calls, `none` when one of
the calls reads outside the table. -/
def afterCalls : Nat → WavetableOscillator → Option WavetableOscillator
  | 0, o => some o
  | n + 1, o => o.getNextSample.bind (fun r => afterCalls n r.2)

end WavetableOscillator

/-! ## juce::jmap -/

/-- Library function `juce::jmap (sourceValue, sourceRangeMin, sourceRangeMax,
targetRangeMin, targetRangeMax)`. -/
def jmap (sourceValue sourceRangeMin sourceRangeMax targetRangeMin targetRangeMax : ℚ) : ℚ :=
  targetRangeMin +
    ((targetRangeMax - targetRangeMin) * (sourceValue - sourceRangeMin)) /
      (sourceRangeMax - sourceRangeMin)

/-! ## SineOscillator -/

/-- The members of `SineOscillator`. -/
structure SineOscillator where
  currentAngle : ℚ
  angleDelta : ℚ

namespace SineOscillator

/-- Constructor: `currentAngle = 0.0f, angleDelta = 0.0f`. -/
def create : SineOscillator := { currentAngle := 0, angleDelta := 0 }

/-- Source function `SineOscillator::setFrequency (frequency, sampleRate)`; `twoPi`
is the library constant `juce::MathConstants<float>::twoPi`. -/
def setFrequency (twoPi : ℚ) (o : SineOscillator) (frequency sampleRate : ℚ) : SineOscillator :=
  let cyclesPerSample := frequency / sampleRate
  { o with angleDelta := cyclesPerSample * twoPi }

/-- Source function `SineOscillator::updateAngle`. -/
def updateAngle (twoPi : ℚ) (o : SineOscillator) : SineOscillator :=
  let advanced := o.currentAngle + o.angleDelta
  { o with currentAngle := if advanced ≥ twoPi then advanced - twoPi else advanced }

/-- Source function `SineOscillator::getNextSample`; `sin` is the library
function `std::sin`. -/
def getNextSample (sin : ℚ → ℚ) (twoPi : ℚ) (o : SineOscillator) : ℚ × SineOscillator :=
  let currentSample := sin o.currentAngle
  (currentSample, o.updateAngle twoPi)

/-- The oscillator after `n` successive `getNextSample` calls. -/
def afterCalls (sin : ℚ → ℚ) (twoPi : ℚ) : Nat → SineOscillator → SineOscillator
  | 0, o => o
  | n + 1, o => afterCalls sin twoPi n (o.getNextSample sin twoPi).2

end SineOscillator

/-! ## createWavetable -/

namespace MainContentComponent

/-- Source constant `MainContentComponent::tableSize = 1 << 7`. -/
def tableSize : Nat := 1 <<< 7

/-- Source array `harmonics` of `createWavetable`. -/
def harmonics : List Nat := [1, 3, 5, 6, 7, 9, 13, 15]

/-- Source array `harmonicWeights` of `createWavetable`. -/
def harmonicWeights {K : Type} [Field K] : List K :=
  [0.5, 0.1, 0.05, 0.125, 0.09, 0.005, 0.002, 0.001]

/-- The inner loop of `createWavetable` for one harmonic: for `i` from 0 below
`tableSize`, `samples[i] += sin (currentAngle) * weight` and
`currentAngle += angleDelta`, with `currentAngle` starting at 0. -/
def addHarmonic {K : Type} [Field K] (sin : K → K) (twoPi : K) (samples : List K)
    (harmonic : Nat) (weight : K) : List K :=
  let angleDelta := twoPi / ((tableSize - 1 : Nat) : K) * (harmonic : K)
  ((List.range tableSize).foldl
    (fun (st : List K × K) (i : Nat) =>
      let sample := sin st.2
      (st.1.set i (st.1.getD i 0 + sample * weight), st.2 + angleDelta))
    (samples, 0)).1

/-- Source function `MainContentComponent::createWavetable`: the samples of the
single channel of `sineTable` afterwards.  `sin` is the library function
`std::sin` and `twoPi` the library constant `juce::MathConstants<double>::twoPi`;
the sample type `K` is any field (the conversions between `float` and `double`
are not modelled). -/
def createWavetable {K : Type} [Field K] (sin : K → K) (twoPi : K) : List K :=
  let cleared : List K := List.replicate (tableSize + 1) 0
  let samples := (List.zip harmonics harmonicWeights).foldl
    (fun s hw => addHarmonic sin twoPi s hw.1 hw.2) cleared
  samples.set tableSize (samples.getD 0 0)

end MainContentComponent

/-! ## Voice -/

/-- Library type `juce::dsp::ProcessSpec`. -/
structure ProcessSpec where
  sampleRate : ℚ
  maximumBlockSize : Nat
  numChannels : Nat

/-- Library types `juce::AudioBuffer<float>` and `juce::dsp::AudioBlock<float>`:
`numChannels` channels of `numSamples` samples, `data ch i` being sample `i` of
channel `ch`. -/
structure AudioBlock where
  numChannels : Nat
  numSamples : Nat
  data : Nat → Nat → ℚ

/-- The JUCE processors a `Voice` owns, whose code is library code outside this
repository, as parameters: `L` is the state of the `juce::dsp::Oscillator` used
as LFO and `C` the state of the `juce::dsp::ProcessorChain` (two oscillators,
ladder filter, gain).  `chainProcess c block` is `processorChain.process` on a
replacing context over `block`: the chain afterwards and the samples it left in
the block. -/
structure VoiceProcessors (L C : Type) where
  lfoPrepare : L → ProcessSpec → L
  lfoProcessSample : L → ℚ → ℚ × L
  setCutoffFrequencyHz : C → ℚ → C
  chainPrepare : C → ProcessSpec → C
  chainReset : C → C
  chainProcess : C → AudioBlock → C × (Nat → Nat → ℚ)

/-- Source constant `Voice::lfoDownsamplingRatio`. -/
def lfoDownsamplingRatio : Nat := 128

/-- The members of `Voice`: the scratch block `tempBlock` (with its storage
`heapBlock`), `processorChain`, `lfoProcessingIndex` and `lfo`. -/
structure Voice (L C : Type) where
  tempBlock : AudioBlock
  processorChain : C
  lfoProcessingIndex : Nat
  lfo : L

/-- The pre-decrement `--x` of a `size_t`. -/
def sizeDecrement (x : Nat) : Nat := if x = 0 then 2 ^ 64 - 1 else x - 1

namespace Voice

variable {L C : Type}

/-- Constructor `Voice ()`: `lfo0` and `chain0` are the LFO and the chain as the
constructor configures them, `lfoProcessingIndex = lfoDownsamplingRatio`, and
`tempBlock` is an empty block. -/
def create (lfo0 : L) (chain0 : C) : Voice L C :=
  { tempBlock := { numChannels := 0, numSamples := 0, data := fun _ _ => 0 },
    processorChain := chain0, lfoProcessingIndex := lfoDownsamplingRatio, lfo := lfo0 }

/-- Source function `Voice::prepare (spec)`; `storage` is the content of the
memory newly allocated for `tempBlock`. -/
def prepare (p : VoiceProcessors L C) (v : Voice L C) (spec : ProcessSpec)
    (storage : Nat → Nat → ℚ) : Voice L C :=
  { v with
    lfo := p.lfoPrepare v.lfo
      { sampleRate := spec.sampleRate / (lfoDownsamplingRatio : ℚ),
        maximumBlockSize := spec.maximumBlockSize, numChannels := 1 },
    tempBlock := { numChannels := spec.numChannels, numSamples := spec.maximumBlockSize,
                   data := storage },
    processorChain := p.chainPrepare v.processorChain spec }

/-- The call `processorChain.reset ()` on the chain of the voice, as
`CustomOscillator::reset` does on its own chain; the class `Voice` has no
`reset` function of its own. -/
def resetProcessorChain (p : VoiceProcessors L C) (v : Voice L C) : Voice L C :=
  { v with processorChain := p.chainReset v.processorChain }

/-- The `for` loop of `Voice::renderNextBlock` over `numSamples` samples.  The
second component lists the values passed to `setCutoffFrequencyHz`, in call
order. -/
def lfoLoop (p : VoiceProcessors L C) : Nat → Voice L C → Voice L C × List ℚ
  | 0, v => (v, [])
  | n + 1, v =>
    if sizeDecrement v.lfoProcessingIndex = 0 then
      let lfoOut := (p.lfoProcessSample v.lfo 0).1
      let cutoffHz := jmap lfoOut (-1) 1 100 4000
      let r := lfoLoop p n
        { v with lfoProcessingIndex := lfoDownsamplingRatio,
                 lfo := (p.lfoProcessSample v.lfo 0).2,
                 processorChain := p.setCutoffFrequencyHz v.processorChain cutoffHz }
      (r.1, cutoffHz :: r.2)
    else
      lfoLoop p n { v with lfoProcessingIndex := sizeDecrement v.lfoProcessingIndex }

/-- Source function `Voice::renderNextBlock (outputBuffer, startSample,
numSamples)`: the voice afterwards, the output buffer afterwards and the values
passed to `setCutoffFrequencyHz` during the call.  The block operations are those
of `juce::dsp::AudioBlock`: `getSubBlock (0, numSamples)` and `clear` on the
scratch block, then `add` of the scratch block to the sub-block of the output
buffer at `startSample`, over the smaller of the two lengths. -/
def renderNextBlock (p : VoiceProcessors L C) (v : Voice L C) (outputBuffer : AudioBlock)
    (startSample numSamples : Nat) : Voice L C × AudioBlock × List ℚ :=
  let r := lfoLoop p numSamples v
  let v1 := r.1
  let cleared : Nat → Nat → ℚ := fun ch i =>
    if ch < v1.tempBlock.numChannels ∧ i < numSamples then 0 else v1.tempBlock.data ch i
  let block : AudioBlock :=
    { numChannels := v1.tempBlock.numChannels, numSamples := numSamples, data := cleared }
  let processed := p.chainProcess v1.processorChain block
  let rendered : Nat → Nat → ℚ := fun ch i =>
    if ch < v1.tempBlock.numChannels ∧ i < numSamples then processed.2 ch i else cleared ch i
  let n := min numSamples v1.tempBlock.numSamples
  let mixed : Nat → Nat → ℚ := fun ch j =>
    if ch < outputBuffer.numChannels ∧ startSample ≤ j ∧ j < startSample + n then
      outputBuffer.data ch j + rendered ch (j - startSample)
    else outputBuffer.data ch j
  ({ v1 with tempBlock := { v1.tempBlock with data := rendered },
             processorChain := processed.1 },
    { outputBuffer with data := mixed }, r.2)

/-- Successive `renderNextBlock` calls on the same output buffer, one per pair
`(startSample, numSamples)` of the list; the third component lists the values
passed to `setCutoffFrequencyHz` during all the calls. -/
def renderBlocks (p : VoiceProcessors L C) (v : Voice L C) (outputBuffer : AudioBlock) :
    List (Nat × Nat) → Voice L C × AudioBlock × List ℚ
  | [] => (v, outputBuffer, [])
  | (startSample, numSamples) :: blocks =>
    let r := renderNextBlock p v outputBuffer startSample numSamples
    let rs := renderBlocks p r.1 r.2.1 blocks
    (rs.1, rs.2.1, r.2.2 ++ rs.2.2)

end Voice

/-- The number of samples rendered by a list of `(startSample, numSamples)`
calls. -/
def totalSamples (blocks : List (Nat × Nat)) : Nat := (blocks.map Prod.snd).sum

/-! ## AudioEngine (juce::MPESynthesiser) -/

/-- Library type `juce::MPENote::KeyState`. -/
inductive KeyState where
  | off
  | keyDown
  | sustained
  | keyDownAndSustained
  deriving DecidableEq, Repr

/-- The part of the library type `juce::MPENote` that voice allocation looks at:
the note number `initialNote` and the `keyState`. -/
structure MPENote where
  initialNote : Nat
  keyState : KeyState
  deriving DecidableEq, Repr

/-- The members of the library class `juce::MPESynthesiserVoice`, the base class
of `Voice`, that voice allocation uses: `currentlyPlayingNote` (`none` for the
invalid note of an idle voice) and `noteOnTime`. -/
structure MPESynthesiserVoice where
  currentlyPlayingNote : Option MPENote
  noteOnTime : Nat
  deriving DecidableEq, Repr

namespace MPESynthesiserVoice

/-- Library function `MPESynthesiserVoice::isActive`:
`currentlyPlayingNote.isValid ()`. -/
def isActive (v : MPESynthesiserVoice) : Bool := v.currentlyPlayingNote.isSome

/-- Library function `MPESynthesiserVoice::isPlayingButReleased`:
`isActive () && currentlyPlayingNote.keyState == MPENote::off`. -/
def isPlayingButReleased (v : MPESynthesiserVoice) : Bool :=
  match v.currentlyPlayingNote with
  | some note => note.keyState == KeyState.off
  | none => false

/-- The note number `getCurrentlyPlayingNote ().initialNote`, 0 for an idle
voice. -/
def initialNote (v : MPESynthesiserVoice) : Nat :=
  match v.currentlyPlayingNote with
  | some note => note.initialNote
  | none => 0

/-- The test `keyState != keyDown && keyState != keyDownAndSustained` of
`findVoiceToSteal`. -/
def hasNoFingerOnIt (v : MPESynthesiserVoice) : Bool :=
  match v.currentlyPlayingNote with
  | some note => note.keyState != KeyState.keyDown && note.keyState != KeyState.keyDownAndSustained
  | none => true

end MPESynthesiserVoice

/-- The members of `AudioEngine` inherited from the library class
`juce::MPESynthesiser` that voice allocation uses: the `voices`, the counter
`lastNoteOnCounter` and the flag `shouldStealVoices`. -/
structure AudioEngine where
  voices : List MPESynthesiserVoice
  lastNoteOnCounter : Nat
  shouldStealVoices : Bool
  deriving DecidableEq, Repr

namespace AudioEngine

/-- Source constant `AudioEngine::maxNumVoices`. -/
def maxNumVoices : Nat := 4

/-- Source constructor `AudioEngine ()`: `maxNumVoices` calls of `addVoice (new
Voice)`, each voice idle, then `setVoiceStealingEnabled (true)`. -/
def create : AudioEngine :=
  { voices := List.replicate maxNumVoices { currentlyPlayingNote := none, noteOnTime := 0 },
    lastNoteOnCounter := 0,
    shouldStealVoices := true }

/-- The loop of `findVoiceToSteal` that finds the voices to protect: `low` and
`top` are the indices of the voices with the lowest and the highest note among
those not released, the first such voice winning a tie. -/
def lowAndTop (voices : List MPESynthesiserVoice) : Option Nat × Option Nat :=
  (List.range voices.length).foldl
    (fun (lt : Option Nat × Option Nat) (i : Nat) =>
      let voice := voices.getD i { currentlyPlayingNote := none, noteOnTime := 0 }
      if ! voice.isPlayingButReleased then
        let noteNumber := voice.initialNote
        let low :=
          match lt.1 with
          | none => some i
          | some l =>
            if noteNumber < (voices.getD l
                { currentlyPlayingNote := none, noteOnTime := 0 }).initialNote
            then some i else some l
        let top :=
          match lt.2 with
          | none => some i
          | some t =>
            if noteNumber > (voices.getD t
                { currentlyPlayingNote := none, noteOnTime := 0 }).initialNote
            then some i else some t
        (low, top)
      else lt)
    (none, none)

/-- Library function `MPESynthesiser::findVoiceToSteal (noteToStealVoiceFor)`,
called when every voice is active; the result is the index of the voice chosen.
The candidates are sorted by `noteOnTime`, oldest first. -/
def findVoiceToSteal (e : AudioEngine) (noteToStealVoiceFor : MPENote) : Option Nat :=
  let voiceAt := fun i => e.voices.getD i { currentlyPlayingNote := none, noteOnTime := 0 }
  let usableVoicesToStealArray :=
    (List.range e.voices.length).insertionSort
      (fun a b => (voiceAt a).noteOnTime ≤ (voiceAt b).noteOnTime)
  let lt := lowAndTop e.voices
  let low := lt.1
  let top := if lt.2 = lt.1 then none else lt.2
  let sameNote := usableVoicesToStealArray.find?
    (fun i => (voiceAt i).initialNote == noteToStealVoiceFor.initialNote)
  let released := usableVoicesToStealArray.find?
    (fun i => some i != low && some i != top && (voiceAt i).isPlayingButReleased)
  let noFinger := usableVoicesToStealArray.find?
    (fun i => some i != low && some i != top && (voiceAt i).hasNoFingerOnIt)
  let unprotected := usableVoicesToStealArray.find?
    (fun i => some i != low && some i != top)
  match sameNote with
  | some i => some i
  | none =>
    match released with
    | some i => some i
    | none =>
      match noFinger with
      | some i => some i
      | none =>
        match unprotected with
        | some i => some i
        | none => if top.isSome then top else low

/-- Library function `MPESynthesiser::findFreeVoice (noteToFindVoiceFor,
stealIfNoneAvailable)`: the first voice that is not active, else the voice to
steal when stealing is allowed. -/
def findFreeVoice (e : AudioEngine) (noteToFindVoiceFor : MPENote)
    (stealIfNoneAvailable : Bool) : Option Nat :=
  match (List.range e.voices.length).find?
      (fun i => ! (e.voices.getD i { currentlyPlayingNote := none, noteOnTime := 0 }).isActive) with
  | some i => some i
  | none => if stealIfNoneAvailable then findVoiceToSteal e noteToFindVoiceFor else none

/-- Library function `MPESynthesiser::startVoice (voice, noteToStart)`:
`currentlyPlayingNote = noteToStart`, `noteOnTime = lastNoteOnCounter++`; the
note the voice played before is dropped without a call of `noteStopped`. -/
def startVoice (e : AudioEngine) (voice : Nat) (noteToStart : MPENote) : AudioEngine :=
  { e with
    voices := e.voices.set voice
      { currentlyPlayingNote := some noteToStart, noteOnTime := e.lastNoteOnCounter },
    lastNoteOnCounter := e.lastNoteOnCounter + 1 }

/-- Library function `MPESynthesiser::noteAdded (newNote)`, the reaction of the
engine to a note-on. -/
def noteAdded (e : AudioEngine) (newNote : MPENote) : AudioEngine :=
  match findFreeVoice e newNote e.shouldStealVoices with
  | some voice => startVoice e voice newNote
  | none => e

/-- Successive note-on events with the given note numbers, each key held down,
with no note-off in between. -/
def noteOns (e : AudioEngine) : List Nat → AudioEngine
  | [] => e
  | n :: ns => noteOns (noteAdded e { initialNote := n, keyState := KeyState.keyDown }) ns

/-- The note numbers the voices play, in voice order. -/
def playing (e : AudioEngine) : List (Option Nat) :=
  e.voices.map (fun v => v.currentlyPlayingNote.map (fun n => n.initialNote))

/-- The engine after four held notes: every voice plays, in trigger order. -/
def fourHeld (n1 n2 n3 n4 : Nat) : AudioEngine :=
  { voices :=
      [{ currentlyPlayingNote := some { initialNote := n1, keyState := KeyState.keyDown },
         noteOnTime := 0 },
       { currentlyPlayingNote := some { initialNote := n2, keyState := KeyState.keyDown },
         noteOnTime := 1 },
       { currentlyPlayingNote := some { initialNote := n3, keyState := KeyState.keyDown },
         noteOnTime := 2 },
       { currentlyPlayingNote := some { initialNote := n4, keyState := KeyState.keyDown },
         noteOnTime := 3 }],
    lastNoteOnCounter := 4,
    shouldStealVoices := true }

/-- The index, among four voices with the given note numbers, of the first voice
with the lowest number. -/
def firstLowest (n1 n2 n3 n4 : Nat) : Nat :=
  if n2 < n1 then (if n3 < n2 then (if n4 < n3 then 3 else 2) else (if n4 < n2 then 3 else 1))
  else (if n3 < n1 then (if n4 < n3 then 3 else 2) else (if n4 < n1 then 3 else 0))

/-- The index, among four voices with the given note numbers, of the first voice
with the highest number. -/
def firstHighest (n1 n2 n3 n4 : Nat) : Nat :=
  if n2 > n1 then (if n3 > n2 then (if n4 > n3 then 3 else 2) else (if n4 > n2 then 3 else 1))
  else (if n3 > n1 then (if n4 > n3 then 3 else 2) else (if n4 > n1 then 3 else 0))

end AudioEngine

/-! ## ScopeDataCollector::process with checked bounds -/

namespace ScopeDataCollector

/-- The first loop of `process` with the loop counter `index` and the read
position `pos` of the pointer `data` spelled out; `data` lists the samples the
pointer may read, and a read outside them gives `none`.  The result is the
collector, `index` and `pos` after the loop. -/
def waitLoopChecked (c : ScopeDataCollector) (data : List ℚ) (numSamples : Nat)
    (index pos : Nat) : Option (ScopeDataCollector × Nat × Nat) :=
  if index < numSamples then
    match data[pos]? with
    | none => none
    | some currentSample =>
      if currentSample ≥ triggerLevel ∧ c.prevSample < triggerLevel then
        some ({ c with numCollected := 0, state := State.collecting }, index + 1, pos + 1)
      else
        waitLoopChecked { c with prevSample := currentSample } data numSamples (index + 1)
          (pos + 1)
  else
    some (c, index + 1, pos)
termination_by numSamples - index

/-- The second loop of `process` with `index` and `pos` spelled out; a read
outside `data` or a write to `buffer` at an index not below `bufferSize` gives
`none`. -/
def collectLoopChecked (c : ScopeDataCollector) (q : AudioBufferQueue ℚ) (data : List ℚ)
    (numSamples : Nat) (index pos : Nat) : Option (ScopeDataCollector × AudioBufferQueue ℚ) :=
  if index < numSamples then
    match data[pos]? with
    | none => none
    | some sample =>
      if c.numCollected < bufferSize then
        let c1 := { c with buffer := Function.update c.buffer c.numCollected sample,
                           numCollected := c.numCollected + 1 }
        if c1.numCollected = bufferSize then
          some ({ c1 with state := State.waitingForTrigger, prevSample := 100 },
            q.push c1.buffer bufferSize)
        else
          collectLoopChecked c1 q data numSamples (index + 1) (pos + 1)
      else none
  else
    some (c, q)
termination_by numSamples - index

/-- Source function `ScopeDataCollector::process (data, numSamples)` with every
read of `data` and every write to `buffer` checked against the bounds: `none`
when one of them is out of bounds. -/
def processChecked (c : ScopeDataCollector) (q : AudioBufferQueue ℚ) (data : List ℚ)
    (numSamples : Nat) : Option (ScopeDataCollector × AudioBufferQueue ℚ) :=
  match (if c.state = State.waitingForTrigger then waitLoopChecked c data numSamples 0 0
         else some (c, 0, 0)) with
  | none => none
  | some r =>
    if r.1.state = State.collecting then collectLoopChecked r.1 q data numSamples r.2.1 r.2.2
    else some (r.1, q)

/-- The collector states that occur: that of a newly constructed collector and
those after a `process` call on a state that occurs. -/
inductive Reachable : ScopeDataCollector → Prop where
  | create (b : Nat → ℚ) (n : Nat) : Reachable (create b n)
  | process {c : ScopeDataCollector} (q : AudioBufferQueue ℚ) (data : List ℚ) :
      Reachable c → Reachable (process c q data).1

end ScopeDataCollector

/-! ## Rounding to double -/

/-- Rounding of a rational to the nearest integer, ties to the even one. -/
def roundHalfEven (q : ℚ) : Int :=
  if q - ⌊q⌋ < 1 / 2 then ⌊q⌋
  else if 1 / 2 < q - ⌊q⌋ then ⌊q⌋ + 1
  else if ⌊q⌋ % 2 = 0 then ⌊q⌋ else ⌊q⌋ + 1

/-- The spacing of the `double` values at `x`: `2 ^ (e - 52)` for
`2 ^ e ≤ |x| < 2 ^ (e + 1)`, and `2 ^ (-1074)` in the subnormal range. -/
def doubleUlp (x : ℚ) : ℚ := (2 : ℚ) ^ (max (Int.log 2 |x| - 52) (-1074))

/-- The `double` nearest to `x` (IEEE 754 binary64, round to nearest, ties to
even): the result of a `double` operation whose exact result is `x`, for results
of magnitude below `2 ^ 1024`. -/
def roundToDouble (x : ℚ) : ℚ := (roundHalfEven (x / doubleUlp x) : ℚ) * doubleUlp x

/-! ## MIDI tutorial: message time code and pad colours -/

/-- The conversion `(int) x` of a `double`: truncation toward zero. -/
def toInt (x : ℚ) : Int := if 0 ≤ x then ⌊x⌋ else ⌈x⌉

/-- The four integers `addMessageToList` passes to `String::formatted`. -/
structure Timecode where
  hours : Int
  minutes : Int
  seconds : Int
  millis : Int
  deriving DecidableEq, Repr

/-- One MIDI message: its raw bytes. -/
structure MidiMessage where
  bytes : List Nat
  deriving DecidableEq, Repr

namespace MidiMessage

/-- Library function `juce::MidiMessage::setChannel (channelNumber)`: for a
message that is not a system message, the low four bits of the status byte
become `channelNumber - 1`. -/
def setChannel (m : MidiMessage) (channelNumber : Nat) : MidiMessage :=
  match m.bytes with
  | [] => m
  | status :: rest =>
    if status &&& 0xf0 ≠ 0xf0 then
      { bytes := ((status &&& 0xf0) ||| ((channelNumber - 1) % 256)) :: rest }
    else m

/-- Library function `juce::MidiMessage::getChannel`: 0 for a system message,
otherwise the low four bits of the status byte plus one. -/
def getChannel (m : MidiMessage) : Nat :=
  if m.bytes.getD 0 0 &&& 0xf0 ≠ 0xf0 then (m.bytes.getD 0 0 &&& 0xf) + 1 else 0

/-- Library function `juce::MidiMessage::isNoteOn` with its default argument: the
status is `0x90` on some channel and the velocity byte is not zero. -/
def isNoteOn (m : MidiMessage) : Bool :=
  m.bytes.getD 0 0 &&& 0xf0 == 0x90 && m.bytes.getD 2 0 != 0

/-- Library function `juce::MidiMessage::getNoteNumber`: the second byte. -/
def getNoteNumber (m : MidiMessage) : Nat := m.bytes.getD 1 0

/-- Library function `juce::MidiMessage::getVelocity` for a note message: the
third byte. -/
def getVelocity (m : MidiMessage) : Nat := m.bytes.getD 2 0

end MidiMessage

namespace MainContentComponent

/-- The value of `time` in `addMessageToList`: the `double` difference
`message.getTimeStamp() - startTime`. -/
def elapsedTime (timeStamp startTime : ℚ) : ℚ := roundToDouble (timeStamp - startTime)

/-- The computation of the time code in source function
`MainContentComponent::addMessageToList`, from the time stamp of the message and
`startTime`.  Every operation on `double` values rounds its exact result to the
nearest `double`; `%` on `int` is the truncating remainder. -/
def addMessageToList (timeStamp startTime : ℚ) : Timecode :=
  let time := elapsedTime timeStamp startTime
  { hours := (toInt (roundToDouble (time / 3600))).tmod 24,
    minutes := (toInt (roundToDouble (time / 60))).tmod 60,
    seconds := (toInt time).tmod 60,
    millis := (toInt (roundToDouble (time * 1000))).tmod 1000 }

/-- The body of the inner loop of the pad loop in `setMidiInput`: the message
sent for `row` and `col` on `channel`; `note` and `color` are `u_char`. -/
def padMessage (channel row col : Nat) : MidiMessage :=
  let note := (11 + (row * 8) + col) % 256
  let color := (44 + (col * 8) + row) % 256
  MidiMessage.setChannel { bytes := [0x90, note, color] } channel

/-- The pad loop of source function `MainContentComponent::setMidiInput`: the
messages passed to `sendMessageNow`, in order.  The state of the outer loop is
the messages sent so far and `channel`, which starts at 1. -/
def padLoop : List MidiMessage :=
  ((List.range 8).foldl
    (fun (st : List MidiMessage × Nat) (row : Nat) =>
      let sent := (List.range 8).foldl
        (fun (msgs : List MidiMessage) (col : Nat) => msgs ++ [padMessage st.2 row col]) st.1
      let channel := st.2 + 1
      (sent, if channel > 3 then 1 else channel))
    ([], 1)).1

end MainContentComponent

/-! ## Interleaved use of the queue -/

/-- One call on an `AudioBufferQueue`: `push (dataToPush, numSamples)` or
`pop (outputBuffer)`. -/
inductive QueueOp (α : Type) where
  | push (dataToPush : Nat → α) (numSamples : Nat)
  | pop (outputBuffer : Nat → α)

namespace AudioBufferQueue

variable {α : Type}

/-- The queue after the calls of the list, in order. -/
def runOps (q : AudioBufferQueue α) : List (QueueOp α) → AudioBufferQueue α
  | [] => q
  | QueueOp.push d n :: ops => runOps (q.push d n) ops
  | QueueOp.pop out :: ops => runOps (q.pop out).1 ops

/-- The arguments `(dataToPush, numSamples)` of the `push` calls of the list that
were not dropped, in call order: those for which `prepareToWrite` granted a slot
(`size1 > 0` in `push`). -/
def acceptedPushes (q : AudioBufferQueue α) : List (QueueOp α) → List ((Nat → α) × Nat)
  | [] => []
  | QueueOp.push d n :: ops =>
    if (q.abstractFifo.prepareToWrite 1).blockSize1 > 0 then
      (d, n) :: acceptedPushes (q.push d n) ops
    else acceptedPushes (q.push d n) ops
  | QueueOp.pop out :: ops => acceptedPushes (q.pop out).1 ops

/-- The output buffers, as they are after the call, of the `pop` calls of the
list that returned data, in call order: those for which `prepareToRead` granted a
slot (`size1 > 0` in `pop`). -/
def returnedPops (q : AudioBufferQueue α) : List (QueueOp α) → List (Nat → α)
  | [] => []
  | QueueOp.push d n :: ops => returnedPops (q.push d n) ops
  | QueueOp.pop out :: ops =>
    if (q.abstractFifo.prepareToRead 1).blockSize1 > 0 then
      (q.pop out).2 :: returnedPops (q.pop out).1 ops
    else returnedPops (q.pop out).1 ops

/-- A buffer holds the data of a push: it agrees with `dataToPush` on the samples
the push copies, the first `min bufferSize numSamples`. -/
def HoldsDataOf (s : Nat → α) (p : (Nat → α) × Nat) : Prop :=
  ∀ i, i < min bufferSize p.2 → s i = p.1 i

instance [DecidableEq α] (s : Nat → α) (p : (Nat → α) × Nat) : Decidable (HoldsDataOf s p) := by
  unfold HoldsDataOf
  infer_instance

end AudioBufferQueue

namespace MainContentComponent

/-- The sample the specification gives for index `i` of the wavetable, in its
words: the sum over the harmonics `h` with weight `w` of
`w * sin (2π * h * i / (tableSize - 1))`.  It is compared with
`createWavetable`, which is translated from the source. -/
def harmonicSum {K : Type} [Field K] (sin : K → K) (twoPi : K) (i : Nat) : K :=
  ((List.zip harmonics harmonicWeights).map
    (fun hw => hw.2 * sin (twoPi * (hw.1 : K) * (i : K) / ((tableSize : K) - 1)))).sum

end MainContentComponent

/-! ## getNextAudioBlock of the synthesiser tutorials -/

/-- The members `level` and `oscillators` of `MainContentComponent` in the two
synthesiser tutorials; `O` is the type of the oscillators, `SineOscillator` in
`WavetableSynthTutorial_01.h` and `WavetableOscillator` in
`WavetableSynthTutorial_04.h`. -/
structure SynthState (O : Type) where
  level : ℚ
  oscillators : List O

namespace MainContentComponent

variable {O : Type}

/-- A newly constructed component: `level = 0.0f` and no oscillators. -/
def create : SynthState O := { level := 0, oscillators := [] }

end MainContentComponent

/-! ## Concrete inputs -/

/-- A stream that starts below the trigger level, crosses it at its second
sample and goes on with 512 samples of value 2: `0, 1, 2, 2, ..., 2`. -/
def risingStream : List ℚ := 0 :: 1 :: List.replicate 512 2

/-- A wavetable of `tableSize + 1 = 129` samples, all 0. -/
def zeroTable : List ℚ := List.replicate 129 0

/-- An oscillator over a table of `tableSize + 1 = 129` samples after
`setFrequency (8192, 32768)`: a quarter of the sample rate, below `sr / 2`. -/
def quarterRateOscillator : WavetableOscillator :=
  (WavetableOscillator.create zeroTable).setFrequency 8192 32768

/-- Five distinguishable snapshots: snapshot `j` holds the value `j + 1` in
every sample. -/
def fiveSnapshots : List (Nat → Nat) :=
  [fun _ => 1, fun _ => 2, fun _ => 3, fun _ => 4, fun _ => 5]

/-- An output buffer holding 0 in every sample. -/
def zeroBuffer : Nat → Nat := fun _ => 0

/-- A collector waiting for the trigger whose previous sample 0 was below the
trigger level. -/
def waitingBelow : ScopeDataCollector :=
  { buffer := fun _ => 0, numCollected := 7, prevSample := 0,
    state := State.waitingForTrigger }

/-- A collector one sample short of a full capture. -/
def almostFull : ScopeDataCollector :=
  { buffer := fun _ => 3, numCollected := 511, prevSample := 0, state := State.collecting }

/-- The value of `juce::MathConstants<float>::twoPi`: the `float` nearest to 2π,
`13176795 / 2^21 = 6.2831854820251465`. -/
def twoPiFloat : ℚ := 13176795 / 2097152

/-- An oscillator over the table of 129 zeros whose index 1/2 lies between two
table positions. -/
def halfIndexOscillator : WavetableOscillator :=
  { wavetable := zeroTable, tableSize := 128, currentIndex := 1 / 2, tableDelta := 32 }

/-- Stand-ins for the JUCE processors.  The LFO has no state and always outputs 1;
the state of the chain is the cutoff last set, which `prepare` and `reset` keep
and which `process` writes into every sample of the block. -/
def constantProcessors : VoiceProcessors Unit ℚ :=
  { lfoPrepare := fun l _ => l,
    lfoProcessSample := fun l _ => (1, l),
    setCutoffFrequencyHz := fun _ x => x,
    chainPrepare := fun c _ => c,
    chainReset := fun c => c,
    chainProcess := fun c _ => (c, fun _ _ => c) }

/-- A stereo setup: 44100 Hz, blocks of at most 512 samples, 2 channels. -/
def stereoSpec : ProcessSpec := { sampleRate := 44100, maximumBlockSize := 512, numChannels := 2 }

/-- A newly constructed voice (filter cutoff 500 Hz) after `prepare (stereoSpec)`. -/
def preparedVoice : Voice Unit ℚ :=
  Voice.prepare constantProcessors (Voice.create () 500) stereoSpec (fun _ _ => 0)

/-- A stereo output buffer of 512 samples, all 0. -/
def silentBuffer : AudioBlock := { numChannels := 2, numSamples := 512, data := fun _ _ => 0 }

/-- The prepared voice after rendering one sample, a reset of its chain and a
second `prepare (stereoSpec)`. -/
def preparedAgainVoice : Voice Unit ℚ :=
  Voice.prepare constantProcessors
    (Voice.resetProcessorChain constantProcessors
      (Voice.renderNextBlock constantProcessors preparedVoice silentBuffer 0 1).1)
    stereoSpec (fun _ _ => 0)

/-- A newly constructed queue whose slots hold the value 7 everywhere. -/
def staleQueue : AudioBufferQueue Nat := AudioBufferQueue.create (fun _ _ => 7)

/-- The `double` nearest to 1056.827, `4647974300190507 / 2 ^ 42`. -/
def offGridTimeStamp : ℚ := 4647974300190507 / 4398046511104

/-! ## Queue lemmas -/

namespace AudioBufferQueue

variable {α : Type}

theorem wellFormed_create (b : Nat → Nat → α) : (create b).WellFormed := by
  simp [WellFormed, create, AbstractFifo.create, numBuffers]

/-- Every well-formed state is one of the 25 cursor positions of the ring. -/
@[elab_as_elim]
theorem WellFormed.ind {motive : AudioBufferQueue α → Prop} {q : AudioBufferQueue α}
    (h : q.WellFormed)
    (H : ∀ (vs ve : Nat) (b : Nat → Nat → α), vs < 5 → ve < 5 →
      motive { abstractFifo := { bufferSize := 5, validStart := vs, validEnd := ve },
               buffers := b }) : motive q := by
  obtain ⟨⟨bs, vs, ve⟩, b⟩ := q
  simp only [WellFormed, numBuffers] at h
  obtain ⟨h1, h2, h3, h4, h5⟩ := h
  have e1 : ((vs.toNat : Nat) : Int) = vs := Int.toNat_of_nonneg h2
  have e2 : ((ve.toNat : Nat) : Int) = ve := Int.toNat_of_nonneg h4
  have := H vs.toNat ve.toNat b (by omega) (by omega)
  rw [e1, e2] at this
  subst h1
  exact this

theorem push_wellFormed {q : AudioBufferQueue α} (h : q.WellFormed) (d : Nat → α) (n : Nat) :
    (q.push d n).WellFormed := by
  refine WellFormed.ind h ?_
  intro vs ve b hvs hve
  interval_cases vs <;> interval_cases ve <;>
    simp [WellFormed, push, AbstractFifo.prepareToWrite, AbstractFifo.finishedWrite, numBuffers]

theorem pop_wellFormed {q : AudioBufferQueue α} (h : q.WellFormed) (out : Nat → α) :
    (q.pop out).1.WellFormed := by
  refine WellFormed.ind h ?_
  intro vs ve b hvs hve
  interval_cases vs <;> interval_cases ve <;>
    simp [WellFormed, pop, AbstractFifo.prepareToRead, AbstractFifo.finishedRead, numBuffers]

/-- A push into a ring without free space changes nothing. -/
theorem push_of_full {q : AudioBufferQueue α} (h : q.WellFormed)
    (hfull : q.abstractFifo.getFreeSpace = 0) (d : Nat → α) (n : Nat) : q.push d n = q := by
  revert hfull
  refine WellFormed.ind h ?_
  intro vs ve b hvs hve
  interval_cases vs <;> interval_cases ve <;>
    simp [push, AbstractFifo.prepareToWrite, AbstractFifo.finishedWrite,
      AbstractFifo.getFreeSpace, AbstractFifo.getNumReady]

/-- A push into a ring with free space appends the written slot to the unread
snapshots; the slots already unread keep their content. -/
theorem unread_push_of_free {q : AudioBufferQueue α} (h : q.WellFormed)
    (hfree : 0 < q.abstractFifo.getFreeSpace) (d : Nat → α) (n : Nat) :
    (q.push d n).unread =
      q.unread ++ [copy (q.buffers q.abstractFifo.validEnd.toNat) d (min bufferSize n)] := by
  revert hfree
  refine WellFormed.ind h ?_
  intro vs ve b hvs hve
  interval_cases vs <;> interval_cases ve <;>
    simp [push, unread, unreadSlots, AbstractFifo.prepareToWrite, AbstractFifo.finishedWrite,
      AbstractFifo.getFreeSpace, AbstractFifo.getNumReady, numBuffers, List.range_succ,
      Function.update]

theorem length_unread {q : AudioBufferQueue α} :
    (q.unread.length : Int) = max q.numUnread 0 := by
  simp [unread, unreadSlots, numUnread, Int.toNat_eq_max]

theorem getFreeSpace_eq {q : AudioBufferQueue α} (h : q.WellFormed) :
    q.abstractFifo.getFreeSpace = 4 - q.numUnread := by
  simp only [AbstractFifo.getFreeSpace, numUnread, h.1, numBuffers]
  omega

theorem numUnread_range {q : AudioBufferQueue α} (h : q.WellFormed) :
    0 ≤ q.numUnread ∧ q.numUnread ≤ 4 := by
  refine WellFormed.ind h ?_
  intro vs ve b hvs hve
  interval_cases vs <;> interval_cases ve <;>
    simp [numUnread, AbstractFifo.getNumReady]

/-- A pop from a ring without unread data changes neither queue nor output. -/
theorem pop_of_empty {q : AudioBufferQueue α} (h : q.WellFormed)
    (hempty : q.numUnread = 0) (out : Nat → α) : q.pop out = (q, out) := by
  revert hempty
  refine WellFormed.ind h ?_
  intro vs ve b hvs hve
  interval_cases vs <;> interval_cases ve <;>
    simp [pop, numUnread, AbstractFifo.prepareToRead, AbstractFifo.finishedRead,
      AbstractFifo.getNumReady]

/-- A pop from a ring with unread data copies the slot at the read cursor, which
is the head of the unread snapshots, and leaves the others unread. -/
theorem pop_of_nonempty {q : AudioBufferQueue α} (h : q.WellFormed)
    (hne : 0 < q.numUnread) (out : Nat → α) :
    (q.pop out).2 = copy out (q.buffers q.abstractFifo.validStart.toNat) bufferSize ∧
    q.unread = q.buffers q.abstractFifo.validStart.toNat :: (q.pop out).1.unread ∧
    (q.pop out).1.numUnread = q.numUnread - 1 := by
  revert hne
  refine WellFormed.ind h ?_
  intro vs ve b hvs hve
  interval_cases vs <;> interval_cases ve <;>
    simp [pop, numUnread, unread, unreadSlots, AbstractFifo.prepareToRead,
      AbstractFifo.finishedRead, AbstractFifo.getNumReady, numBuffers, List.range_succ]

theorem unread_eq_nil {q : AudioBufferQueue α} (h : q.WellFormed) :
    q.unread = [] ↔ q.numUnread = 0 := by
  have h1 := length_unread (q := q)
  have h2 := numUnread_range h
  rw [← List.length_eq_zero]
  omega

theorem numUnread_push_of_free {q : AudioBufferQueue α} (h : q.WellFormed)
    (hfree : 0 < q.abstractFifo.getFreeSpace) (d : Nat → α) (n : Nat) :
    (q.push d n).numUnread = q.numUnread + 1 := by
  have h1 := length_unread (q := q.push d n)
  have h2 := length_unread (q := q)
  have h3 := numUnread_range h
  have h4 := numUnread_range (push_wellFormed h d n)
  rw [unread_push_of_free h hfree] at h1
  simp only [List.length_append, List.length_singleton] at h1
  omega

theorem pushAll_of_full {q : AudioBufferQueue α} (h : q.WellFormed)
    (hfull : q.abstractFifo.getFreeSpace = 0) (ds : List (Nat → α)) : q.pushAll ds = q := by
  induction ds with
  | nil => rfl
  | cons d ds ih => rw [pushAll, push_of_full h hfull, ih]

theorem copy_copy (o s d : Nat → α) (n : Nat) : copy o (copy s d n) n = copy o d n := by
  funext i
  simp only [copy]
  split <;> rfl

/-- The output buffers of successive pops are determined by the unread
snapshots: one snapshot per pop while there are any, then no change. -/
theorem popMany_outputs (outs : List (Nat → α)) :
    ∀ {q : AudioBufferQueue α}, q.WellFormed →
      (q.popMany outs).2 =
        List.zipWith (fun o s => copy o s bufferSize) outs q.unread ++
          outs.drop q.unread.length := by
  induction outs with
  | nil => intro q _; simp [popMany]
  | cons out outs ih =>
    intro q h
    rcases (numUnread_range h).1.eq_or_lt with h0 | hpos
    · have he := pop_of_empty h h0.symm out
      have hn := (unread_eq_nil h).2 h0.symm
      simp only [popMany, he, ih h, hn]
      simp
    · obtain ⟨h1, h2, _⟩ := pop_of_nonempty h hpos out
      simp only [popMany, ih (pop_wellFormed h out), h1]
      rw [h2]
      simp

end AudioBufferQueue

/-! ## Claims on the snapshot queue -/

/-- C1 as stated fails: after `numBuffers = 5` pushes on a newly constructed
queue only four snapshots are unread; the fifth pop leaves its output buffer as it
was (sample 0 stays 0) instead of returning the fifth snapshot (value 5). -/
theorem push_overflow_fifth_snapshot_lost :
    ((AudioBufferQueue.create (fun _ _ => 0)).pushAll fiveSnapshots).numUnread = 4 ∧
    ((((AudioBufferQueue.create (fun _ _ => 0)).pushAll fiveSnapshots).popMany
        [zeroBuffer, zeroBuffer, zeroBuffer, zeroBuffer, zeroBuffer, zeroBuffer]).2.map
      (fun o => o 0)) = [1, 2, 3, 4, 0, 0] ∧
    ((((AudioBufferQueue.create (fun _ _ => 0)).pushAll fiveSnapshots).popMany
        [zeroBuffer, zeroBuffer, zeroBuffer, zeroBuffer, zeroBuffer, zeroBuffer]).2.map
      (fun o => o 0)) ≠ [1, 2, 3, 4, 5, 0] := by
  decide

/-- C1 (amended): for every `k`, after `numBuffers + k = 5 + k` pushes of
`bufferSize` samples each on an empty queue with no pop in between, exactly
`numBuffers - 1 = 4` snapshots are unread: the next four pops return the first
four pushed snapshots in push order, a fifth pop leaves its output buffer
unchanged, and the last `k + 1` pushes were dropped (the queue is the one the
first four pushes alone produce). -/
theorem push_overflow_keeps_first_four {α : Type} (q : AudioBufferQueue α)
    (hq : q.WellFormed) (hempty : q.numUnread = 0) (k : Nat) (ds : List (Nat → α))
    (hlen : ds.length = numBuffers + k) (outs : List (Nat → α)) (houts : outs.length = 4)
    (o5 : Nat → α) :
    (q.pushAll ds).numUnread = 4 ∧
    ((q.pushAll ds).popMany (outs ++ [o5])).2 =
      List.zipWith (fun o d => copy o d bufferSize) outs (ds.take 4) ++ [o5] ∧
    q.pushAll ds = q.pushAll (ds.take 4) := by
  obtain _ | ⟨d0, _ | ⟨d1, _ | ⟨d2, _ | ⟨d3, rest⟩⟩⟩⟩ := ds <;>
    simp [numBuffers] at hlen <;> try omega
  obtain _ | ⟨o1, _ | ⟨o2, _ | ⟨o3, _ | ⟨o4, _ | ⟨o6, os⟩⟩⟩⟩⟩ := outs <;>
    simp at houts
  have w1 := AudioBufferQueue.push_wellFormed hq d0 bufferSize
  have f0 : 0 < q.abstractFifo.getFreeSpace := by
    rw [AudioBufferQueue.getFreeSpace_eq hq]; omega
  have n1 := AudioBufferQueue.numUnread_push_of_free hq f0 d0 bufferSize
  have u1 := AudioBufferQueue.unread_push_of_free hq f0 d0 bufferSize
  rw [(AudioBufferQueue.unread_eq_nil hq).2 hempty] at u1
  have w2 := AudioBufferQueue.push_wellFormed w1 d1 bufferSize
  have f1 : 0 < (q.push d0 bufferSize).abstractFifo.getFreeSpace := by
    rw [AudioBufferQueue.getFreeSpace_eq w1]; omega
  have n2 := AudioBufferQueue.numUnread_push_of_free w1 f1 d1 bufferSize
  have u2 := AudioBufferQueue.unread_push_of_free w1 f1 d1 bufferSize
  have w3 := AudioBufferQueue.push_wellFormed w2 d2 bufferSize
  have f2 : 0 < ((q.push d0 bufferSize).push d1 bufferSize).abstractFifo.getFreeSpace := by
    rw [AudioBufferQueue.getFreeSpace_eq w2]; omega
  have n3 := AudioBufferQueue.numUnread_push_of_free w2 f2 d2 bufferSize
  have u3 := AudioBufferQueue.unread_push_of_free w2 f2 d2 bufferSize
  have w4 := AudioBufferQueue.push_wellFormed w3 d3 bufferSize
  have f3 : 0 < (((q.push d0 bufferSize).push d1 bufferSize).push d2
      bufferSize).abstractFifo.getFreeSpace := by
    rw [AudioBufferQueue.getFreeSpace_eq w3]; omega
  have n4 := AudioBufferQueue.numUnread_push_of_free w3 f3 d3 bufferSize
  have u4 := AudioBufferQueue.unread_push_of_free w3 f3 d3 bufferSize
  have f4 : ((((q.push d0 bufferSize).push d1 bufferSize).push d2 bufferSize).push d3
      bufferSize).abstractFifo.getFreeSpace = 0 := by
    rw [AudioBufferQueue.getFreeSpace_eq w4]; omega
  have hall : q.pushAll (d0 :: d1 :: d2 :: d3 :: rest) =
      (((q.push d0 bufferSize).push d1 bufferSize).push d2 bufferSize).push d3 bufferSize := by
    simp only [AudioBufferQueue.pushAll]
    exact AudioBufferQueue.pushAll_of_full w4 f4 rest
  rw [hall]
  refine ⟨by omega, ?_, by simp [AudioBufferQueue.pushAll]⟩
  rw [AudioBufferQueue.popMany_outputs _ w4, u4, u3, u2, u1]
  simp [AudioBufferQueue.copy_copy, min_self]

theorem push_overflow_keeps_first_four_witness :
    (AudioBufferQueue.create (fun _ _ => 0)).WellFormed ∧
    (AudioBufferQueue.create (fun _ _ => 0)).numUnread = 0 ∧
    fiveSnapshots.length = numBuffers + 0 ∧
    ((AudioBufferQueue.create (fun _ _ => 0)).pushAll fiveSnapshots).numUnread = 4 ∧
    (((AudioBufferQueue.create (fun _ _ => 0)).pushAll fiveSnapshots).popMany
      ([zeroBuffer, zeroBuffer, zeroBuffer, zeroBuffer] ++ [zeroBuffer])).2 =
      List.zipWith (fun o d => copy o d bufferSize)
        [zeroBuffer, zeroBuffer, zeroBuffer, zeroBuffer] (fiveSnapshots.take 4) ++
        [zeroBuffer] ∧
    (AudioBufferQueue.create (fun _ _ => 0)).pushAll fiveSnapshots =
      (AudioBufferQueue.create (fun _ _ => 0)).pushAll (fiveSnapshots.take 4) :=
  ⟨AudioBufferQueue.wellFormed_create _, by decide, by decide,
    push_overflow_keeps_first_four (AudioBufferQueue.create (fun _ _ => 0))
      (AudioBufferQueue.wellFormed_create _) (by decide) 0 fiveSnapshots (by decide)
      [zeroBuffer, zeroBuffer, zeroBuffer, zeroBuffer] (by decide) zeroBuffer⟩

/-- C2: for every snapshot `d` of `bufferSize = 512` samples, `push (d, 512)` on
an empty queue followed immediately by `pop (out)` leaves `out` equal to `d`
sample for sample (nothing beyond the 512 samples is written) and the queue
empty again. -/
theorem push_pop_roundtrip {α : Type} (q : AudioBufferQueue α) (hq : q.WellFormed)
    (hempty : q.numUnread = 0) (d out : Nat → α) :
    (∀ i, i < bufferSize → ((q.push d bufferSize).pop out).2 i = d i) ∧
    (∀ i, bufferSize ≤ i → ((q.push d bufferSize).pop out).2 i = out i) ∧
    ((q.push d bufferSize).pop out).1.numUnread = 0 := by
  have w1 := AudioBufferQueue.push_wellFormed hq d bufferSize
  have f0 : 0 < q.abstractFifo.getFreeSpace := by
    rw [AudioBufferQueue.getFreeSpace_eq hq]; omega
  have n1 := AudioBufferQueue.numUnread_push_of_free hq f0 d bufferSize
  have u1 := AudioBufferQueue.unread_push_of_free hq f0 d bufferSize
  rw [(AudioBufferQueue.unread_eq_nil hq).2 hempty] at u1
  obtain ⟨p1, p2, p3⟩ := AudioBufferQueue.pop_of_nonempty w1 (by omega) out
  rw [u1] at p2
  simp only [List.nil_append, List.cons.injEq] at p2
  rw [p1, ← p2.1, min_self, AudioBufferQueue.copy_copy]
  refine ⟨?_, ?_, by omega⟩
  · intro i hi
    simp [copy, hi]
  · intro i hi
    simp [copy, Nat.not_lt.2 hi]

theorem push_pop_roundtrip_witness :
    (AudioBufferQueue.create (fun _ _ => 0)).WellFormed ∧
    (AudioBufferQueue.create (fun _ _ => 0)).numUnread = 0 ∧
    (∀ i, i < bufferSize →
      (((AudioBufferQueue.create (fun _ _ => 0)).push (fun j => j + 1) bufferSize).pop
        zeroBuffer).2 i = (fun j => j + 1) i) ∧
    (∀ i, bufferSize ≤ i →
      (((AudioBufferQueue.create (fun _ _ => 0)).push (fun j => j + 1) bufferSize).pop
        zeroBuffer).2 i = zeroBuffer i) ∧
    (((AudioBufferQueue.create (fun _ _ => 0)).push (fun j => j + 1) bufferSize).pop
      zeroBuffer).1.numUnread = 0 :=
  ⟨AudioBufferQueue.wellFormed_create _, by decide,
    push_pop_roundtrip (AudioBufferQueue.create (fun _ _ => 0))
      (AudioBufferQueue.wellFormed_create _) (by decide) (fun j => j + 1) zeroBuffer⟩

/-- C3: in every queue state in which no slot is free (`getFreeSpace () = 0`),
`push` drops the snapshot and leaves the queue unchanged: the unread snapshots
and their number are the same, and so is everything returned by subsequent
pops. -/
theorem push_when_full_is_dropped {α : Type} (q : AudioBufferQueue α) (hq : q.WellFormed)
    (hfull : q.abstractFifo.getFreeSpace = 0) (d : Nat → α) (n : Nat) :
    q.push d n = q ∧ (q.push d n).unread = q.unread ∧
    (q.push d n).numUnread = q.numUnread ∧
    ∀ outs, (q.push d n).popMany outs = q.popMany outs := by
  rw [AudioBufferQueue.push_of_full hq hfull]
  exact ⟨rfl, rfl, rfl, fun _ => rfl⟩

theorem push_when_full_is_dropped_witness :
    ((AudioBufferQueue.create (fun _ _ => 0)).pushAll fiveSnapshots).WellFormed ∧
    ((AudioBufferQueue.create (fun _ _ => 0)).pushAll fiveSnapshots).abstractFifo.getFreeSpace
      = 0 ∧
    ((AudioBufferQueue.create (fun _ _ => 0)).pushAll fiveSnapshots).push (fun _ => 7) 512 =
      (AudioBufferQueue.create (fun _ _ => 0)).pushAll fiveSnapshots :=
  ⟨by decide, by decide,
    (push_when_full_is_dropped ((AudioBufferQueue.create (fun _ _ => 0)).pushAll fiveSnapshots)
      (by decide) (by decide) (fun _ => 7) 512).1⟩

/-- C4: `pop` on a queue holding no unread snapshot leaves the output buffer and
the queue state (cursors and slots) unchanged, whatever the output buffer holds;
on a queue with unread data it copies the `bufferSize` samples of the oldest
unread snapshot into the output buffer, leaves the slots as they are and reduces
the number of unread snapshots by one, the remaining ones staying unread in
order. -/
theorem pop_contract {α : Type} (q : AudioBufferQueue α) (hq : q.WellFormed)
    (out : Nat → α) :
    (q.numUnread = 0 → q.pop out = (q, out)) ∧
    (0 < q.numUnread → ∃ oldest rest, q.unread = oldest :: rest ∧
      (q.pop out).2 = copy out oldest bufferSize ∧
      (q.pop out).1.unread = rest ∧
      (q.pop out).1.buffers = q.buffers ∧
      (q.pop out).1.numUnread = q.numUnread - 1) := by
  refine ⟨fun h0 => AudioBufferQueue.pop_of_empty hq h0 out, fun hpos => ?_⟩
  obtain ⟨p1, p2, p3⟩ := AudioBufferQueue.pop_of_nonempty hq hpos out
  exact ⟨_, _, p2, p1, rfl, rfl, p3⟩

theorem pop_contract_witness :
    ((AudioBufferQueue.create (fun _ _ => 0)).push (fun j => j + 1) bufferSize).WellFormed ∧
    (0 < ((AudioBufferQueue.create (fun _ _ => 0)).push (fun j => j + 1) bufferSize).numUnread
      → ∃ oldest rest,
        ((AudioBufferQueue.create (fun _ _ => 0)).push (fun j => j + 1) bufferSize).unread =
          oldest :: rest ∧
        (((AudioBufferQueue.create (fun _ _ => 0)).push (fun j => j + 1) bufferSize).pop
          zeroBuffer).2 = copy zeroBuffer oldest bufferSize ∧
        (((AudioBufferQueue.create (fun _ _ => 0)).push (fun j => j + 1) bufferSize).pop
          zeroBuffer).1.unread = rest ∧
        (((AudioBufferQueue.create (fun _ _ => 0)).push (fun j => j + 1) bufferSize).pop
          zeroBuffer).1.buffers =
          ((AudioBufferQueue.create (fun _ _ => 0)).push (fun j => j + 1) bufferSize).buffers ∧
        (((AudioBufferQueue.create (fun _ _ => 0)).push (fun j => j + 1) bufferSize).pop
          zeroBuffer).1.numUnread =
          ((AudioBufferQueue.create (fun _ _ => 0)).push (fun j => j + 1) bufferSize).numUnread
            - 1) :=
  ⟨AudioBufferQueue.push_wellFormed (AudioBufferQueue.wellFormed_create _) _ _,
    (pop_contract ((AudioBufferQueue.create (fun _ _ => 0)).push (fun j => j + 1) bufferSize)
      (AudioBufferQueue.push_wellFormed (AudioBufferQueue.wellFormed_create _) _ _)
      zeroBuffer).2⟩

/-! ## Collector lemmas -/

namespace ScopeDataCollector

theorem process_collecting {c : ScopeDataCollector} (h : c.state = State.collecting)
    (q : AudioBufferQueue ℚ) (data : List ℚ) : process c q data = collectLoop c q data := by
  simp [process, h]

theorem process_waiting_nil {c : ScopeDataCollector} (h : c.state = State.waitingForTrigger)
    (q : AudioBufferQueue ℚ) : process c q [] = (c, q) := by
  simp [process, h, waitLoop]

theorem process_waiting_trigger {c : ScopeDataCollector}
    (h : c.state = State.waitingForTrigger) (q : AudioBufferQueue ℚ) (s : ℚ) (rest : List ℚ)
    (ht : s ≥ triggerLevel ∧ c.prevSample < triggerLevel) :
    process c q (s :: rest) =
      collectLoop { c with numCollected := 0, state := State.collecting } q rest := by
  simp [process, h, waitLoop, ht]

theorem process_waiting_no_trigger {c : ScopeDataCollector}
    (h : c.state = State.waitingForTrigger) (q : AudioBufferQueue ℚ) (s : ℚ) (rest : List ℚ)
    (ht : ¬ (s ≥ triggerLevel ∧ c.prevSample < triggerLevel)) :
    process c q (s :: rest) = process { c with prevSample := s } q rest := by
  simp only [process, h, waitLoop, ht, if_true, if_false]

theorem collectLoop_eq_firstCapture (q : AudioBufferQueue ℚ) (data : List ℚ) :
    ∀ c : ScopeDataCollector, c.state = State.collecting →
      collectLoop c q data = ((firstCapture c data).1, pushOption q (firstCapture c data).2) := by
  induction data with
  | nil => intro c _; rfl
  | cons s rest ih =>
    intro c hc
    simp only [collectLoop, firstCapture, hc]
    split
    · rfl
    · exact ih _ rfl

theorem process_eq_firstCapture (q : AudioBufferQueue ℚ) (data : List ℚ) :
    ∀ c : ScopeDataCollector,
      process c q data = ((firstCapture c data).1, pushOption q (firstCapture c data).2) := by
  induction data with
  | nil =>
    intro c
    cases hc : c.state
    · rw [process_waiting_nil hc]; rfl
    · rw [process_collecting hc]; rfl
  | cons s rest ih =>
    intro c
    cases hc : c.state
    · by_cases ht : s ≥ triggerLevel ∧ c.prevSample < triggerLevel
      · rw [process_waiting_trigger hc q s rest ht, collectLoop_eq_firstCapture q rest _ rfl]
        simp only [firstCapture, hc, ht, and_self, if_true]
      · rw [process_waiting_no_trigger hc q s rest ht, ih]
        simp only [firstCapture, hc, ht, if_false]
    · rw [process_collecting hc, collectLoop_eq_firstCapture q _ c hc]

/-- Cutting the stream does not change the first capture: if it completes in
the first part the second part is not looked at, otherwise the second part
continues from the state the first part left. -/
theorem firstCapture_append (xs ys : List ℚ) :
    ∀ c : ScopeDataCollector,
      firstCapture c (xs ++ ys) =
        match (firstCapture c xs).2 with
        | some _ => firstCapture c xs
        | none => firstCapture (firstCapture c xs).1 ys := by
  induction xs with
  | nil => intro c; rfl
  | cons s rest ih =>
    intro c
    cases hc : c.state
    · by_cases ht : s ≥ triggerLevel ∧ c.prevSample < triggerLevel
      · simp only [List.cons_append, firstCapture, hc, ht, and_self, if_true]
        exact ih _
      · simp only [List.cons_append, firstCapture, hc, ht, if_false]
        exact ih _
    · simp only [List.cons_append, firstCapture, hc]
      split
      · rfl
      · exact ih _

/-- A push never changes the oldest unread snapshot of a queue that has one. -/
theorem head_unread_push {q : AudioBufferQueue ℚ} (hq : q.WellFormed) {s : Nat → ℚ}
    (hs : q.unread.head? = some s) (d : Nat → ℚ) (n : Nat) :
    (q.push d n).unread.head? = some s := by
  have hr := AudioBufferQueue.numUnread_range hq
  have hf := AudioBufferQueue.getFreeSpace_eq hq
  rcases (show q.abstractFifo.getFreeSpace = 0 ∨ 0 < q.abstractFifo.getFreeSpace by omega)
    with h0 | hpos
  · rw [AudioBufferQueue.push_of_full hq h0]; exact hs
  · rw [AudioBufferQueue.unread_push_of_free hq hpos]
    cases hu : q.unread with
    | nil => rw [hu] at hs; simp at hs
    | cons a l => rw [hu] at hs; simpa using hs

theorem pushOption_wellFormed {q : AudioBufferQueue ℚ} (hq : q.WellFormed)
    (o : Option (Nat → ℚ)) : (pushOption q o).WellFormed := by
  cases o with
  | none => exact hq
  | some b => exact AudioBufferQueue.push_wellFormed hq b bufferSize

theorem head_unread_pushOption {q : AudioBufferQueue ℚ} (hq : q.WellFormed) {s : Nat → ℚ}
    (hs : q.unread.head? = some s) (o : Option (Nat → ℚ)) :
    (pushOption q o).unread.head? = some s := by
  cases o with
  | none => exact hs
  | some b => exact head_unread_push hq hs b bufferSize

theorem processBlocks_wellFormed (blocks : List (List ℚ)) :
    ∀ (c : ScopeDataCollector) {q : AudioBufferQueue ℚ}, q.WellFormed →
      (processBlocks c q blocks).2.WellFormed := by
  induction blocks with
  | nil => intro c q hq; exact hq
  | cons b bs ih =>
    intro c q hq
    simp only [processBlocks]
    apply ih
    rw [process_eq_firstCapture]
    exact pushOption_wellFormed hq _

/-- Further `process` calls never change the oldest unread snapshot of a queue
that has one. -/
theorem head_unread_processBlocks (blocks : List (List ℚ)) :
    ∀ (c : ScopeDataCollector) {q : AudioBufferQueue ℚ}, q.WellFormed →
      ∀ {s : Nat → ℚ}, q.unread.head? = some s →
        (processBlocks c q blocks).2.unread.head? = some s := by
  induction blocks with
  | nil => intro c q _ s hs; exact hs
  | cons b bs ih =>
    intro c q hq s hs
    simp only [processBlocks]
    apply ih
    · rw [process_eq_firstCapture]
      exact pushOption_wellFormed hq _
    · rw [process_eq_firstCapture]
      exact head_unread_pushOption hq hs _

/-- The oldest unread snapshot after any sequence of `process` calls on an empty
queue is the slot written by the first capture of the concatenated stream, and
there is none if that stream completes no capture. -/
theorem head_unread_processBlocks_of_empty (blocks : List (List ℚ)) :
    ∀ (c : ScopeDataCollector) {q : AudioBufferQueue ℚ}, q.WellFormed → q.numUnread = 0 →
      (processBlocks c q blocks).2.unread.head? =
        (firstCapture c blocks.flatten).2.map
          (fun b => copy (q.buffers q.abstractFifo.validEnd.toNat) b bufferSize) := by
  induction blocks with
  | nil =>
    intro c q hq h0
    simp [processBlocks, firstCapture, (AudioBufferQueue.unread_eq_nil hq).2 h0]
  | cons b bs ih =>
    intro c q hq h0
    simp only [processBlocks, List.flatten_cons, firstCapture_append, process_eq_firstCapture]
    cases hb : (firstCapture c b).2 with
    | none =>
      simp only [pushOption]
      exact ih _ hq h0
    | some buf =>
      simp only [pushOption, Option.map_some']
      have f0 : 0 < q.abstractFifo.getFreeSpace := by
        rw [AudioBufferQueue.getFreeSpace_eq hq]; omega
      have u1 := AudioBufferQueue.unread_push_of_free hq f0 buf bufferSize
      rw [(AudioBufferQueue.unread_eq_nil hq).2 h0] at u1
      rw [head_unread_processBlocks bs _ (AudioBufferQueue.push_wellFormed hq buf bufferSize)
        (s := copy (q.buffers q.abstractFifo.validEnd.toNat) buf bufferSize)]
      · rw [hb]; rfl
      · rw [u1]; simp

/-- The second loop, sample by sample: a capture that has `numCollected` samples
completes exactly when the stream holds the missing ones, and then the buffer
pushed is the old content below `numCollected` followed by the stream. -/
theorem firstCapture_collecting (data : List ℚ) :
    ∀ c : ScopeDataCollector, c.state = State.collecting → c.numCollected < bufferSize →
      (c.numCollected + data.length < bufferSize → (firstCapture c data).2 = none) ∧
      (bufferSize ≤ c.numCollected + data.length →
        ∃ b : Nat → ℚ,
          firstCapture c data =
            ({ buffer := b, numCollected := bufferSize, prevSample := 100,
               state := State.waitingForTrigger }, some b) ∧
          (∀ i, i < c.numCollected → b i = c.buffer i) ∧
          (∀ k, c.numCollected + k < bufferSize → b (c.numCollected + k) = data.getD k 0)) := by
  induction data with
  | nil =>
    intro c _ hn
    refine ⟨fun _ => rfl, fun h => ?_⟩
    simp only [List.length_nil, Nat.add_zero] at h
    omega
  | cons s rest ih =>
    intro c hc hn
    obtain ⟨bf, n, p, st⟩ := c
    simp only at hc hn
    subst hc
    simp only [firstCapture, List.length_cons]
    by_cases hfull : n + 1 = bufferSize
    · simp only [hfull, if_true]
      refine ⟨fun h => by omega, fun _ => ⟨_, rfl, ?_, ?_⟩⟩
      · intro i hi
        exact Function.update_noteq (Nat.ne_of_lt hi) _ _
      · intro k hk
        have hk0 : k = 0 := by omega
        subst hk0
        simp
    · simp only [hfull, if_false]
      obtain ⟨ih1, ih2⟩ := ih { buffer := Function.update bf n s, numCollected := n + 1,
                                 prevSample := p, state := State.collecting } rfl (by
        show n + 1 < bufferSize
        omega)
      refine ⟨fun h => ih1 (by show n + 1 + rest.length < bufferSize; omega),
        fun h => ?_⟩
      obtain ⟨b, hb, hlow, hhigh⟩ :=
        ih2 (by show bufferSize ≤ n + 1 + rest.length; omega)
      refine ⟨b, hb, ?_, ?_⟩
      · intro i hi
        rw [hlow i (by show i < n + 1; omega)]
        exact Function.update_noteq (Nat.ne_of_lt hi) _ _
      · intro k hk
        cases k with
        | zero =>
          rw [Nat.add_zero, hlow n (by show n < n + 1; omega)]
          simp
        | succ k =>
          have := hhigh k (by show n + 1 + k < bufferSize; omega)
          simp only [List.getD_cons_succ]
          rw [← this]
          congr 1
          show n + (k + 1) = n + 1 + k
          omega

/-- The first loop, sample by sample, with `ext` the stream preceded by
`prevSample`: either no sample is a rising crossing and nothing is pushed, or the
capture starts right after the first rising crossing `ext[i] < triggerLevel <=
ext[i + 1]`, with `numCollected = 0`. -/
theorem firstCapture_waiting (data : List ℚ) :
    ∀ c : ScopeDataCollector, c.state = State.waitingForTrigger →
      ((∀ j, j < data.length →
          ¬ ((c.prevSample :: data).getD (j + 1) 0 ≥ triggerLevel ∧
             (c.prevSample :: data).getD j 0 < triggerLevel)) ∧
        (firstCapture c data).2 = none) ∨
      ∃ i, i < data.length ∧
        (c.prevSample :: data).getD (i + 1) 0 ≥ triggerLevel ∧
        (c.prevSample :: data).getD i 0 < triggerLevel ∧
        (∀ j, j < i →
          ¬ ((c.prevSample :: data).getD (j + 1) 0 ≥ triggerLevel ∧
             (c.prevSample :: data).getD j 0 < triggerLevel)) ∧
        ∃ c1 : ScopeDataCollector, c1.state = State.collecting ∧ c1.numCollected = 0 ∧
          firstCapture c data = firstCapture c1 (data.drop (i + 1)) := by
  induction data with
  | nil =>
    intro c _
    exact Or.inl ⟨fun j hj => by simp at hj, rfl⟩
  | cons s rest ih =>
    intro c hc
    by_cases ht : s ≥ triggerLevel ∧ c.prevSample < triggerLevel
    · refine Or.inr ⟨0, by simp, by simpa using ht.1, by simpa using ht.2,
        fun j hj => by omega,
        ⟨{ c with numCollected := 0, state := State.collecting }, rfl, rfl, ?_⟩⟩
      simp only [firstCapture, hc, ht, and_self, if_true, List.drop_succ_cons, List.drop_zero]
    · have hstep : firstCapture c (s :: rest) = firstCapture { c with prevSample := s } rest := by
        simp only [firstCapture, hc, ht, if_false]
      rcases ih { c with prevSample := s } hc with ⟨hno, hnone⟩ | ⟨i, hi, h1, h2, h3, c1, hc1, hn1, he⟩
      · refine Or.inl ⟨fun j hj => ?_, by rw [hstep]; exact hnone⟩
        cases j with
        | zero => simpa using ht
        | succ j =>
          have := hno j (by simpa using hj)
          simpa using this
      · refine Or.inr ⟨i + 1, by simpa using hi, by simpa using h1, by simpa using h2,
          fun j hj => ?_, ⟨c1, hc1, hn1, by rw [hstep, he]; rfl⟩⟩
        cases j with
        | zero => simpa using ht
        | succ j =>
          have := h3 j (by omega)
          simpa using this

theorem sentinel_not_below_trigger (s : ℚ) :
    ¬ (s ≥ triggerLevel ∧ (100 : ℚ) < triggerLevel) := by
  norm_num [triggerLevel]

/-- The stream `risingStream` processed in one call by a new collector: the
crossing sample 1 is consumed by the trigger test and the buffer pushed holds
the 512 samples after it. -/
theorem process_risingStream (b0 : Nat → ℚ) (n0 : Nat) (q : AudioBufferQueue ℚ) :
    ∃ b : Nat → ℚ, (∀ k, k < bufferSize → b k = 2) ∧
      process (create b0 n0) q risingStream =
        ({ buffer := b, numCollected := bufferSize, prevSample := 100,
           state := State.waitingForTrigger }, q.push b bufferSize) := by
  have h1 : process (create b0 n0) q risingStream =
      collectLoop { buffer := b0, numCollected := 0, prevSample := 0,
                    state := State.collecting } q (List.replicate 512 2) := by
    rw [risingStream, process_waiting_no_trigger rfl _ _ _ (by norm_num [triggerLevel]),
      process_waiting_trigger rfl _ _ _ (by norm_num [triggerLevel])]
    rfl
  obtain ⟨b, hb, _, hhigh⟩ := (firstCapture_collecting (List.replicate 512 2)
    { buffer := b0, numCollected := 0, prevSample := 0, state := State.collecting } rfl
    (by show 0 < bufferSize; decide)).2
    (by show bufferSize ≤ 0 + (List.replicate 512 (2 : ℚ)).length
        rw [List.length_replicate]; decide)
  refine ⟨b, fun k hk => ?_, ?_⟩
  · have := hhigh k (by show 0 + k < bufferSize; omega)
    simp only [Nat.zero_add] at this
    have hk2 : k < 512 := hk
    rw [this, List.getD_eq_getElem?_getD, List.getElem?_replicate_of_lt hk2]
    rfl
  · rw [h1, collectLoop_eq_firstCapture _ _ _ rfl, hb]
    rfl

theorem head_unread_risingStream (b0 : Nat → ℚ) (n0 : Nat) :
    (process (create b0 n0) (AudioBufferQueue.create (fun _ _ => 0)) risingStream).2.unread.head?
      = some (copy (fun _ => 0) (fun _ => 2) bufferSize) := by
  obtain ⟨b, hb, hp⟩ := process_risingStream b0 n0 (AudioBufferQueue.create (fun _ _ => 0))
  rw [hp]
  have hw := AudioBufferQueue.wellFormed_create (fun _ _ => (0 : ℚ))
  have u1 := AudioBufferQueue.unread_push_of_free hw (by decide) b bufferSize
  rw [(AudioBufferQueue.unread_eq_nil hw).2 (by decide)] at u1
  simp only [u1, List.nil_append, List.head?_cons, Option.some.injEq, min_self]
  funext k
  by_cases hk : k < bufferSize
  · simp only [copy, hk, if_true, hb k hk]
  · simp only [copy, hk, if_false]
    rfl

theorem getD_drop_zero (l : List ℚ) (n k : Nat) :
    (l.drop n).getD k 0 = l.getD (n + k) 0 := by
  simp [List.getElem?_drop]

/-- C5 (amended): for every input stream fed, in any blocks, to a newly
constructed collector with an empty queue, if a snapshot is pushed then the
stream has a first sample `s_i` (`i >= 1`) with `s_i >= triggerLevel` and
`s_(i-1) < triggerLevel`, at least `bufferSize` samples follow it, and the first
pushed snapshot holds the `bufferSize` samples after `s_i`: its first sample is
`s_(i+1)`, the sample immediately after the rising crossing. -/
theorem first_snapshot_starts_after_crossing (b0 : Nat → ℚ) (n0 : Nat) {q : AudioBufferQueue ℚ}
    (hq : q.WellFormed) (h0 : q.numUnread = 0) (blocks : List (List ℚ)) (snap : Nat → ℚ)
    (hsnap : (processBlocks (create b0 n0) q blocks).2.unread.head? = some snap) :
    ∃ i, 1 ≤ i ∧ i + bufferSize < blocks.flatten.length ∧
      blocks.flatten.getD i 0 ≥ triggerLevel ∧
      blocks.flatten.getD (i - 1) 0 < triggerLevel ∧
      (∀ j, 1 ≤ j → j < i →
        ¬ (blocks.flatten.getD j 0 ≥ triggerLevel ∧
           blocks.flatten.getD (j - 1) 0 < triggerLevel)) ∧
      ∀ k, k < bufferSize → snap k = blocks.flatten.getD (i + 1 + k) 0 := by
  rw [head_unread_processBlocks_of_empty blocks _ hq h0] at hsnap
  generalize blocks.flatten = stream at hsnap ⊢
  rcases firstCapture_waiting stream (create b0 n0) rfl with
    ⟨_, hnone⟩ | ⟨i, hi, h1, h2, h3, c1, hc1, hn1, he⟩
  · rw [hnone] at hsnap
    simp at hsnap
  · have hi0 : i ≠ 0 := by
      rintro rfl
      have : ¬ ((100 : ℚ) < triggerLevel) := by norm_num [triggerLevel]
      exact this h2
    obtain ⟨i, rfl⟩ := Nat.exists_eq_succ_of_ne_zero hi0
    obtain ⟨hshort, hlong⟩ := firstCapture_collecting (stream.drop (i + 1 + 1)) c1 hc1
      (by rw [hn1]; decide)
    rw [he] at hsnap
    rw [hn1, List.length_drop] at hshort hlong
    by_cases hlen : 0 + (stream.length - (i + 1 + 1)) < bufferSize
    · rw [hshort hlen] at hsnap
      simp at hsnap
    · obtain ⟨b, hb, _, hhigh⟩ := hlong (by omega)
      rw [hb] at hsnap
      simp only [Option.map_some', Option.some.injEq] at hsnap
      refine ⟨i + 1, by omega, by omega, h1, h2, fun j hj1 hj2 => ?_, fun k hk => ?_⟩
      · obtain ⟨j, rfl⟩ := Nat.exists_eq_succ_of_ne_zero (Nat.ne_of_gt hj1)
        exact h3 (j + 1) hj2
      · have := hhigh k (by omega)
        rw [Nat.zero_add, getD_drop_zero] at this
        rw [← hsnap, ← this]
        simp only [copy, hk, if_true]

end ScopeDataCollector

/-! ## Claims on the trigger collector -/

/-- C5 as stated fails: for the stream `0, 1, 2, 2, ...` the first sample at the
rising crossing is `s_1 = 1` (with `s_0 = 0` below the trigger level), but the
first sample of the first pushed snapshot is `s_2 = 2`. -/
theorem first_snapshot_skips_crossing_sample :
    risingStream.getD 0 0 < triggerLevel ∧ risingStream.getD 1 0 ≥ triggerLevel ∧
    risingStream.getD 1 0 = 1 ∧
    ((ScopeDataCollector.process (ScopeDataCollector.create (fun _ => 0) 0)
      (AudioBufferQueue.create (fun _ _ => 0)) risingStream).2.unread.head?.map
        (fun s => s 0)) = some 2 ∧
    ((ScopeDataCollector.process (ScopeDataCollector.create (fun _ => 0) 0)
      (AudioBufferQueue.create (fun _ _ => 0)) risingStream).2.unread.head?.map
        (fun s => s 0)) ≠ some (risingStream.getD 1 0) := by
  rw [ScopeDataCollector.head_unread_risingStream]
  have e0 : risingStream.getD 0 0 = 0 := rfl
  have e1 : risingStream.getD 1 0 = 1 := rfl
  rw [e0, e1]
  refine ⟨by norm_num [triggerLevel], by norm_num [triggerLevel], rfl, ?_, ?_⟩
  · simp [copy, bufferSize, order]
  · simp [copy, bufferSize, order]

theorem first_snapshot_starts_after_crossing_witness :
    (AudioBufferQueue.create (fun _ _ => (0 : ℚ))).WellFormed ∧
    (AudioBufferQueue.create (fun _ _ => (0 : ℚ))).numUnread = 0 ∧
    ∃ i, 1 ≤ i ∧ i + bufferSize < [risingStream].flatten.length ∧
      [risingStream].flatten.getD i 0 ≥ triggerLevel ∧
      [risingStream].flatten.getD (i - 1) 0 < triggerLevel ∧
      (∀ j, 1 ≤ j → j < i →
        ¬ ([risingStream].flatten.getD j 0 ≥ triggerLevel ∧
           [risingStream].flatten.getD (j - 1) 0 < triggerLevel)) ∧
      ∀ k, k < bufferSize →
        copy (fun _ => 0) (fun _ => 2) bufferSize k = [risingStream].flatten.getD (i + 1 + k) 0 :=
  ⟨AudioBufferQueue.wellFormed_create _, by decide,
    ScopeDataCollector.first_snapshot_starts_after_crossing (fun _ => 0) 0
      (AudioBufferQueue.wellFormed_create _) (by decide) [risingStream]
      (copy (fun _ => 0) (fun _ => 2) bufferSize)
      (ScopeDataCollector.head_unread_risingStream (fun _ => 0) 0)⟩

/-- C6: in `process`, for each sample `s` examined while the state is
`waitingForTrigger`: the state becomes `collecting`, with `numCollected = 0`, if
and only if `s >= triggerLevel` and `prevSample < triggerLevel` (the rest of the
block then goes to the collecting loop); otherwise the state stays
`waitingForTrigger`, `prevSample` becomes `s` and the next sample of the block is
examined in the same way. -/
theorem waiting_sample_transition (c : ScopeDataCollector) (q : AudioBufferQueue ℚ)
    (s : ℚ) (rest : List ℚ) (hw : c.state = State.waitingForTrigger) :
    (((ScopeDataCollector.process c q [s]).1.state = State.collecting ↔
        (s ≥ triggerLevel ∧ c.prevSample < triggerLevel))) ∧
    ((s ≥ triggerLevel ∧ c.prevSample < triggerLevel) →
      ScopeDataCollector.process c q [s] =
        ({ c with numCollected := 0, state := State.collecting }, q) ∧
      ScopeDataCollector.process c q (s :: rest) =
        ScopeDataCollector.collectLoop
          { c with numCollected := 0, state := State.collecting } q rest) ∧
    (¬ (s ≥ triggerLevel ∧ c.prevSample < triggerLevel) →
      ScopeDataCollector.process c q [s] = ({ c with prevSample := s }, q) ∧
      ScopeDataCollector.process c q (s :: rest) =
        ScopeDataCollector.process { c with prevSample := s } q rest) := by
  have hyes : (s ≥ triggerLevel ∧ c.prevSample < triggerLevel) →
      ScopeDataCollector.process c q [s] =
        ({ c with numCollected := 0, state := State.collecting }, q) := fun ht => by
    rw [ScopeDataCollector.process_waiting_trigger hw q s [] ht]
    rfl
  have hno : ¬ (s ≥ triggerLevel ∧ c.prevSample < triggerLevel) →
      ScopeDataCollector.process c q [s] = ({ c with prevSample := s }, q) := fun ht => by
    rw [ScopeDataCollector.process_waiting_no_trigger hw q s [] ht]
    exact ScopeDataCollector.process_waiting_nil (c := { c with prevSample := s }) hw q
  refine ⟨?_, fun ht => ⟨hyes ht, ScopeDataCollector.process_waiting_trigger hw q s rest ht⟩,
    fun ht => ⟨hno ht, ScopeDataCollector.process_waiting_no_trigger hw q s rest ht⟩⟩
  by_cases ht : s ≥ triggerLevel ∧ c.prevSample < triggerLevel
  · simp only [hyes ht, ht, and_self]
  · simp only [hno ht, ht, iff_false, hw]
    exact fun h => State.noConfusion h

theorem waiting_sample_transition_witness :
    waitingBelow.state = State.waitingForTrigger ∧
    ((ScopeDataCollector.process waitingBelow (AudioBufferQueue.create (fun _ _ => 0)) [1]).1.state
        = State.collecting ↔
      ((1 : ℚ) ≥ triggerLevel ∧ waitingBelow.prevSample < triggerLevel)) :=
  ⟨rfl, (waiting_sample_transition waitingBelow (AudioBufferQueue.create (fun _ _ => 0)) 1 []
    rfl).1⟩

/-- C7: whenever `process` stores the `bufferSize`-th sample of a capture (the
collector had `numCollected` samples and the block starts with the
`bufferSize - numCollected` missing ones), it pushes the capture buffer, holding
the samples collected before followed by those of the block, to the queue once,
sets `numCollected = bufferSize`, the state to `waitingForTrigger` and
`prevSample` to 100, and ignores the rest of the block; the next sample examined
after that, whatever its value, is only recorded as `prevSample` and starts no
capture. -/
theorem capture_completion (c : ScopeDataCollector) (q : AudioBufferQueue ℚ)
    (xs rest : List ℚ) (hc : c.state = State.collecting) (hn : c.numCollected < bufferSize)
    (hlen : c.numCollected + xs.length = bufferSize) :
    ∃ b : Nat → ℚ,
      (∀ i, i < c.numCollected → b i = c.buffer i) ∧
      (∀ k, k < xs.length → b (c.numCollected + k) = xs.getD k 0) ∧
      ScopeDataCollector.process c q (xs ++ rest) =
        ({ buffer := b, numCollected := bufferSize, prevSample := 100,
           state := State.waitingForTrigger }, q.push b bufferSize) ∧
      ∀ (q1 : AudioBufferQueue ℚ) (s : ℚ) (more : List ℚ),
        ScopeDataCollector.process
            { buffer := b, numCollected := bufferSize, prevSample := 100,
              state := State.waitingForTrigger } q1 [s] =
          ({ buffer := b, numCollected := bufferSize, prevSample := s,
             state := State.waitingForTrigger }, q1) ∧
        ScopeDataCollector.process
            { buffer := b, numCollected := bufferSize, prevSample := 100,
              state := State.waitingForTrigger } q1 (s :: more) =
          ScopeDataCollector.process
            { buffer := b, numCollected := bufferSize, prevSample := s,
              state := State.waitingForTrigger } q1 more := by
  obtain ⟨b, hb, hlow, hhigh⟩ :=
    (ScopeDataCollector.firstCapture_collecting xs c hc hn).2 (by omega)
  refine ⟨b, hlow, fun k hk => hhigh k (by omega), ?_, fun q1 s more => ⟨?_, ?_⟩⟩
  · rw [ScopeDataCollector.process_eq_firstCapture, ScopeDataCollector.firstCapture_append, hb]
    rfl
  · rw [ScopeDataCollector.process_waiting_no_trigger rfl q1 s []
      (ScopeDataCollector.sentinel_not_below_trigger s)]
    exact ScopeDataCollector.process_waiting_nil rfl q1
  · exact ScopeDataCollector.process_waiting_no_trigger rfl q1 s more
      (ScopeDataCollector.sentinel_not_below_trigger s)

theorem capture_completion_witness :
    almostFull.state = State.collecting ∧ almostFull.numCollected < bufferSize ∧
    almostFull.numCollected + [(4 : ℚ)].length = bufferSize ∧
    ∃ b : Nat → ℚ,
      (∀ i, i < almostFull.numCollected → b i = almostFull.buffer i) ∧
      (∀ k, k < [(4 : ℚ)].length → b (almostFull.numCollected + k) = [(4 : ℚ)].getD k 0) ∧
      ScopeDataCollector.process almostFull (AudioBufferQueue.create (fun _ _ => 0))
          ([4] ++ [1, 1]) =
        ({ buffer := b, numCollected := bufferSize, prevSample := 100,
           state := State.waitingForTrigger },
          (AudioBufferQueue.create (fun _ _ => 0)).push b bufferSize) ∧
      ∀ (q1 : AudioBufferQueue ℚ) (s : ℚ) (more : List ℚ),
        ScopeDataCollector.process
            { buffer := b, numCollected := bufferSize, prevSample := 100,
              state := State.waitingForTrigger } q1 [s] =
          ({ buffer := b, numCollected := bufferSize, prevSample := s,
             state := State.waitingForTrigger }, q1) ∧
        ScopeDataCollector.process
            { buffer := b, numCollected := bufferSize, prevSample := 100,
              state := State.waitingForTrigger } q1 (s :: more) =
          ScopeDataCollector.process
            { buffer := b, numCollected := bufferSize, prevSample := s,
              state := State.waitingForTrigger } q1 more :=
  ⟨rfl, by decide, by decide,
    capture_completion almostFull (AudioBufferQueue.create (fun _ _ => 0)) [4] [1, 1] rfl
      (by decide) (by decide)⟩

/-- C8: for every sample stream and every way of cutting it into consecutive
blocks (empty blocks included) passed to successive `process` calls, from the
state of a newly constructed collector or any other and with an empty queue,
the first snapshot in the queue afterwards, or the absence of any, is the same
as when the whole stream is passed in one call. -/
theorem first_snapshot_independent_of_blocks (c : ScopeDataCollector)
    (q : AudioBufferQueue ℚ) (hq : q.WellFormed) (h0 : q.numUnread = 0)
    (blocks : List (List ℚ)) :
    (ScopeDataCollector.processBlocks c q blocks).2.unread.head? =
      (ScopeDataCollector.process c q blocks.flatten).2.unread.head? := by
  have h1 := ScopeDataCollector.head_unread_processBlocks_of_empty blocks c hq h0
  have h2 := ScopeDataCollector.head_unread_processBlocks_of_empty [blocks.flatten] c hq h0
  simp only [List.flatten_cons, List.flatten_nil, List.append_nil,
    ScopeDataCollector.processBlocks] at h2
  rw [h1, h2]

theorem first_snapshot_independent_of_blocks_witness :
    (AudioBufferQueue.create (fun _ _ => (0 : ℚ))).WellFormed ∧
    (AudioBufferQueue.create (fun _ _ => (0 : ℚ))).numUnread = 0 ∧
    (ScopeDataCollector.processBlocks (ScopeDataCollector.create (fun _ => 0) 0)
        (AudioBufferQueue.create (fun _ _ => 0))
        [[0], [1, 2], [], List.replicate 511 2, [5]]).2.unread.head? =
      (ScopeDataCollector.process (ScopeDataCollector.create (fun _ => 0) 0)
        (AudioBufferQueue.create (fun _ _ => 0))
        [[0], [1, 2], [], List.replicate 511 2, [5]].flatten).2.unread.head? :=
  ⟨AudioBufferQueue.wellFormed_create _, by decide,
    first_snapshot_independent_of_blocks (ScopeDataCollector.create (fun _ => 0) 0)
      (AudioBufferQueue.create (fun _ _ => 0)) (AudioBufferQueue.wellFormed_create _)
      (by decide) [[0], [1, 2], [], List.replicate 511 2, [5]]⟩

/-! ## Claims on the wavetable oscillator -/

theorem zeroTable_length : zeroTable.length = 129 := List.length_replicate _ _

theorem zeroTable_getElem?_of_lt {i : Nat} (hi : i < 129) : zeroTable[i]? = some 0 :=
  List.getElem?_replicate_of_lt hi

theorem zeroTable_getElem?_of_ge {i : Nat} (hi : 129 ≤ i) : zeroTable[i]? = none := by
  rw [List.getElem?_eq_none_iff, zeroTable_length]
  exact hi

theorem quarterRateOscillator_eq :
    quarterRateOscillator =
      { wavetable := zeroTable, tableSize := 128, currentIndex := 0, tableDelta := 32 } := by
  simp only [quarterRateOscillator, WavetableOscillator.create,
    WavetableOscillator.setFrequency, zeroTable_length]
  norm_num

/-- One call on the table of 129 zeros with `tableDelta = 32`, at a whole index
whose two reads are inside the table. -/
theorem getNextSample_whole_index (i : Nat) (hi : i + 1 < 129) :
    WavetableOscillator.getNextSample
        { wavetable := zeroTable, tableSize := 128, currentIndex := (i : ℚ),
          tableDelta := 32 } =
      some (0, { wavetable := zeroTable, tableSize := 128,
                 currentIndex := if (i : ℚ) + 32 > 128 then (i : ℚ) + 32 - 128 else (i : ℚ) + 32,
                 tableDelta := 32 }) := by
  simp [WavetableOscillator.getNextSample, zeroTable_getElem?_of_lt hi,
    zeroTable_getElem?_of_lt (show i < 129 by omega)]

/-- A call at the whole index 128 reads `table[129]`, outside the table. -/
theorem getNextSample_at_tableSize :
    WavetableOscillator.getNextSample
        { wavetable := zeroTable, tableSize := 128, currentIndex := 128,
          tableDelta := 32 } = none := by
  have h : (128 : ℚ) = ((128 : Nat) : ℚ) := by norm_num
  rw [h]
  simp [WavetableOscillator.getNextSample, zeroTable_getElem?_of_lt (show 128 < 129 by omega),
    zeroTable_getElem?_of_ge (show 129 ≤ 128 + 1 by omega)]

theorem afterCalls_four_quarterRate :
    WavetableOscillator.afterCalls 4 quarterRateOscillator =
      some { wavetable := zeroTable, tableSize := 128, currentIndex := 128,
             tableDelta := 32 } := by
  rw [quarterRateOscillator_eq]
  have s0 := getNextSample_whole_index 0 (by decide)
  have s1 := getNextSample_whole_index 32 (by decide)
  have s2 := getNextSample_whole_index 64 (by decide)
  have s3 := getNextSample_whole_index 96 (by decide)
  norm_num at s0 s1 s2 s3
  simp [WavetableOscillator.afterCalls, s0, s1, s2, s3]

theorem afterCalls_succ_of_some {n : Nat} {o o1 : WavetableOscillator}
    (h : WavetableOscillator.afterCalls n o = some o1) :
    WavetableOscillator.afterCalls (n + 1) o = (o1.getNextSample).map (fun r => r.2) := by
  induction n generalizing o with
  | zero =>
    simp only [WavetableOscillator.afterCalls, Option.some.injEq] at h
    subst h
    cases hg : o.getNextSample <;> simp [WavetableOscillator.afterCalls, hg]
  | succ n ih =>
    rw [WavetableOscillator.afterCalls] at h ⊢
    cases hg : o.getNextSample with
    | none => rw [hg] at h; simp at h
    | some r =>
      rw [hg] at h
      simp only [Option.some_bind] at h ⊢
      exact ih h

/-- C9 fails on the code: for the table of `tableSize + 1 = 129` samples and
`setFrequency (8192, 32768)` (so `0 <= f < sr / 2` and `tableDelta = 32`), four
`getNextSample` calls leave `currentIndex = 128 = tableSize`, and the fifth call
has `index0 = 128` and reads `table[index0 + 1] = table[129]`, outside the
table. -/
theorem wavetable_fifth_call_reads_out_of_bounds :
    (0 : ℚ) ≤ 8192 ∧ (8192 : ℚ) < 32768 / 2 ∧
    (quarterRateOscillator.wavetable.length : Int) = quarterRateOscillator.tableSize + 1 ∧
    quarterRateOscillator.tableSize = 128 ∧
    WavetableOscillator.afterCalls 4 quarterRateOscillator =
      some { wavetable := zeroTable, tableSize := 128, currentIndex := 128,
             tableDelta := 32 } ∧
    Int.toNat ⌊(128 : ℚ)⌋ + 1 = 129 ∧
    zeroTable[Int.toNat ⌊(128 : ℚ)⌋ + 1]? = none ∧
    WavetableOscillator.afterCalls 5 quarterRateOscillator = none := by
  have hfloor : Int.toNat ⌊(128 : ℚ)⌋ + 1 = 129 := by
    have h : (128 : ℚ) = ((128 : Int) : ℚ) := by norm_num
    rw [h, Int.floor_intCast]
    rfl
  refine ⟨by norm_num, by norm_num, ?_, ?_, afterCalls_four_quarterRate, hfloor, ?_, ?_⟩
  · rw [quarterRateOscillator_eq]
    simp [zeroTable_length]
  · rw [quarterRateOscillator_eq]
  · rw [hfloor]
    exact zeroTable_getElem?_of_ge (Nat.le_refl _)
  · rw [afterCalls_succ_of_some afterCalls_four_quarterRate, getNextSample_at_tableSize]
    rfl

/-- C10 fails on the code: after `setFrequency (8192, 32768)` from the initial
state, the fourth `getNextSample` call leaves `currentIndex = 128 = tableSize`
(the wrap test `128 > 128` is false), which is outside `[0, tableSize)`. -/
theorem wavetable_index_reaches_tableSize :
    (0 : ℚ) ≤ 8192 ∧ (8192 : ℚ) < 32768 / 2 ∧
    ∃ o : WavetableOscillator,
      WavetableOscillator.afterCalls 4 quarterRateOscillator = some o ∧
      o.currentIndex = (o.tableSize : ℚ) ∧ ¬ (o.currentIndex < (o.tableSize : ℚ)) := by
  refine ⟨by norm_num, by norm_num, _, afterCalls_four_quarterRate, ?_, ?_⟩ <;> norm_num

/-! ## Claims on the sine oscillator -/

theorem SineOscillator.afterCalls_angleDelta (sin : ℚ → ℚ) (twoPi : ℚ) (n : Nat) :
    ∀ o : SineOscillator, (SineOscillator.afterCalls sin twoPi n o).angleDelta = o.angleDelta := by
  induction n with
  | zero => intro o; rfl
  | succ n ih => intro o; rw [SineOscillator.afterCalls, ih]; rfl

theorem SineOscillator.updateAngle_range {twoPi : ℚ} {o : SineOscillator}
    (h0 : 0 ≤ o.currentAngle) (h1 : o.currentAngle < twoPi)
    (d0 : 0 ≤ o.angleDelta) (d1 : o.angleDelta < twoPi) :
    0 ≤ (o.updateAngle twoPi).currentAngle ∧ (o.updateAngle twoPi).currentAngle < twoPi := by
  simp only [SineOscillator.updateAngle]
  split <;> constructor <;> linarith

theorem SineOscillator.afterCalls_range (sin : ℚ → ℚ) {twoPi : ℚ} (n : Nat) :
    ∀ o : SineOscillator, 0 ≤ o.currentAngle → o.currentAngle < twoPi →
      0 ≤ o.angleDelta → o.angleDelta < twoPi →
      0 ≤ (SineOscillator.afterCalls sin twoPi n o).currentAngle ∧
      (SineOscillator.afterCalls sin twoPi n o).currentAngle < twoPi := by
  induction n with
  | zero => intro o h0 h1 _ _; exact ⟨h0, h1⟩
  | succ n ih =>
    intro o h0 h1 d0 d1
    obtain ⟨a, b⟩ := SineOscillator.updateAngle_range h0 h1 d0 d1
    exact ih _ a b d0 d1

theorem SineOscillator.afterCalls_succ (sin : ℚ → ℚ) (twoPi : ℚ) (n : Nat) :
    ∀ o : SineOscillator, SineOscillator.afterCalls sin twoPi (n + 1) o =
      (SineOscillator.afterCalls sin twoPi n o).updateAngle twoPi := by
  induction n with
  | zero => intro o; rfl
  | succ n ih => intro o; rw [SineOscillator.afterCalls, ih]; rfl

/-- C11: for every frequency `f` and sample rate `sr` with `0 <= f < sr / 2`,
`setFrequency (f, sr)` from the initial state sets `angleDelta = twoPi * f / sr`,
and after every number `n` of `getNextSample` calls `currentAngle` lies in
`[0, twoPi)`: each call adds `angleDelta` and subtracts `twoPi` once when the sum
reaches `twoPi`.  Arithmetic is exact; `twoPi` is any positive value of the
library constant. -/
theorem sine_angle_stays_in_range (sin : ℚ → ℚ) (twoPi : ℚ) (htwoPi : 0 < twoPi)
    (f sr : ℚ) (hf : 0 ≤ f) (hsr : f < sr / 2) (n : Nat) :
    (SineOscillator.create.setFrequency twoPi f sr).angleDelta = twoPi * f / sr ∧
    0 ≤ (SineOscillator.afterCalls sin twoPi n
          (SineOscillator.create.setFrequency twoPi f sr)).currentAngle ∧
    (SineOscillator.afterCalls sin twoPi n
          (SineOscillator.create.setFrequency twoPi f sr)).currentAngle < twoPi ∧
    (SineOscillator.afterCalls sin twoPi (n + 1)
          (SineOscillator.create.setFrequency twoPi f sr)).currentAngle =
      (if (SineOscillator.afterCalls sin twoPi n
            (SineOscillator.create.setFrequency twoPi f sr)).currentAngle + twoPi * f / sr ≥ twoPi
       then (SineOscillator.afterCalls sin twoPi n
            (SineOscillator.create.setFrequency twoPi f sr)).currentAngle + twoPi * f / sr - twoPi
       else (SineOscillator.afterCalls sin twoPi n
            (SineOscillator.create.setFrequency twoPi f sr)).currentAngle + twoPi * f / sr) := by
  have hsrpos : 0 < sr := by linarith
  have hd : (SineOscillator.create.setFrequency twoPi f sr).angleDelta = twoPi * f / sr := by
    simp only [SineOscillator.setFrequency]
    ring
  have hd0 : 0 ≤ twoPi * f / sr := by positivity
  have hd1 : twoPi * f / sr < twoPi := by
    rw [div_lt_iff₀ hsrpos]
    nlinarith
  obtain ⟨r0, r1⟩ := SineOscillator.afterCalls_range sin n
    (SineOscillator.create.setFrequency twoPi f sr) (le_refl _) htwoPi
    (by rw [hd]; exact hd0) (by rw [hd]; exact hd1)
  refine ⟨hd, r0, r1, ?_⟩
  rw [SineOscillator.afterCalls_succ, SineOscillator.updateAngle,
    SineOscillator.afterCalls_angleDelta, hd]

theorem sine_angle_stays_in_range_witness :
    (0 : ℚ) < twoPiFloat ∧ (0 : ℚ) ≤ 440 ∧ (440 : ℚ) < 44100 / 2 ∧
    0 ≤ (SineOscillator.afterCalls (fun _ => 0) twoPiFloat 1000
          (SineOscillator.create.setFrequency twoPiFloat 440 44100)).currentAngle ∧
    (SineOscillator.afterCalls (fun _ => 0) twoPiFloat 1000
          (SineOscillator.create.setFrequency twoPiFloat 440 44100)).currentAngle < twoPiFloat :=
  ⟨by norm_num [twoPiFloat], by norm_num, by norm_num,
    (sine_angle_stays_in_range (fun _ => 0) twoPiFloat (by norm_num [twoPiFloat]) 440 44100
      (by norm_num) (by norm_num) 1000).2.1,
    (sine_angle_stays_in_range (fun _ => 0) twoPiFloat (by norm_num [twoPiFloat]) 440 44100
      (by norm_num) (by norm_num) 1000).2.2.1⟩

/-! ## Claims on interpolation, frequency change and the wavetable -/

theorem floor_frac_facts (x : ℚ) (hx : 0 ≤ x) :
    0 ≤ x - ((Int.toNat ⌊x⌋ : Nat) : ℚ) ∧ x - ((Int.toNat ⌊x⌋ : Nat) : ℚ) < 1 ∧
    (x - ((Int.toNat ⌊x⌋ : Nat) : ℚ) = 0 ↔ ∃ k : ℤ, x = k) := by
  have hfl : 0 ≤ ⌊x⌋ := Int.floor_nonneg.2 hx
  have hcast : ((Int.toNat ⌊x⌋ : Nat) : ℚ) = ((⌊x⌋ : ℤ) : ℚ) := by
    have : ((Int.toNat ⌊x⌋ : Nat) : ℤ) = ⌊x⌋ := Int.toNat_of_nonneg hfl
    exact_mod_cast congrArg (fun z : ℤ => (z : ℚ)) this
  rw [hcast]
  refine ⟨by linarith [Int.floor_le x], by linarith [Int.lt_floor_add_one x], ?_⟩
  constructor
  · intro h
    exact ⟨⌊x⌋, by linarith⟩
  · rintro ⟨k, rfl⟩
    simp

theorem floor_one_half : ⌊(1 / 2 : ℚ)⌋ = 0 := by
  rw [Int.floor_eq_iff]
  norm_num

theorem getNextSample_halfIndex :
    halfIndexOscillator.getNextSample =
      some (0, { wavetable := zeroTable, tableSize := 128, currentIndex := 1 / 2 + 32,
                 tableDelta := 32 }) := by
  simp only [WavetableOscillator.getNextSample, halfIndexOscillator, floor_one_half,
    Int.toNat_zero, zeroTable_getElem?_of_lt (show 0 < 129 by decide),
    zeroTable_getElem?_of_lt (show 0 + 1 < 129 by decide)]
  norm_num

/-- C12 as stated fails: on the table of zeros at index 1/2 the result 0 equals
`table[i0]` although `currentIndex` is not an integer. -/
theorem interpolation_hits_table_value_off_grid :
    halfIndexOscillator.getNextSample.map Prod.fst = some 0 ∧
    halfIndexOscillator.wavetable[Int.toNat ⌊halfIndexOscillator.currentIndex⌋]? = some 0 ∧
    ¬ ∃ k : ℤ, halfIndexOscillator.currentIndex = k := by
  refine ⟨by rw [getNextSample_halfIndex]; rfl, ?_, ?_⟩
  · simp only [halfIndexOscillator, floor_one_half, Int.toNat_zero,
      zeroTable_getElem?_of_lt (show 0 < 129 by decide)]
  · rintro ⟨k, hk⟩
    have h2 : (2 : ℚ) * k = 1 := by
      rw [← hk]
      norm_num [halfIndexOscillator]
    have h3 : (2 : ℤ) * k = 1 := by exact_mod_cast h2
    omega

/-- C12 (amended): `getNextSample`, at a non-negative index, returns (in exact
arithmetic) `table[i0] + frac * (table[i0 + 1] - table[i0])` with
`i0 = floor (currentIndex)` and `frac = currentIndex - i0` taken before the phase
advance; the result lies between `table[i0]` and `table[i0 + 1]` and equals
`table[i0]` whenever `currentIndex` is an integer. -/
theorem getNextSample_interpolates (o o1 : WavetableOscillator) (x : ℚ)
    (hidx : 0 ≤ o.currentIndex) (h : o.getNextSample = some (x, o1)) :
    ∃ v0 v1 : ℚ,
      o.wavetable[Int.toNat ⌊o.currentIndex⌋]? = some v0 ∧
      o.wavetable[Int.toNat ⌊o.currentIndex⌋ + 1]? = some v1 ∧
      x = v0 + (o.currentIndex - ((Int.toNat ⌊o.currentIndex⌋ : Nat) : ℚ)) * (v1 - v0) ∧
      min v0 v1 ≤ x ∧ x ≤ max v0 v1 ∧
      ((∃ k : ℤ, o.currentIndex = k) → x = v0) := by
  obtain ⟨f0, f1, fz⟩ := floor_frac_facts o.currentIndex hidx
  simp only [WavetableOscillator.getNextSample] at h
  cases h0 : o.wavetable[Int.toNat ⌊o.currentIndex⌋]? with
  | none => simp [h0] at h
  | some v0 =>
    cases h1 : o.wavetable[Int.toNat ⌊o.currentIndex⌋ + 1]? with
    | none => simp [h0, h1] at h
    | some v1 =>
      simp only [h0, h1, Option.some.injEq, Prod.mk.injEq] at h
      obtain ⟨hx, _⟩ := h
      set frac := o.currentIndex - ((Int.toNat ⌊o.currentIndex⌋ : Nat) : ℚ) with hfrac
      refine ⟨v0, v1, rfl, rfl, hx.symm, ?_, ?_, ?_⟩
      · rcases le_total v0 v1 with hle | hle
        · rw [min_eq_left hle, ← hx]; nlinarith
        · rw [min_eq_right hle, ← hx]; nlinarith
      · rcases le_total v0 v1 with hle | hle
        · rw [max_eq_right hle, ← hx]; nlinarith
        · rw [max_eq_left hle, ← hx]; nlinarith
      · intro hk
        rw [← hx, fz.2 hk]; ring

theorem getNextSample_interpolates_witness :
    (0 : ℚ) ≤ halfIndexOscillator.currentIndex ∧
    ∃ v0 v1 : ℚ,
      halfIndexOscillator.wavetable[Int.toNat ⌊halfIndexOscillator.currentIndex⌋]? = some v0 ∧
      halfIndexOscillator.wavetable[Int.toNat ⌊halfIndexOscillator.currentIndex⌋ + 1]? =
        some v1 ∧
      (0 : ℚ) = v0 + (halfIndexOscillator.currentIndex -
        ((Int.toNat ⌊halfIndexOscillator.currentIndex⌋ : Nat) : ℚ)) * (v1 - v0) ∧
      min v0 v1 ≤ 0 ∧ 0 ≤ max v0 v1 ∧
      ((∃ k : ℤ, halfIndexOscillator.currentIndex = k) → (0 : ℚ) = v0) :=
  ⟨by norm_num [halfIndexOscillator],
    getNextSample_interpolates halfIndexOscillator _ 0 (by norm_num [halfIndexOscillator])
      getNextSample_halfIndex⟩

/-- C13: `setFrequency (f, sr)` sets `tableDelta` to `f / sr * tableSize` (in
exact arithmetic) and leaves `currentIndex`, the table and `tableSize` unchanged:
the phase is neither reset nor moved. -/
theorem setFrequency_sets_delta_keeps_phase (o : WavetableOscillator) (f sr : ℚ) :
    (o.setFrequency f sr).tableDelta = f / sr * (o.tableSize : ℚ) ∧
    (o.setFrequency f sr).currentIndex = o.currentIndex ∧
    (o.setFrequency f sr).wavetable = o.wavetable ∧
    (o.setFrequency f sr).tableSize = o.tableSize := by
  refine ⟨?_, rfl, rfl, rfl⟩
  simp only [WavetableOscillator.setFrequency]
  ring

namespace MainContentComponent

variable {K : Type} [Field K]

theorem length_addHarmonic (sin : K → K) (twoPi : K) (samples : List K) (harmonic : Nat)
    (weight : K) : (addHarmonic sin twoPi samples harmonic weight).length = samples.length := by
  unfold addHarmonic
  have key : ∀ (f : K → K → K) (d : K) (l : List Nat) (st : List K × K),
      (l.foldl (fun (st : List K × K) (i : Nat) =>
        (st.1.set i (f (st.1.getD i 0) st.2), st.2 + d)) st).1.length = st.1.length := by
    intro f d l
    induction l with
    | nil => intro st; rfl
    | cons i l ih =>
      intro st
      rw [List.foldl_cons, ih]
      simp
  exact key (fun x a => x + sin a * weight) _ _ _

theorem length_foldl_addHarmonic (sin : K → K) (twoPi : K) (hws : List (Nat × K)) :
    ∀ samples : List K,
      (hws.foldl (fun s hw => addHarmonic sin twoPi s hw.1 hw.2) samples).length =
        samples.length := by
  induction hws with
  | nil => intro s; rfl
  | cons hw hws ih =>
    intro s
    rw [List.foldl_cons, ih, length_addHarmonic]

end MainContentComponent

/-- C14: `createWavetable`, with `tableSize = 128` and the harmonics and weights
of the source, produces a table of `tableSize + 1 = 129` samples whose last
sample equals its first, `samples[128] = samples[0]`, whatever `sin` and `twoPi`
are. -/
theorem createWavetable_last_duplicates_first {K : Type} [Field K] (sin : K → K) (twoPi : K) :
    MainContentComponent.tableSize = 128 ∧
    (MainContentComponent.createWavetable sin twoPi).length = 129 ∧
    ∃ first : K, (MainContentComponent.createWavetable sin twoPi)[0]? = some first ∧
      (MainContentComponent.createWavetable sin twoPi)[128]? = some first := by
  have hts : MainContentComponent.tableSize = 128 := rfl
  have hlen : ∀ s : List K, s.length = 129 →
      (s.set MainContentComponent.tableSize (s.getD 0 0)).length = 129 ∧
      ∃ first : K, (s.set MainContentComponent.tableSize (s.getD 0 0))[0]? = some first ∧
        (s.set MainContentComponent.tableSize (s.getD 0 0))[128]? = some first := by
    intro s hs
    refine ⟨by simp [hs], s.getD 0 0, ?_, ?_⟩
    · rw [hts, List.getElem?_set_ne (by decide)]
      cases s with
      | nil => simp at hs
      | cons a l => simp
    · rw [hts, List.getElem?_set_self (by omega)]
  refine ⟨hts, ?_⟩
  unfold MainContentComponent.createWavetable
  exact hlen _ (by
    rw [MainContentComponent.length_foldl_addHarmonic, List.length_replicate, hts])

/-! ## Claims on the voice -/

/-- C19: the cutoff `jmap (x, -1, 1, 100, 4000)` that `renderNextBlock` passes to
the filter for the LFO output `x` is `100 + (x + 1) / 2 * 3900`; for `x` in
`[-1, 1]` it lies in `[100, 4000]`, it is strictly increasing in `x`, and
`x = -1` gives 100, `x = 1` gives 4000. -/
theorem cutoff_range_and_monotone :
    (∀ x : ℚ, jmap x (-1) 1 100 4000 = 100 + (x + 1) / 2 * 3900) ∧
    (∀ x : ℚ, -1 ≤ x → x ≤ 1 → 100 ≤ jmap x (-1) 1 100 4000 ∧ jmap x (-1) 1 100 4000 ≤ 4000) ∧
    (∀ x y : ℚ, x < y → jmap x (-1) 1 100 4000 < jmap y (-1) 1 100 4000) ∧
    jmap (-1) (-1) 1 100 4000 = 100 ∧ jmap 1 (-1) 1 100 4000 = 4000 := by
  have h : ∀ x : ℚ, jmap x (-1) 1 100 4000 = 100 + (x + 1) / 2 * 3900 := by
    intro x
    simp only [jmap]
    ring
  refine ⟨h, ?_, ?_, ?_, ?_⟩
  · intro x h1 h2
    rw [h]
    constructor <;> linarith
  · intro x y hxy
    rw [h, h]
    linarith
  · rw [h]; norm_num
  · rw [h]; norm_num

namespace Voice

variable {L C : Type}

/-- The LFO loop, counted from the last cutoff update: a voice whose counter is
`k` samples before its next update behaves, over `n` samples, like one that has
rendered `128 - k + n` samples since an update. -/
theorem lfoLoop_spec (p : VoiceProcessors L C) (n : Nat) :
    ∀ v : Voice L C, 1 ≤ v.lfoProcessingIndex → v.lfoProcessingIndex ≤ 128 →
      (lfoLoop p n v).1.lfoProcessingIndex = 128 - (128 - v.lfoProcessingIndex + n) % 128 ∧
      (lfoLoop p n v).2.length = (128 - v.lfoProcessingIndex + n) / 128 ∧
      (lfoLoop p n v).1.lfo =
        (fun l => (p.lfoProcessSample l 0).2)^[(128 - v.lfoProcessingIndex + n) / 128] v.lfo ∧
      (lfoLoop p n v).1.tempBlock = v.tempBlock := by
  induction n with
  | zero =>
    intro v h1 h2
    have hlt : 128 - v.lfoProcessingIndex < 128 := by omega
    simp only [lfoLoop, Nat.add_zero, List.length_nil, Nat.mod_eq_of_lt hlt,
      Nat.div_eq_of_lt hlt, Function.iterate_zero, id_eq, and_true]
    omega
  | succ n ih =>
    intro v h1 h2
    obtain ⟨tb, chain, idx, lfo⟩ := v
    simp only at h1 h2
    by_cases hone : idx = 1
    · subst hone
      have hdec : sizeDecrement 1 = 0 := by decide
      obtain ⟨a, b, c, d⟩ := ih
        { tempBlock := tb,
          processorChain := p.setCutoffFrequencyHz chain
            (jmap (p.lfoProcessSample lfo 0).1 (-1) 1 100 4000),
          lfoProcessingIndex := 128,
          lfo := (p.lfoProcessSample lfo 0).2 }
        (by show 1 ≤ 128; decide) (by show 128 ≤ 128; decide)
      simp only [Nat.sub_self, Nat.zero_add] at a b c d
      have e : 128 - 1 + (n + 1) = n + 128 := by omega
      simp only [lfoLoop, hdec, if_true, List.length_cons, lfoDownsamplingRatio, e,
        Nat.add_mod_right, Nat.add_div_right _ (show 0 < 128 by decide),
        Function.iterate_succ_apply]
      exact ⟨a, by rw [b], c, d⟩
    · have hdec : sizeDecrement idx = idx - 1 := by
        simp only [sizeDecrement]
        rw [if_neg (by omega)]
      have hne : ¬ (idx - 1 = 0) := by omega
      obtain ⟨a, b, c, d⟩ := ih
        { tempBlock := tb, processorChain := chain, lfoProcessingIndex := idx - 1, lfo := lfo }
        (by show 1 ≤ idx - 1; omega) (by show idx - 1 ≤ 128; omega)
      have e : 128 - (idx - 1) + n = 128 - idx + (n + 1) := by omega
      simp only [e] at a b c
      simp only [lfoLoop, hdec, hne, if_false]
      exact ⟨a, b, c, d⟩

theorem lfoLoop_tempBlock (p : VoiceProcessors L C) (n : Nat) :
    ∀ v : Voice L C, (lfoLoop p n v).1.tempBlock = v.tempBlock := by
  induction n with
  | zero => intro v; rfl
  | succ n ih =>
    intro v
    simp only [lfoLoop]
    split
    · rw [ih]
    · rw [ih]

theorem renderBlocks_spec (p : VoiceProcessors L C) (blocks : List (Nat × Nat)) :
    ∀ (v : Voice L C) (out : AudioBlock), 1 ≤ v.lfoProcessingIndex →
      v.lfoProcessingIndex ≤ 128 →
      (renderBlocks p v out blocks).1.lfoProcessingIndex =
        128 - (128 - v.lfoProcessingIndex + totalSamples blocks) % 128 ∧
      (renderBlocks p v out blocks).2.2.length =
        (128 - v.lfoProcessingIndex + totalSamples blocks) / 128 ∧
      (renderBlocks p v out blocks).1.lfo =
        (fun l => (p.lfoProcessSample l 0).2)^[(128 - v.lfoProcessingIndex
          + totalSamples blocks) / 128] v.lfo := by
  induction blocks with
  | nil =>
    intro v out h1 h2
    have hlt : 128 - v.lfoProcessingIndex < 128 := by omega
    simp only [renderBlocks, totalSamples, List.map_nil, List.sum_nil, Nat.add_zero,
      List.length_nil, Nat.mod_eq_of_lt hlt, Nat.div_eq_of_lt hlt, Function.iterate_zero,
      id_eq, and_true]
    omega
  | cons blk blocks ih =>
    intro v out h1 h2
    obtain ⟨start, n⟩ := blk
    obtain ⟨a, b, c, _⟩ := lfoLoop_spec p n v h1 h2
    have hidx : (renderNextBlock p v out start n).1.lfoProcessingIndex =
        128 - (128 - v.lfoProcessingIndex + n) % 128 := a
    have hlfo : (renderNextBlock p v out start n).1.lfo =
        (fun l => (p.lfoProcessSample l 0).2)^[(128 - v.lfoProcessingIndex + n) / 128] v.lfo := c
    have hlog : (renderNextBlock p v out start n).2.2.length =
        (128 - v.lfoProcessingIndex + n) / 128 := b
    obtain ⟨a1, b1, c1⟩ := ih (renderNextBlock p v out start n).1
      (renderNextBlock p v out start n).2.1 (by rw [hidx]; omega) (by rw [hidx]; omega)
    have ht : totalSamples ((start, n) :: blocks) = n + totalSamples blocks := by
      simp [totalSamples]
    simp only [renderBlocks, List.length_append, ht]
    rw [a1, b1, c1, hidx, hlog, hlfo, ← Function.iterate_add_apply]
    refine ⟨by omega, by omega, ?_⟩
    congr 1
    omega

end Voice

/-- C15: across any sequence of `renderNextBlock` calls totalling `N` samples
on a voice whose counter has its initial value `lfoDownsamplingRatio = 128`, the
filter cutoff is set exactly `N / 128` times and the LFO is advanced exactly
`N / 128` times, however the samples are split into blocks, and the counter
`lfoProcessingIndex` afterwards is `128 - N mod 128`, within `[1, 128]`. -/
theorem lfo_updates_once_per_128_samples {L C : Type} (p : VoiceProcessors L C)
    (v : Voice L C) (hfresh : v.lfoProcessingIndex = lfoDownsamplingRatio)
    (out : AudioBlock) (blocks : List (Nat × Nat)) :
    (Voice.renderBlocks p v out blocks).2.2.length = totalSamples blocks / 128 ∧
    (Voice.renderBlocks p v out blocks).1.lfo =
      (fun l => (p.lfoProcessSample l 0).2)^[totalSamples blocks / 128] v.lfo ∧
    (Voice.renderBlocks p v out blocks).1.lfoProcessingIndex =
      128 - totalSamples blocks % 128 ∧
    1 ≤ (Voice.renderBlocks p v out blocks).1.lfoProcessingIndex ∧
    (Voice.renderBlocks p v out blocks).1.lfoProcessingIndex ≤ 128 := by
  have h128 : v.lfoProcessingIndex = 128 := hfresh
  obtain ⟨a, b, c⟩ := Voice.renderBlocks_spec p blocks v out (by omega) (by omega)
  simp only [h128, Nat.sub_self, Nat.zero_add] at a b c
  refine ⟨b, c, a, ?_, ?_⟩ <;> omega

/-- C18: `renderNextBlock (out, start, n)`, for a block within the prepared
maximum size and an output buffer with the channels of the scratch block, mixes
additively: for every channel and every `i < n`, `out[start + i]` afterwards is
its value before plus sample `i` of what the chain rendered into the cleared
scratch block, and every other sample of `out` is unchanged. -/
theorem renderNextBlock_mixes_additively {L C : Type} (p : VoiceProcessors L C)
    (v : Voice L C) (out : AudioBlock) (start n : Nat)
    (hch : out.numChannels = v.tempBlock.numChannels) (hn : n ≤ v.tempBlock.numSamples) :
    (∀ ch i, ch < out.numChannels → i < n →
      (Voice.renderNextBlock p v out start n).2.1.data ch (start + i) =
        out.data ch (start + i) +
          (p.chainProcess (Voice.lfoLoop p n v).1.processorChain
            { numChannels := v.tempBlock.numChannels, numSamples := n,
              data := fun c j =>
                if c < v.tempBlock.numChannels ∧ j < n then 0 else v.tempBlock.data c j }).2
            ch i) ∧
    (∀ ch j, ¬ (ch < out.numChannels ∧ start ≤ j ∧ j < start + n) →
      (Voice.renderNextBlock p v out start n).2.1.data ch j = out.data ch j) ∧
    (Voice.renderNextBlock p v out start n).2.1.numChannels = out.numChannels ∧
    (Voice.renderNextBlock p v out start n).2.1.numSamples = out.numSamples := by
  have htb := Voice.lfoLoop_tempBlock p n v
  refine ⟨fun ch i hc hi => ?_, fun ch j hj => ?_, rfl, rfl⟩
  · have h1 : ch < out.numChannels ∧ start ≤ start + i ∧
        start + i < start + min n v.tempBlock.numSamples := by
      rw [min_eq_left hn]
      exact ⟨hc, by omega, by omega⟩
    have h2 : ch < v.tempBlock.numChannels ∧ i < n := ⟨by omega, hi⟩
    simp only [Voice.renderNextBlock, htb, h1, h2, and_self, if_true, Nat.add_sub_cancel_left]
  · have h1 : ¬ (ch < out.numChannels ∧ start ≤ j ∧
        j < start + min n v.tempBlock.numSamples) := by
      rw [min_eq_left hn]
      exact hj
    simp only [Voice.renderNextBlock, htb, h1, if_false]

theorem lfo_updates_once_per_128_samples_witness :
    preparedVoice.lfoProcessingIndex = lfoDownsamplingRatio ∧
    (Voice.renderBlocks constantProcessors preparedVoice silentBuffer
      [(0, 100), (100, 0), (100, 412), (0, 1)]).2.2.length =
      totalSamples [(0, 100), (100, 0), (100, 412), (0, 1)] / 128 ∧
    (Voice.renderBlocks constantProcessors preparedVoice silentBuffer
      [(0, 100), (100, 0), (100, 412), (0, 1)]).1.lfoProcessingIndex =
      128 - totalSamples [(0, 100), (100, 0), (100, 412), (0, 1)] % 128 :=
  ⟨rfl,
    (lfo_updates_once_per_128_samples constantProcessors preparedVoice rfl silentBuffer
      [(0, 100), (100, 0), (100, 412), (0, 1)]).1,
    (lfo_updates_once_per_128_samples constantProcessors preparedVoice rfl silentBuffer
      [(0, 100), (100, 0), (100, 412), (0, 1)]).2.2.1⟩

/-- C17 as stated fails: a prepared voice that renders one sample, has its chain
reset and is prepared again with the same spec has `lfoProcessingIndex = 127`,
not its initial value 128, although LFO and chain are as after the first
`prepare`; rendering 127 samples then sets the filter cutoff once, while after
the first `prepare` it sets it not at all. -/
theorem prepare_does_not_restore_lfo_counter :
    preparedVoice.lfoProcessingIndex = 128 ∧
    preparedAgainVoice.lfoProcessingIndex = 127 ∧
    preparedAgainVoice.lfo = preparedVoice.lfo ∧
    preparedAgainVoice.processorChain = preparedVoice.processorChain ∧
    (Voice.renderNextBlock constantProcessors preparedVoice silentBuffer 0 127).2.2.length = 0 ∧
    (Voice.renderNextBlock constantProcessors preparedAgainVoice silentBuffer 0 127).2.2.length
      = 1 := by
  have h1 : preparedVoice.lfoProcessingIndex = 128 := rfl
  have h2 : preparedAgainVoice.lfoProcessingIndex = 127 := rfl
  refine ⟨h1, h2, rfl, rfl, ?_, ?_⟩
  · exact (Voice.lfoLoop_spec constantProcessors 127 preparedVoice (by rw [h1]; decide)
      (by rw [h1])).2.1
  · exact (Voice.lfoLoop_spec constantProcessors 127 preparedAgainVoice (by rw [h2]; decide)
      (by rw [h2]; decide)).2.1

/-- C17 (amended): a reset of the chain followed by `prepare (spec)` prepares
the LFO, the scratch block and the reset chain and leaves `lfoProcessingIndex`
as it was; after `N` rendered samples on a voice whose counter started at 128 it
is `128 - N mod 128`, the initial value exactly when `N` is a multiple of
128. -/
theorem prepare_keeps_lfo_counter {L C : Type} (p : VoiceProcessors L C) (v : Voice L C)
    (hfresh : v.lfoProcessingIndex = lfoDownsamplingRatio) (out : AudioBlock)
    (blocks : List (Nat × Nat)) (spec : ProcessSpec) (storage : Nat → Nat → ℚ) :
    (∀ w : Voice L C,
      (Voice.prepare p (Voice.resetProcessorChain p w) spec storage).lfoProcessingIndex =
        w.lfoProcessingIndex ∧
      (Voice.prepare p (Voice.resetProcessorChain p w) spec storage).lfo =
        p.lfoPrepare w.lfo
          { sampleRate := spec.sampleRate / (lfoDownsamplingRatio : ℚ),
            maximumBlockSize := spec.maximumBlockSize, numChannels := 1 } ∧
      (Voice.prepare p (Voice.resetProcessorChain p w) spec storage).processorChain =
        p.chainPrepare (p.chainReset w.processorChain) spec ∧
      (Voice.prepare p (Voice.resetProcessorChain p w) spec storage).tempBlock =
        { numChannels := spec.numChannels, numSamples := spec.maximumBlockSize,
          data := storage }) ∧
    (Voice.prepare p (Voice.resetProcessorChain p (Voice.renderBlocks p v out blocks).1)
        spec storage).lfoProcessingIndex = 128 - totalSamples blocks % 128 ∧
    ((Voice.prepare p (Voice.resetProcessorChain p (Voice.renderBlocks p v out blocks).1)
        spec storage).lfoProcessingIndex = lfoDownsamplingRatio ↔
      totalSamples blocks % 128 = 0) := by
  have h128 : v.lfoProcessingIndex = 128 := hfresh
  obtain ⟨a, _, _⟩ := Voice.renderBlocks_spec p blocks v out (by omega) (by omega)
  simp only [h128, Nat.sub_self, Nat.zero_add] at a
  refine ⟨fun w => ⟨rfl, rfl, rfl, rfl⟩, ?_, ?_⟩
  · exact a
  · show (Voice.renderBlocks p v out blocks).1.lfoProcessingIndex = 128 ↔ _
    rw [a]
    omega

theorem prepare_keeps_lfo_counter_witness :
    preparedVoice.lfoProcessingIndex = lfoDownsamplingRatio ∧
    (Voice.prepare constantProcessors
        (Voice.resetProcessorChain constantProcessors
          (Voice.renderBlocks constantProcessors preparedVoice silentBuffer [(0, 1)]).1)
        stereoSpec (fun _ _ => 0)).lfoProcessingIndex = 128 - totalSamples [(0, 1)] % 128 :=
  ⟨rfl, (prepare_keeps_lfo_counter constantProcessors preparedVoice rfl silentBuffer [(0, 1)]
    stereoSpec (fun _ _ => 0)).2.1⟩

theorem renderNextBlock_mixes_additively_witness :
    silentBuffer.numChannels = preparedVoice.tempBlock.numChannels ∧
    64 ≤ preparedVoice.tempBlock.numSamples ∧
    (∀ ch j, ¬ (ch < silentBuffer.numChannels ∧ 10 ≤ j ∧ j < 10 + 64) →
      (Voice.renderNextBlock constantProcessors preparedVoice silentBuffer 10 64).2.1.data ch j
        = silentBuffer.data ch j) :=
  ⟨rfl, by decide,
    (renderNextBlock_mixes_additively constantProcessors preparedVoice silentBuffer 10 64 rfl
      (by decide)).2.1⟩

/-! ## Claims on the voice pool -/

namespace AudioEngine

theorem noteOns_four (n1 n2 n3 n4 : Nat) :
    noteOns create [n1, n2, n3, n4] = fourHeld n1 n2 n3 n4 := by
  rfl

theorem findFreeVoice_fourHeld (n1 n2 n3 n4 : Nat) (note : MPENote) :
    findFreeVoice (fourHeld n1 n2 n3 n4) note true =
      findVoiceToSteal (fourHeld n1 n2 n3 n4) note := by
  rfl

theorem usable_fourHeld (n1 n2 n3 n4 : Nat) :
    (List.range (fourHeld n1 n2 n3 n4).voices.length).insertionSort
      (fun a b => ((fourHeld n1 n2 n3 n4).voices.getD a
          { currentlyPlayingNote := none, noteOnTime := 0 }).noteOnTime ≤
        ((fourHeld n1 n2 n3 n4).voices.getD b
          { currentlyPlayingNote := none, noteOnTime := 0 }).noteOnTime) = [0, 1, 2, 3] := by
  rfl

theorem low_fourHeld (n1 n2 n3 n4 : Nat) :
    (lowAndTop (fourHeld n1 n2 n3 n4).voices).1 = some (firstLowest n1 n2 n3 n4) := by
  simp only [lowAndTop, fourHeld, List.length_cons, List.length_nil, firstLowest]
  simp only [List.range_succ, List.range_zero, List.nil_append, List.cons_append,
    List.foldl_cons, List.foldl_nil]
  by_cases a : n2 < n1 <;> by_cases b : n3 < n2 <;> by_cases c : n3 < n1 <;>
    by_cases d : n4 < n1 <;> by_cases e : n4 < n2 <;> by_cases f : n4 < n3 <;>
    simp [a, b, c, d, e, f, MPESynthesiserVoice.isPlayingButReleased,
      MPESynthesiserVoice.initialNote]

theorem top_fourHeld (n1 n2 n3 n4 : Nat) :
    (lowAndTop (fourHeld n1 n2 n3 n4).voices).2 = some (firstHighest n1 n2 n3 n4) := by
  simp only [lowAndTop, fourHeld, List.length_cons, List.length_nil, firstHighest]
  simp only [List.range_succ, List.range_zero, List.nil_append, List.cons_append,
    List.foldl_cons, List.foldl_nil]
  by_cases a : n2 > n1 <;> by_cases b : n3 > n2 <;> by_cases c : n3 > n1 <;>
    by_cases d : n4 > n1 <;> by_cases e : n4 > n2 <;> by_cases f : n4 > n3 <;>
    simp [a, b, c, d, e, f, MPESynthesiserVoice.isPlayingButReleased,
      MPESynthesiserVoice.initialNote]

theorem firstLowest_facts (n1 n2 n3 n4 : Nat) :
    (firstLowest n1 n2 n3 n4 = 0 ↔ ¬ (n2 < n1 ∨ n3 < n1 ∨ n4 < n1)) ∧
    firstLowest n1 n2 n3 n4 < 4 := by
  unfold firstLowest
  constructor
  · split_ifs <;> simp <;> omega
  · split_ifs <;> omega

theorem firstHighest_facts (n1 n2 n3 n4 : Nat) :
    (firstHighest n1 n2 n3 n4 = 0 ↔ ¬ (n1 < n2 ∨ n1 < n3 ∨ n1 < n4)) ∧
    firstHighest n1 n2 n3 n4 < 4 := by
  unfold firstHighest
  constructor
  · split_ifs <;> simp <;> omega
  · split_ifs <;> omega

theorem findVoiceToSteal_fourHeld_same (n1 n2 n3 n4 : Nat) :
    findVoiceToSteal (fourHeld n1 n2 n3 n4) { initialNote := n1, keyState := KeyState.keyDown }
      = some 0 := by
  unfold findVoiceToSteal
  simp only [usable_fourHeld]
  simp [fourHeld, MPESynthesiserVoice.initialNote]

theorem findVoiceToSteal_fourHeld_other (n1 n2 n3 n4 n5 : Nat)
    (h1 : n1 ≠ n5) (h2 : n2 ≠ n5) (h3 : n3 ≠ n5) (h4 : n4 ≠ n5) :
    (findVoiceToSteal (fourHeld n1 n2 n3 n4) { initialNote := n5, keyState := KeyState.keyDown }
      = some 0 ↔ ((n2 < n1 ∨ n3 < n1 ∨ n4 < n1) ∧ (n1 < n2 ∨ n1 < n3 ∨ n1 < n4))) := by
  obtain ⟨hL0, hL4⟩ := firstLowest_facts n1 n2 n3 n4
  obtain ⟨hT0, hT4⟩ := firstHighest_facts n1 n2 n3 n4
  unfold findVoiceToSteal
  simp only [usable_fourHeld, low_fourHeld, top_fourHeld]
  generalize firstLowest n1 n2 n3 n4 = L at hL0 hL4 ⊢
  generalize firstHighest n1 n2 n3 n4 = T at hT0 hT4 ⊢
  by_cases hl : (n2 < n1 ∨ n3 < n1 ∨ n4 < n1) <;> by_cases ht : (n1 < n2 ∨ n1 < n3 ∨ n1 < n4) <;>
    simp only [hl, ht, not_true, not_false_iff, iff_false, iff_true] at hL0 hT0 <;>
    interval_cases L <;> interval_cases T <;>
    simp_all [fourHeld, MPESynthesiserVoice.initialNote, MPESynthesiserVoice.isPlayingButReleased,
      MPESynthesiserVoice.hasNoFingerOnIt, List.find?_cons]

theorem findVoiceToSteal_fourHeld_lt (n1 n2 n3 n4 n5 : Nat) :
    ∃ i, i < 4 ∧
      findVoiceToSteal (fourHeld n1 n2 n3 n4) { initialNote := n5, keyState := KeyState.keyDown }
        = some i := by
  obtain ⟨_, hL4⟩ := firstLowest_facts n1 n2 n3 n4
  obtain ⟨_, hT4⟩ := firstHighest_facts n1 n2 n3 n4
  unfold findVoiceToSteal
  simp only [usable_fourHeld, low_fourHeld, top_fourHeld]
  generalize firstLowest n1 n2 n3 n4 = L at hL4 ⊢
  generalize firstHighest n1 n2 n3 n4 = T at hT4 ⊢
  by_cases h1 : n1 = n5
  · simp [fourHeld, MPESynthesiserVoice.initialNote, List.find?_cons, h1]
  · by_cases h2 : n2 = n5
    · simp [fourHeld, MPESynthesiserVoice.initialNote, List.find?_cons, h1, h2]
    · by_cases h3 : n3 = n5
      · simp [fourHeld, MPESynthesiserVoice.initialNote, List.find?_cons, h1, h2, h3]
      · by_cases h4 : n4 = n5
        · simp [fourHeld, MPESynthesiserVoice.initialNote, List.find?_cons, h1, h2, h3, h4]
        · interval_cases L <;> interval_cases T <;>
            simp [fourHeld, MPESynthesiserVoice.initialNote,
              MPESynthesiserVoice.isPlayingButReleased, MPESynthesiserVoice.hasNoFingerOnIt,
              List.find?_cons, h1, h2, h3, h4]

theorem playing_startVoice_fourHeld (n1 n2 n3 n4 : Nat) (i : Nat) (note : MPENote) :
    playing (startVoice (fourHeld n1 n2 n3 n4) i note) =
      [some n1, some n2, some n3, some n4].set i (some note.initialNote) := by
  simp [playing, startVoice, fourHeld, List.map_set]

theorem noteOns_five (n1 n2 n3 n4 n5 : Nat) :
    noteOns create [n1, n2, n3, n4, n5] =
      match findVoiceToSteal (fourHeld n1 n2 n3 n4)
          { initialNote := n5, keyState := KeyState.keyDown } with
      | some voice => startVoice (fourHeld n1 n2 n3 n4) voice
          { initialNote := n5, keyState := KeyState.keyDown }
      | none => fourHeld n1 n2 n3 n4 := by
  have h4 := noteOns_four n1 n2 n3 n4
  simp only [noteOns] at h4 ⊢
  rw [h4]
  simp only [noteAdded]
  rw [show (fourHeld n1 n2 n3 n4).shouldStealVoices = true from rfl, findFreeVoice_fourHeld]

end AudioEngine

/-- C16 as stated fails: after note-ons 60, 61, 62, 63, 64 the fifth note is
played by the second voice; the voice triggered first plays the lowest note and
keeps it. -/
theorem fifth_note_spares_lowest_voice :
    (AudioEngine.noteOns AudioEngine.create [60, 61, 62, 63, 64]).playing
      = [some 60, some 64, some 62, some 63] := by
  decide

/-- C16 (amended): five note-ons with no note-off on the engine of four voices
leave exactly four active voices, one of which plays the fifth note instead of
its previous one.  It is the voice triggered first when that voice plays the
number of the fifth note, or when no voice plays that number and the first
voice's note is neither the lowest nor the highest of the four; when no voice
plays that number and the first voice's note is the lowest or the highest, the
first voice keeps its note and another voice is taken. -/
theorem fifth_note_steals_oldest_unprotected (n1 n2 n3 n4 n5 : Nat) :
    ((AudioEngine.noteOns AudioEngine.create [n1, n2, n3, n4, n5]).playing.length = 4 ∧
      ∀ x ∈ (AudioEngine.noteOns AudioEngine.create [n1, n2, n3, n4, n5]).playing,
        x.isSome = true) ∧
    some n5 ∈ (AudioEngine.noteOns AudioEngine.create [n1, n2, n3, n4, n5]).playing ∧
    ((n1 = n5 ∨ (n2 ≠ n5 ∧ n3 ≠ n5 ∧ n4 ≠ n5 ∧
        (n2 < n1 ∨ n3 < n1 ∨ n4 < n1) ∧ (n1 < n2 ∨ n1 < n3 ∨ n1 < n4))) →
      (AudioEngine.noteOns AudioEngine.create [n1, n2, n3, n4, n5]).playing =
        [some n5, some n2, some n3, some n4]) ∧
    ((n1 ≠ n5 ∧ n2 ≠ n5 ∧ n3 ≠ n5 ∧ n4 ≠ n5 ∧
        ¬ ((n2 < n1 ∨ n3 < n1 ∨ n4 < n1) ∧ (n1 < n2 ∨ n1 < n3 ∨ n1 < n4))) →
      (AudioEngine.noteOns AudioEngine.create [n1, n2, n3, n4, n5]).playing.head? =
        some (some n1)) := by
  obtain ⟨i, hi, hsteal⟩ := AudioEngine.findVoiceToSteal_fourHeld_lt n1 n2 n3 n4 n5
  have hplay : (AudioEngine.noteOns AudioEngine.create [n1, n2, n3, n4, n5]).playing =
      [some n1, some n2, some n3, some n4].set i (some n5) := by
    rw [AudioEngine.noteOns_five, hsteal]
    exact AudioEngine.playing_startVoice_fourHeld n1 n2 n3 n4 i _
  rw [hplay]
  refine ⟨?_, ?_, ?_, ?_⟩
  · interval_cases i <;> simp
  · interval_cases i <;> simp
  · intro h
    have h0 : i = 0 := by
      rcases h with h | ⟨h2, h3, h4, hl, hh⟩
      · subst h
        rw [AudioEngine.findVoiceToSteal_fourHeld_same] at hsteal
        exact (Option.some.inj hsteal).symm
      · by_cases h1 : n1 = n5
        · subst h1
          rw [AudioEngine.findVoiceToSteal_fourHeld_same] at hsteal
          exact (Option.some.inj hsteal).symm
        · have := (AudioEngine.findVoiceToSteal_fourHeld_other n1 n2 n3 n4 n5 h1 h2 h3 h4).2
            ⟨hl, hh⟩
          rw [this] at hsteal
          exact (Option.some.inj hsteal).symm
    subst h0
    rfl
  · rintro ⟨h1, h2, h3, h4, hnot⟩
    have h0 : i ≠ 0 := by
      rintro rfl
      exact hnot ((AudioEngine.findVoiceToSteal_fourHeld_other n1 n2 n3 n4 n5 h1 h2 h3 h4).1
        hsteal)
    interval_cases i <;> simp at h0 ⊢

/-! ## Claims on the bounds of the trigger collector -/

namespace ScopeDataCollector

theorem collectLoopChecked_eq (q : AudioBufferQueue ℚ) (xs : List ℚ) :
    ∀ (c : ScopeDataCollector) (pre : List ℚ), c.numCollected < bufferSize →
      collectLoopChecked c q (pre ++ xs) (pre.length + xs.length) pre.length pre.length =
        some (collectLoop c q xs) := by
  induction xs with
  | nil =>
    intro c pre _
    rw [collectLoopChecked]
    simp [collectLoop]
  | cons x xs ih =>
    intro c pre hn
    rw [collectLoopChecked]
    have hlt : pre.length < pre.length + (x :: xs).length := by simp
    have hget : (pre ++ x :: xs)[pre.length]? = some x := by
      rw [List.getElem?_append_right (Nat.le_refl _), Nat.sub_self]
      exact List.getElem?_cons_zero
    simp only [hlt, if_true, hget, hn, collectLoop]
    split
    · rfl
    · rename_i hne
      have := ih { c with buffer := Function.update c.buffer c.numCollected x,
                          numCollected := c.numCollected + 1 } (pre ++ [x])
        (by show c.numCollected + 1 < bufferSize; omega)
      simp only [List.append_assoc, List.singleton_append, List.length_append,
        List.length_singleton] at this
      rw [← this]
      congr 1
      simp only [List.length_cons]
      omega

theorem waitLoopChecked_eq (xs : List ℚ) :
    ∀ (c : ScopeDataCollector) (pre : List ℚ), c.state = State.waitingForTrigger →
      ∃ idx pos,
        waitLoopChecked c (pre ++ xs) (pre.length + xs.length) pre.length pre.length =
          some ((waitLoop c xs).1, idx, pos) ∧
        ((waitLoop c xs).1.state = State.collecting →
          (waitLoop c xs).1.numCollected = 0 ∧
          ∃ pre1 : List ℚ, pre1 ++ (waitLoop c xs).2 = pre ++ xs ∧ idx = pre1.length ∧
            pos = pre1.length) := by
  induction xs with
  | nil =>
    intro c pre hc
    refine ⟨pre.length + 1, pre.length, ?_, ?_⟩
    · rw [waitLoopChecked]
      simp [waitLoop]
    · intro h
      simp only [waitLoop, hc] at h
      exact State.noConfusion h
  | cons x xs ih =>
    intro c pre hc
    have hlt : pre.length < pre.length + (x :: xs).length := by simp
    have hget : (pre ++ x :: xs)[pre.length]? = some x := by
      rw [List.getElem?_append_right (Nat.le_refl _), Nat.sub_self]
      exact List.getElem?_cons_zero
    by_cases ht : x ≥ triggerLevel ∧ c.prevSample < triggerLevel
    · refine ⟨pre.length + 1, pre.length + 1, ?_, ?_⟩
      · rw [waitLoopChecked]
        simp only [hlt, if_true, hget, ht, and_self, waitLoop]
      · intro _
        have hw : waitLoop c (x :: xs) =
            ({ c with numCollected := 0, state := State.collecting }, xs) := by
          simp only [waitLoop, ht, and_self, if_true]
        rw [hw]
        exact ⟨rfl, pre ++ [x], by simp, by simp, by simp⟩
    · obtain ⟨idx, pos, h1, h2⟩ := ih { c with prevSample := x } (pre ++ [x]) hc
      simp only [List.append_assoc, List.singleton_append, List.length_append,
        List.length_singleton] at h1 h2
      refine ⟨idx, pos, ?_, ?_⟩
      · rw [waitLoopChecked]
        simp only [hlt, if_true, hget, ht, if_false, waitLoop]
        rw [← h1]
        congr 1
        simp only [List.length_cons]
        omega
      · simp only [waitLoop, ht, if_false]
        exact h2

theorem processChecked_eq (c : ScopeDataCollector)
    (hinv : c.state = State.collecting → c.numCollected < bufferSize)
    (q : AudioBufferQueue ℚ) (data : List ℚ) :
    processChecked c q data data.length = some (process c q data) := by
  cases hc : c.state
  · obtain ⟨idx, pos, h1, h2⟩ := waitLoopChecked_eq data c [] hc
    simp only [List.nil_append, List.length_nil, Nat.zero_add] at h1 h2
    simp only [processChecked, process, hc, if_true, h1]
    by_cases hs : (waitLoop c data).1.state = State.collecting
    · obtain ⟨hn, pre1, hp, hi, hpos⟩ := h2 hs
      simp only [hs, if_true]
      have := collectLoopChecked_eq q (waitLoop c data).2 (waitLoop c data).1 pre1
        (by rw [hn]; decide)
      rw [hp, ← List.length_append, hp, ← hi] at this
      rw [hpos, ← hi]
      exact this
    · simp only [hs, if_false]
  · have := collectLoopChecked_eq q data c [] (hinv hc)
    simp only [List.nil_append, List.length_nil, Nat.zero_add] at this
    simp only [processChecked, process, hc, this]
    simp [hc, this]

theorem collectLoop_invariant (q : AudioBufferQueue ℚ) (xs : List ℚ) :
    ∀ c : ScopeDataCollector, c.state = State.collecting → c.numCollected < bufferSize →
      ((collectLoop c q xs).1.state = State.collecting →
        (collectLoop c q xs).1.numCollected < bufferSize) := by
  induction xs with
  | nil => intro c _ hn _; exact hn
  | cons x xs ih =>
    intro c hc hn
    simp only [collectLoop]
    split
    · intro h
      exact State.noConfusion h
    · rename_i hne
      exact ih _ hc (by show c.numCollected + 1 < bufferSize; omega)

theorem process_invariant (c : ScopeDataCollector)
    (hinv : c.state = State.collecting → c.numCollected < bufferSize)
    (q : AudioBufferQueue ℚ) (data : List ℚ) :
    (process c q data).1.state = State.collecting →
      (process c q data).1.numCollected < bufferSize := by
  cases hc : c.state
  · obtain ⟨idx, pos, _, h2⟩ := waitLoopChecked_eq data c [] hc
    simp only [process, hc, if_true]
    by_cases hs : (waitLoop c data).1.state = State.collecting
    · simp only [hs, if_true]
      exact collectLoop_invariant q _ _ hs (by rw [(h2 hs).1]; decide)
    · simp only [hs, if_false]
      intro h
      exact h.elim
  · rw [process_collecting hc]
    exact collectLoop_invariant q data c hc (hinv hc)

theorem Reachable.invariant {c : ScopeDataCollector} (h : Reachable c) :
    c.state = State.collecting → c.numCollected < bufferSize := by
  induction h with
  | create b n => intro h; exact State.noConfusion h
  | process q data _ ih => exact process_invariant _ ih q data

/-- Two collectors that differ at most in a `numCollected` that is not in use
(state `waitingForTrigger`) stay so under `process` and push the same
snapshots. -/
theorem process_agree (q : AudioBufferQueue ℚ) (data : List ℚ) :
    ∀ c d : ScopeDataCollector,
      c.buffer = d.buffer → c.prevSample = d.prevSample → c.state = d.state →
      (c.state = State.collecting → c.numCollected = d.numCollected) →
      (process c q data).2 = (process d q data).2 ∧
      (process c q data).1.buffer = (process d q data).1.buffer ∧
      (process c q data).1.prevSample = (process d q data).1.prevSample ∧
      (process c q data).1.state = (process d q data).1.state ∧
      ((process c q data).1.state = State.collecting →
        (process c q data).1.numCollected = (process d q data).1.numCollected) := by
  induction data with
  | nil =>
    intro c d hb hp hs hn
    cases hc : c.state
    · rw [process_waiting_nil hc, process_waiting_nil (hs ▸ hc)]
      exact ⟨rfl, hb, hp, hs, hn⟩
    · have hcd : c = d := by
        obtain ⟨b1, n1, p1, s1⟩ := c
        obtain ⟨b2, n2, p2, s2⟩ := d
        simp only at hb hp hs hn hc
        subst hb hp hs
        rw [hn hc]
      subst hcd
      exact ⟨rfl, rfl, rfl, rfl, fun _ => rfl⟩
  | cons x xs ih =>
    intro c d hb hp hs hn
    cases hc : c.state
    · have hd : d.state = State.waitingForTrigger := hs ▸ hc
      by_cases ht : x ≥ triggerLevel ∧ c.prevSample < triggerLevel
      · have ht2 : x ≥ triggerLevel ∧ d.prevSample < triggerLevel := hp ▸ ht
        rw [process_waiting_trigger hc q x xs ht, process_waiting_trigger hd q x xs ht2]
        have : ({ c with numCollected := 0, state := State.collecting } : ScopeDataCollector) =
            { d with numCollected := 0, state := State.collecting } := by
          rw [hb, hp]
        rw [this]
        exact ⟨rfl, rfl, rfl, rfl, fun _ => rfl⟩
      · have ht2 : ¬ (x ≥ triggerLevel ∧ d.prevSample < triggerLevel) := hp ▸ ht
        rw [process_waiting_no_trigger hc q x xs ht, process_waiting_no_trigger hd q x xs ht2]
        exact ih _ _ hb rfl hs (fun h => by rw [hc] at h; exact State.noConfusion h)
    · have hcd : c = d := by
        obtain ⟨b1, n1, p1, s1⟩ := c
        obtain ⟨b2, n2, p2, s2⟩ := d
        simp only at hb hp hs hn hc
        subst hb hp hs
        rw [hn hc]
      subst hcd
      exact ⟨rfl, rfl, rfl, rfl, fun _ => rfl⟩

theorem processBlocks_agree (blocks : List (List ℚ)) :
    ∀ (q : AudioBufferQueue ℚ) (c d : ScopeDataCollector),
      c.buffer = d.buffer → c.prevSample = d.prevSample → c.state = d.state →
      (c.state = State.collecting → c.numCollected = d.numCollected) →
      (processBlocks c q blocks).2 = (processBlocks d q blocks).2 ∧
      (processBlocks c q blocks).1.buffer = (processBlocks d q blocks).1.buffer ∧
      (processBlocks c q blocks).1.prevSample = (processBlocks d q blocks).1.prevSample ∧
      (processBlocks c q blocks).1.state = (processBlocks d q blocks).1.state := by
  induction blocks with
  | nil => intro q c d hb hp hs _; exact ⟨rfl, hb, hp, hs⟩
  | cons blk blocks ih =>
    intro q c d hb hp hs hn
    obtain ⟨a1, a2, a3, a4, a5⟩ := process_agree q blk c d hb hp hs hn
    simp only [processBlocks]
    rw [← a1]
    exact ih _ _ _ a2 a3 a4 a5

end ScopeDataCollector

/-- C20: in every collector state that occurs and for every block,
`process (data, numSamples)` reads only `data[0 .. numSamples - 1]` and writes
`buffer` only below `bufferSize` (the run with checked bounds succeeds and gives
the result of `process`); a state that is `collecting` has
`numCollected < bufferSize`; and the value `numCollected` starts with is never
used: collectors constructed with different values push the same snapshots and
finish with the same buffer and state. -/
theorem process_stays_in_bounds (c : ScopeDataCollector)
    (hreach : ScopeDataCollector.Reachable c) (q : AudioBufferQueue ℚ) (data : List ℚ)
    (b : Nat → ℚ) (n n1 : Nat) (blocks : List (List ℚ)) :
    ScopeDataCollector.processChecked c q data data.length =
      some (ScopeDataCollector.process c q data) ∧
    (c.state = State.collecting → c.numCollected < bufferSize) ∧
    (ScopeDataCollector.processBlocks (ScopeDataCollector.create b n) q blocks).2 =
      (ScopeDataCollector.processBlocks (ScopeDataCollector.create b n1) q blocks).2 ∧
    (ScopeDataCollector.processBlocks (ScopeDataCollector.create b n) q blocks).1.buffer =
      (ScopeDataCollector.processBlocks (ScopeDataCollector.create b n1) q blocks).1.buffer ∧
    (ScopeDataCollector.processBlocks (ScopeDataCollector.create b n) q blocks).1.state =
      (ScopeDataCollector.processBlocks (ScopeDataCollector.create b n1) q blocks).1.state := by
  obtain ⟨a1, a2, _, a4⟩ := ScopeDataCollector.processBlocks_agree blocks q
    (ScopeDataCollector.create b n) (ScopeDataCollector.create b n1) rfl rfl rfl
    (fun h => State.noConfusion h)
  exact ⟨ScopeDataCollector.processChecked_eq c hreach.invariant q data, hreach.invariant,
    a1, a2, a4⟩

theorem process_stays_in_bounds_witness :
    ScopeDataCollector.Reachable (ScopeDataCollector.create (fun _ => 0) 7) ∧
    ScopeDataCollector.processChecked (ScopeDataCollector.create (fun _ => 0) 7)
        (AudioBufferQueue.create (fun _ _ => 0)) risingStream risingStream.length =
      some (ScopeDataCollector.process (ScopeDataCollector.create (fun _ => 0) 7)
        (AudioBufferQueue.create (fun _ _ => 0)) risingStream) :=
  ⟨ScopeDataCollector.Reachable.create _ _,
    (process_stays_in_bounds (ScopeDataCollector.create (fun _ => 0) 7)
      (ScopeDataCollector.Reachable.create _ _) (AudioBufferQueue.create (fun _ _ => 0))
      risingStream (fun _ => 0) 7 9 [risingStream]).1⟩

/-! ## Claims on the MIDI tutorial -/

/-! ### Lemmas on rounding to double -/

theorem roundHalfEven_sub_le (q : ℚ) : |(roundHalfEven q : ℚ) - q| ≤ 1 / 2 := by
  have h1 := Int.floor_le q
  have h2 := Int.lt_floor_add_one q
  unfold roundHalfEven
  rw [abs_le]
  split_ifs <;> push_cast <;> constructor <;> linarith

theorem le_roundHalfEven {q : ℚ} {n : ℤ} (h : (n : ℚ) ≤ q) : n ≤ roundHalfEven q := by
  have : n ≤ ⌊q⌋ := Int.le_floor.2 h
  unfold roundHalfEven
  split_ifs <;> omega

theorem roundHalfEven_le {q : ℚ} {n : ℤ} (h : q ≤ (n : ℚ)) : roundHalfEven q ≤ n := by
  have h1 := Int.floor_le q
  have hfl : ⌊q⌋ ≤ n := by exact_mod_cast le_trans h1 h
  unfold roundHalfEven
  by_cases hr : q - ⌊q⌋ < 1 / 2
  · rw [if_pos hr]; exact hfl
  · have hlt : ⌊q⌋ < n := by
      have : ((⌊q⌋ : ℤ) : ℚ) < n := by linarith
      exact_mod_cast this
    rw [if_neg hr]
    split_ifs <;> omega

theorem roundHalfEven_lt {q : ℚ} {n : ℤ} (h : q < (n : ℚ) - 1 / 2) : roundHalfEven q < n := by
  have h1 := (abs_le.1 (roundHalfEven_sub_le q)).2
  have : ((roundHalfEven q : ℤ) : ℚ) < n := by linarith
  exact_mod_cast this

theorem roundHalfEven_eq {q : ℚ} {n : ℤ} (h : |q - (n : ℚ)| < 1 / 2) : roundHalfEven q = n := by
  have h1 := abs_le.1 (roundHalfEven_sub_le q)
  have h2 := abs_lt.1 h
  have h3 : ((roundHalfEven q : ℤ) : ℚ) < ((n + 1 : ℤ) : ℚ) := by push_cast; linarith
  have h4 : ((n - 1 : ℤ) : ℚ) < ((roundHalfEven q : ℤ) : ℚ) := by push_cast; linarith
  have h5 : roundHalfEven q < n + 1 := by exact_mod_cast h3
  have h6 : n - 1 < roundHalfEven q := by exact_mod_cast h4
  omega

theorem roundHalfEven_intCast (n : ℤ) : roundHalfEven (n : ℚ) = n :=
  roundHalfEven_eq (by simp)

theorem doubleUlp_pos (x : ℚ) : 0 < doubleUlp x := by
  unfold doubleUlp
  positivity

/-- Below `2 ^ 53` the spacing is `1 / 2 ^ j` for a natural `j`: every integer is
a multiple of it. -/
theorem doubleUlp_of_lt {x : ℚ} (hx : |x| < 2 ^ 53) :
    ∃ j : ℕ, doubleUlp x = ((2 : ℚ) ^ j)⁻¹ := by
  have hle : max (Int.log 2 |x| - 52) (-1074) ≤ 0 := by
    rcases eq_or_lt_of_le (abs_nonneg x) with h0 | hpos
    · rw [← h0, Int.log_zero_right]; decide
    · have h53 : |x| < ((2 : ℕ) : ℚ) ^ (53 : ℤ) := by exact_mod_cast hx
      have := (Int.lt_zpow_iff_log_lt (by decide) hpos).1 h53
      omega
  obtain ⟨j, hj⟩ : ∃ j : ℕ, max (Int.log 2 |x| - 52) (-1074) = -(j : ℤ) :=
    ⟨(-(max (Int.log 2 |x| - 52) (-1074))).toNat, by omega⟩
  refine ⟨j, ?_⟩
  unfold doubleUlp
  rw [hj, zpow_neg, zpow_natCast]

theorem le_roundToDouble {x : ℚ} {n : ℤ} (hx : |x| < 2 ^ 53) (h : (n : ℚ) ≤ x) :
    (n : ℚ) ≤ roundToDouble x := by
  obtain ⟨j, hj⟩ := doubleUlp_of_lt hx
  have hp : (0 : ℚ) < 2 ^ j := by positivity
  unfold roundToDouble
  rw [hj, div_inv_eq_mul]
  have h1 : ((n * 2 ^ j : ℤ) : ℚ) ≤ x * 2 ^ j := by
    push_cast
    exact mul_le_mul_of_nonneg_right h hp.le
  have h2 := le_roundHalfEven h1
  have h3 : ((n * 2 ^ j : ℤ) : ℚ) ≤ (roundHalfEven (x * 2 ^ j) : ℚ) := by exact_mod_cast h2
  rw [le_mul_inv_iff₀ hp]
  push_cast at h3
  exact h3

theorem roundToDouble_le {x : ℚ} {n : ℤ} (hx : |x| < 2 ^ 53) (h : x ≤ (n : ℚ)) :
    roundToDouble x ≤ (n : ℚ) := by
  obtain ⟨j, hj⟩ := doubleUlp_of_lt hx
  have hp : (0 : ℚ) < 2 ^ j := by positivity
  unfold roundToDouble
  rw [hj, div_inv_eq_mul]
  have h1 : x * 2 ^ j ≤ ((n * 2 ^ j : ℤ) : ℚ) := by
    push_cast
    exact mul_le_mul_of_nonneg_right h hp.le
  have h2 := roundHalfEven_le h1
  have h3 : (roundHalfEven (x * 2 ^ j) : ℚ) ≤ ((n * 2 ^ j : ℤ) : ℚ) := by exact_mod_cast h2
  rw [mul_inv_le_iff₀ hp]
  push_cast at h3
  exact h3

theorem two_zpow_split {a b : ℤ} (h : b ≤ a) :
    (2 : ℚ) ^ a = (((2 : ℤ) ^ (a - b).toNat : ℤ) : ℚ) * (2 : ℚ) ^ b := by
  have h1 : a = ((a - b).toNat : ℤ) + b := by omega
  conv_lhs => rw [h1]
  rw [zpow_add₀ (two_ne_zero), zpow_natCast]
  push_cast
  rfl

theorem roundToDouble_of_multiple {y : ℚ} {m : ℤ} (h : y = (m : ℚ) * doubleUlp y) :
    roundToDouble y = y := by
  have hu := doubleUlp_pos y
  have h1 : y / doubleUlp y = (m : ℚ) := by
    rw [div_eq_iff hu.ne']
    exact h
  unfold roundToDouble
  rw [h1, roundHalfEven_intCast]
  exact h.symm

theorem abs_roundHalfEven_div_ulp (x : ℚ) :
    |roundHalfEven (x / doubleUlp x)| ≤ 2 ^ 53 := by
  have hu := doubleUlp_pos x
  have hb : |x| / doubleUlp x ≤ 2 ^ 53 := by
    rw [div_le_iff₀ hu]
    have h1 : |x| < ((2 : ℕ) : ℚ) ^ (Int.log 2 |x| + 1) := Int.lt_zpow_succ_log_self (by decide) _
    have h2 : ((2 : ℕ) : ℚ) ^ (Int.log 2 |x| + 1) ≤ 2 ^ 53 * doubleUlp x := by
      unfold doubleUlp
      have h3 : (2 : ℚ) ^ 53 = (2 : ℚ) ^ (53 : ℤ) := by norm_num
      have h4 : ((2 : ℕ) : ℚ) = 2 := by norm_num
      rw [h3, ← zpow_add₀ (two_ne_zero), h4]
      exact zpow_le_zpow_right₀ (by norm_num) (by omega)
    exact le_trans h1.le h2
  have hx : |x / doubleUlp x| ≤ 2 ^ 53 := by
    rw [abs_div, abs_of_pos hu]; exact hb
  have hx := abs_le.1 hx
  rw [abs_le]
  constructor
  · have : (((-(2 ^ 53) : ℤ)) : ℚ) ≤ x / doubleUlp x := by push_cast; exact hx.1
    exact le_roundHalfEven this
  · have : x / doubleUlp x ≤ (((2 ^ 53 : ℤ)) : ℚ) := by push_cast; exact hx.2
    exact roundHalfEven_le this

/-- A rounded value is a `double`: rounding it again does not change it. -/
theorem roundToDouble_idem (x : ℚ) : roundToDouble (roundToDouble x) = roundToDouble x := by
  have hn := abs_roundHalfEven_div_ulp x
  have hy : roundToDouble x = (roundHalfEven (x / doubleUlp x) : ℚ) * doubleUlp x := rfl
  generalize roundHalfEven (x / doubleUlp x) = n at hn hy
  have hu : doubleUlp x = (2 : ℚ) ^ (max (Int.log 2 |x| - 52) (-1074)) := rfl
  generalize ha : max (Int.log 2 |x| - 52) (-1074) = a at hu
  have ha2 : -1074 ≤ a := by rw [← ha]; exact le_max_right _ _
  rw [hu] at hy
  generalize roundToDouble x = y at hy
  clear ha hu
  have hupos : (0 : ℚ) < 2 ^ a := by positivity
  rcases eq_or_ne n 0 with h0 | hne
  · subst h0
    have : y = 0 := by rw [hy]; simp
    subst this
    exact roundToDouble_of_multiple (m := 0) (by simp)
  have habs : |y| = ((|n| : ℤ) : ℚ) * 2 ^ a := by
    rw [hy, abs_mul, abs_of_pos hupos]
    push_cast
    rfl
  have hypos : 0 < |y| := by
    rw [habs]
    have : (0 : ℤ) < |n| := abs_pos.2 hne
    have : (0 : ℚ) < ((|n| : ℤ) : ℚ) := by exact_mod_cast this
    positivity
  rcases lt_or_eq_of_le hn with hlt | heq
  · have h1 : |y| < ((2 : ℕ) : ℚ) ^ (a + 53) := by
      rw [habs, zpow_add₀ (by norm_num), mul_comm]
      have : ((|n| : ℤ) : ℚ) < ((2 : ℕ) : ℚ) ^ (53 : ℤ) := by
        have : ((|n| : ℤ) : ℚ) < (((2 : ℤ) ^ 53 : ℤ) : ℚ) := by exact_mod_cast hlt
        push_cast at this
        exact_mod_cast this
      have h2 : ((2 : ℕ) : ℚ) ^ a = 2 ^ a := by norm_num
      rw [h2]
      exact mul_lt_mul_of_pos_left this hupos
    have h2 := (Int.lt_zpow_iff_log_lt (by decide) hypos).1 h1
    have h3 : max (Int.log 2 |y| - 52) (-1074) ≤ a := by omega
    refine roundToDouble_of_multiple
      (m := n * (2 : ℤ) ^ (a - max (Int.log 2 |y| - 52) (-1074)).toNat) ?_
    calc y = (n : ℚ) * 2 ^ a := hy
      _ = (n : ℚ) * ((((2 : ℤ) ^ (a - max (Int.log 2 |y| - 52) (-1074)).toNat : ℤ) : ℚ) *
            (2 : ℚ) ^ (max (Int.log 2 |y| - 52) (-1074))) := by rw [← two_zpow_split h3]
      _ = ((n * (2 : ℤ) ^ (a - max (Int.log 2 |y| - 52) (-1074)).toNat : ℤ) : ℚ) *
            doubleUlp y := by
        unfold doubleUlp
        push_cast
        ring
  · have h1 : |y| = ((2 : ℕ) : ℚ) ^ (a + 53) := by
      rw [habs, heq, zpow_add₀ (by norm_num), mul_comm]
      norm_num
    have h2 : Int.log 2 |y| = a + 53 := by
      rw [h1]
      exact Int.log_zpow (by decide) _
    have h3 : max (Int.log 2 |y| - 52) (-1074) = a + 1 := by omega
    have h4 : doubleUlp y = 2 * 2 ^ a := by
      unfold doubleUlp
      rw [h3, zpow_add₀ (two_ne_zero)]
      norm_num
      ring
    rcases abs_eq (by norm_num : (0 : ℤ) ≤ 2 ^ 53) |>.1 heq with hp | hm
    · refine roundToDouble_of_multiple (m := 2 ^ 52) ?_
      rw [h4, hy, hp]
      push_cast
      ring
    · refine roundToDouble_of_multiple (m := -(2 ^ 52)) ?_
      rw [h4, hy, hm]
      push_cast
      ring

/-- A `double` below an integer `m` (at most `2 ^ 53`) is below it by at least
the spacing at the `double`. -/
theorem ulp_le_sub_of_lt {t : ℚ} {m : ℤ} (hrep : roundToDouble t = t) (ht : |t| < 2 ^ 53)
    (hlt : t < (m : ℚ)) : doubleUlp t ≤ (m : ℚ) - t := by
  obtain ⟨j, hj⟩ := doubleUlp_of_lt ht
  have hp : (0 : ℚ) < 2 ^ j := by positivity
  have ht2 : t = (roundHalfEven (t / doubleUlp t) : ℚ) * doubleUlp t := hrep.symm
  generalize roundHalfEven (t / doubleUlp t) = n at ht2
  rw [hj] at ht2 ⊢
  have h1 : (n : ℚ) < ((m * 2 ^ j : ℤ) : ℚ) := by
    push_cast
    have : t * 2 ^ j < (m : ℚ) * 2 ^ j := mul_lt_mul_of_pos_right hlt hp
    rw [ht2, inv_mul_cancel_right₀ hp.ne'] at this
    exact this
  have h2 : n + 1 ≤ m * 2 ^ j := by
    have : n < m * 2 ^ j := by exact_mod_cast h1
    omega
  have h3 : ((n + 1 : ℤ) : ℚ) ≤ ((m * 2 ^ j : ℤ) : ℚ) := by exact_mod_cast h2
  push_cast at h3
  rw [ht2, inv_le_iff_one_le_mul₀ hp, sub_mul, inv_mul_cancel_right₀ hp.ne']
  linarith

/-- Division of a `double` by a whole number does not round up to a whole
number: for a `double` `t` below `c * k` the rounded quotient `t / c` is below
`k`. -/
theorem roundToDouble_div_lt {t : ℚ} {c k : ℕ} (hrep : roundToDouble t = t) (ht : 0 ≤ t)
    (hc : 0 < c) (hck : ((c * k : ℕ) : ℚ) ≤ 2 ^ 53) (hlt : t < ((c * k : ℕ) : ℚ)) :
    roundToDouble (t / (c : ℚ)) < (k : ℚ) := by
  have hcq : (0 : ℚ) < c := by exact_mod_cast hc
  have hc1 : (1 : ℚ) ≤ c := by exact_mod_cast hc
  push_cast at hck hlt
  have hk : (1 : ℚ) ≤ k := by
    rcases Nat.eq_zero_or_pos k with h0 | hpos
    · subst h0; simp at hlt; linarith
    · exact_mod_cast hpos
  have hq0 : 0 ≤ t / (c : ℚ) := div_nonneg ht hcq.le
  have hqk : t / (c : ℚ) < k := by rw [div_lt_iff₀ hcq]; linarith
  have hk53 : (k : ℚ) ≤ 2 ^ 53 := by nlinarith
  have hq53 : |t / (c : ℚ)| < 2 ^ 53 := by rw [abs_of_nonneg hq0]; linarith
  obtain ⟨j, hj⟩ := doubleUlp_of_lt hq53
  have hp : (0 : ℚ) < 2 ^ j := by positivity
  have hp1 : (1 : ℚ) ≤ 2 ^ j := one_le_pow₀ (by norm_num)
  have key : doubleUlp (t / (c : ℚ)) / 2 < (k : ℚ) - t / (c : ℚ) := by
    rcases lt_or_le (t / (c : ℚ)) (1 / 2) with hsmall | hbig
    · have : doubleUlp (t / (c : ℚ)) ≤ 1 := by
        rw [hj]; exact inv_le_one_of_one_le₀ hp1
      linarith
    · have hqpos : 0 < t / (c : ℚ) := by linarith
      have htpos : 0 < t := by
        rcases eq_or_lt_of_le ht with h0 | h
        · rw [← h0] at hqpos; simp at hqpos
        · exact h
      have he : -1 ≤ Int.log 2 |t / (c : ℚ)| := by
        rw [abs_of_pos hqpos]
        refine (Int.zpow_le_iff_le_log (by decide) hqpos).1 ?_
        norm_num
        linarith
      have hu : doubleUlp (t / (c : ℚ)) = 2 ^ Int.log 2 |t / (c : ℚ)| * 2 ^ (-52 : ℤ) := by
        unfold doubleUlp
        rw [max_eq_left (by omega), sub_eq_add_neg, zpow_add₀ (two_ne_zero)]
      have hlow : (2 : ℚ) ^ Int.log 2 |t / (c : ℚ)| ≤ t / (c : ℚ) := by
        have := Int.zpow_log_le_self (b := 2) (r := |t / (c : ℚ)|) (by decide)
          (by rw [abs_of_pos hqpos]; exact hqpos)
        rw [abs_of_pos hqpos] at this ⊢
        exact_mod_cast this
      have ht53 : |t| < 2 ^ 53 := by rw [abs_of_pos htpos]; linarith
      have hgap := ulp_le_sub_of_lt (m := ((c * k : ℕ) : ℤ)) hrep ht53 (by push_cast; exact hlt)
      push_cast at hgap
      have hut : (2 : ℚ) ^ Int.log 2 |t| * 2 ^ (-52 : ℤ) ≤ doubleUlp t := by
        unfold doubleUlp
        rw [← zpow_add₀ (two_ne_zero)]
        exact zpow_le_zpow_right₀ (by norm_num) (le_max_left _ _)
      have hhigh : t < (2 : ℚ) ^ Int.log 2 |t| * 2 := by
        have := Int.lt_zpow_succ_log_self (b := 2) (by decide) |t|
        rw [zpow_add₀ (by norm_num), abs_of_pos htpos] at this
        rw [abs_of_pos htpos]
        exact_mod_cast this
      have h52 : (2 : ℚ) ^ (-52 : ℤ) = 1 / 4503599627370496 := by norm_num
      rw [h52] at hu hut
      have h1 : (c : ℚ) * doubleUlp (t / (c : ℚ)) / 2 < (c : ℚ) * (k : ℚ) - t := by
        have h2 : (c : ℚ) * 2 ^ Int.log 2 |t / (c : ℚ)| ≤ t := by
          have := mul_le_mul_of_nonneg_left hlow hcq.le
          rw [mul_div_cancel₀ _ hcq.ne'] at this
          exact this
        rw [hu]
        nlinarith
      have h3 : (k : ℚ) - t / (c : ℚ) = ((c : ℚ) * (k : ℚ) - t) / (c : ℚ) := by
        field_simp
        ring
      rw [h3, lt_div_iff₀ hcq]
      linarith
  have hr : roundHalfEven (t / (c : ℚ) / doubleUlp (t / (c : ℚ))) < (k : ℤ) * 2 ^ j := by
    apply roundHalfEven_lt
    have h4 : (doubleUlp (t / (c : ℚ)) / 2) * 2 ^ j < ((k : ℚ) - t / (c : ℚ)) * 2 ^ j :=
      mul_lt_mul_of_pos_right key hp
    rw [hj] at h4
    have e : ((2 : ℚ) ^ j)⁻¹ / 2 * 2 ^ j = 1 / 2 := by field_simp
    rw [e] at h4
    rw [hj, div_inv_eq_mul]
    push_cast
    linarith
  unfold roundToDouble
  have hr2 : (roundHalfEven (t / (c : ℚ) / doubleUlp (t / (c : ℚ))) : ℚ) <
      (((k : ℤ) * 2 ^ j : ℤ) : ℚ) := by exact_mod_cast hr
  push_cast at hr2
  rw [hj] at hr2 ⊢
  rw [mul_inv_lt_iff₀ hp]
  exact hr2

theorem log_eq_of_bounds {x : ℚ} {e : ℤ} (h1 : (2 : ℚ) ^ e ≤ x) (h2 : x < (2 : ℚ) ^ (e + 1)) :
    Int.log 2 |x| = e := by
  have hpos : 0 < x := lt_of_lt_of_le (by positivity) h1
  rw [abs_of_pos hpos]
  have a1 : ((2 : ℕ) : ℚ) ^ e ≤ x := by exact_mod_cast h1
  have a2 : x < ((2 : ℕ) : ℚ) ^ (e + 1) := by exact_mod_cast h2
  have b1 := (Int.zpow_le_iff_le_log (by decide) hpos).1 a1
  have b2 := (Int.lt_zpow_iff_log_lt (by decide) hpos).1 a2
  omega

/-- Evaluation of `roundToDouble` in the normal range: for `x` in the binade of
`2 ^ e`, the result is `n * 2 ^ (e - 52)` for the integer `n` within one half of
`x / 2 ^ (e - 52)`. -/
theorem roundToDouble_eq_of_close {x : ℚ} {e n : ℤ} (h1 : (2 : ℚ) ^ e ≤ x)
    (h2 : x < (2 : ℚ) ^ (e + 1)) (he : -1022 ≤ e)
    (hn : |x / (2 : ℚ) ^ (e - 52) - (n : ℚ)| < 1 / 2) :
    roundToDouble x = (n : ℚ) * (2 : ℚ) ^ (e - 52) := by
  have hu : doubleUlp x = (2 : ℚ) ^ (e - 52) := by
    unfold doubleUlp
    rw [log_eq_of_bounds h1 h2, max_eq_left (by omega)]
  unfold roundToDouble
  rw [hu, roundHalfEven_eq hn]

/-- The product of a `double` by 1000 that is below `2 ^ 31` does not round up
to `2 ^ 31`. -/
theorem roundToDouble_mul_1000_lt {t : ℚ} (hrep : roundToDouble t = t) (ht : 0 ≤ t)
    (hlt : 1000 * t < 2 ^ 31) : roundToDouble (t * 1000) < 2 ^ 31 := by
  by_contra hcon
  rw [not_lt] at hcon
  have hx0 : 0 ≤ t * 1000 := by positivity
  have hul : doubleUlp (t * 1000) ≤ 1 / 4194304 := by
    have hle : max (Int.log 2 |t * 1000| - 52) (-1074) ≤ -22 := by
      rcases eq_or_lt_of_le (abs_nonneg (t * 1000)) with h0 | hpos
      · rw [← h0, Int.log_zero_right]; decide
      · have h31 : |t * 1000| < ((2 : ℕ) : ℚ) ^ (31 : ℤ) := by
          rw [abs_of_nonneg hx0]; norm_num; linarith
        have := (Int.lt_zpow_iff_log_lt (by decide) hpos).1 h31
        omega
    have : doubleUlp (t * 1000) ≤ (2 : ℚ) ^ (-22 : ℤ) :=
      zpow_le_zpow_right₀ (by norm_num) hle
    norm_num at this
    linarith
  have hu := doubleUlp_pos (t * 1000)
  have herr := (abs_le.1 (roundHalfEven_sub_le (t * 1000 / doubleUlp (t * 1000)))).2
  have hfl : roundToDouble (t * 1000) ≤ t * 1000 + doubleUlp (t * 1000) / 2 := by
    unfold roundToDouble
    have := mul_le_mul_of_nonneg_right herr hu.le
    rw [sub_mul, div_mul_cancel₀ _ hu.ne'] at this
    linarith
  have hbig : (2 : ℚ) ^ 31 - 1 / 8388608 ≤ t * 1000 := by linarith
  have h21 : (2 : ℚ) ^ (21 : ℤ) ≤ t := by norm_num; norm_num at hbig; linarith
  have h22 : t < (2 : ℚ) ^ ((21 : ℤ) + 1) := by norm_num; norm_num at hlt; linarith
  have hut : doubleUlp t = 1 / 2147483648 := by
    unfold doubleUlp
    rw [log_eq_of_bounds h21 h22]
    norm_num
  have ht2 : t = (roundHalfEven (t / doubleUlp t) : ℚ) * doubleUlp t := hrep.symm
  generalize roundHalfEven (t / doubleUlp t) = n at ht2
  rw [hut] at ht2
  have e1 : (4611686018427387648 : ℚ) ≤ 1000 * (n : ℚ) := by
    rw [ht2] at hbig; norm_num at hbig; linarith
  have e2 : 1000 * (n : ℚ) < (4611686018427387904 : ℚ) := by
    rw [ht2] at hlt; norm_num at hlt; linarith
  have i1 : (4611686018427387648 : ℤ) ≤ 1000 * n := by exact_mod_cast e1
  have i2 : 1000 * n < (4611686018427387904 : ℤ) := by exact_mod_cast e2
  omega

theorem floor_div_natCast (t : ℚ) (n : ℕ) (hn : 0 < n) : ⌊t / (n : ℚ)⌋ = ⌊t⌋ / (n : ℤ) := by
  have hnq : (0 : ℚ) < n := by exact_mod_cast hn
  have hnz : (0 : ℤ) < n := by exact_mod_cast hn
  rw [Int.floor_eq_iff, le_div_iff₀ hnq, div_lt_iff₀ hnq]
  have h1 := Int.floor_le t
  have h2 := Int.lt_floor_add_one t
  have h3 := Int.ediv_add_emod ⌊t⌋ n
  have h4 := Int.emod_nonneg ⌊t⌋ (ne_of_gt hnz)
  have h5 := Int.emod_lt_of_pos ⌊t⌋ hnz
  have h6 : ((⌊t⌋ : ℤ) : ℚ) = (n : ℚ) * ((⌊t⌋ / (n : ℤ) : ℤ) : ℚ) + ((⌊t⌋ % (n : ℤ) : ℤ) : ℚ) := by
    exact_mod_cast h3.symm
  have h7 : (0 : ℚ) ≤ ((⌊t⌋ % (n : ℤ) : ℤ) : ℚ) := by exact_mod_cast h4
  have h8 : ((⌊t⌋ % (n : ℤ) : ℤ) : ℚ) + 1 ≤ (n : ℚ) := by exact_mod_cast h5
  constructor
  · nlinarith
  · nlinarith

/-- The whole part of the rounded quotient of a `double` by a whole number is
the whole part of the exact quotient. -/
theorem floor_roundToDouble_div {t : ℚ} {c : ℕ} (hrep : roundToDouble t = t) (ht : 0 ≤ t)
    (hc : 0 < c) (hc2 : c ≤ 3600) (hb : t < 2 ^ 31) :
    ⌊roundToDouble (t / (c : ℚ))⌋ = ⌊t⌋ / (c : ℤ) := by
  have hcq : (0 : ℚ) < c := by exact_mod_cast hc
  have hc1 : (1 : ℚ) ≤ c := by exact_mod_cast hc
  have hc3 : (c : ℚ) ≤ 3600 := by exact_mod_cast hc2
  rw [← floor_div_natCast t c hc]
  have hq0 : 0 ≤ t / (c : ℚ) := div_nonneg ht hcq.le
  have hqt : t / (c : ℚ) ≤ t := div_le_self ht hc1
  have hk0 : 0 ≤ ⌊t / (c : ℚ)⌋ := Int.floor_nonneg.2 hq0
  have h1 := Int.floor_le (t / (c : ℚ))
  have h2 := Int.lt_floor_add_one (t / (c : ℚ))
  have hcast : (((⌊t / (c : ℚ)⌋.toNat + 1 : ℕ) : ℚ)) = ((⌊t / (c : ℚ)⌋ : ℤ) : ℚ) + 1 := by
    have : ((⌊t / (c : ℚ)⌋.toNat : ℕ) : ℤ) = ⌊t / (c : ℚ)⌋ := Int.toNat_of_nonneg hk0
    push_cast
    rw [← this]
    push_cast
    rfl
  have hlt : t < (c : ℚ) * (((⌊t / (c : ℚ)⌋ : ℤ) : ℚ) + 1) := by
    rw [div_lt_iff₀ hcq] at h2
    linarith
  have hle : (c : ℚ) * ((⌊t / (c : ℚ)⌋ : ℤ) : ℚ) ≤ t := by
    rw [le_div_iff₀ hcq] at h1
    linarith
  rw [Int.floor_eq_iff]
  constructor
  · exact le_roundToDouble (by rw [abs_of_nonneg hq0]; norm_num at hb ⊢; linarith) h1
  · have := roundToDouble_div_lt (k := ⌊t / (c : ℚ)⌋.toNat + 1) hrep ht hc
      (by push_cast [hcast]; norm_num at hb ⊢; nlinarith)
      (by push_cast [hcast]; exact hlt)
    rw [hcast] at this
    exact this

/-- The whole part of a rounded non-negative value below `2 ^ 53` is the whole
part of the exact value, or one more when the value rounds up to a whole
number. -/
theorem floor_roundToDouble {x : ℚ} (hx0 : 0 ≤ x) (hx : x < 2 ^ 53) :
    (roundToDouble x ≠ (⌊x⌋ : ℚ) + 1 → ⌊roundToDouble x⌋ = ⌊x⌋) ∧
    (roundToDouble x = (⌊x⌋ : ℚ) + 1 → ⌊roundToDouble x⌋ = ⌊x⌋ + 1) := by
  have habs : |x| < 2 ^ 53 := by rw [abs_of_nonneg hx0]; exact hx
  have h1 := le_roundToDouble habs (Int.floor_le x)
  have h2 : roundToDouble x ≤ ((⌊x⌋ + 1 : ℤ) : ℚ) :=
    roundToDouble_le habs (by push_cast; exact (Int.lt_floor_add_one x).le)
  push_cast at h2
  constructor
  · intro hne
    rw [Int.floor_eq_iff]
    exact ⟨h1, lt_of_le_of_ne h2 hne⟩
  · intro he
    rw [he]
    have : ((⌊x⌋ : ℤ) : ℚ) + 1 = ((⌊x⌋ + 1 : ℤ) : ℚ) := by push_cast; rfl
    rw [this, Int.floor_intCast]

theorem elapsedTime_offGrid :
    MainContentComponent.elapsedTime offGridTimeStamp 1024 =
      144374672820011 / 4398046511104 := by
  unfold MainContentComponent.elapsedTime
  have h := roundToDouble_eq_of_close (x := offGridTimeStamp - 1024) (e := 5)
    (n := 4619989530240352) (by norm_num [offGridTimeStamp]) (by norm_num [offGridTimeStamp])
    (by norm_num) (by norm_num [offGridTimeStamp])
  rw [h]
  norm_num

theorem roundToDouble_offGrid_millis :
    roundToDouble (144374672820011 / 4398046511104 * 1000) = 32827 := by
  have h := roundToDouble_eq_of_close (x := 144374672820011 / 4398046511104 * 1000) (e := 15)
    (n := 4511708525625344) (by norm_num) (by norm_num) (by norm_num)
    (by norm_num [abs_lt])
  rw [h]
  norm_num

/-- C26 as stated fails: for the time stamp 1056.827 and `startTime` 1024.0 the
elapsed time `t` is the `double` 32.826999999999998, within the range of the
claim; `t * 1000.0` rounds up to the `double` 32827, so `millis` is 827, while
`floor (1000 * (t - floor t))` is 826. -/
theorem timecode_millis_rounds_up :
    roundToDouble offGridTimeStamp = offGridTimeStamp ∧
    roundToDouble 1024 = 1024 ∧
    0 ≤ MainContentComponent.elapsedTime offGridTimeStamp 1024 ∧
    1000 * MainContentComponent.elapsedTime offGridTimeStamp 1024 < 2 ^ 31 ∧
    (MainContentComponent.addMessageToList offGridTimeStamp 1024).millis = 827 ∧
    ⌊1000 * (MainContentComponent.elapsedTime offGridTimeStamp 1024 -
      (⌊MainContentComponent.elapsedTime offGridTimeStamp 1024⌋ : ℚ))⌋ = 826 := by
  have hts : roundToDouble offGridTimeStamp = offGridTimeStamp := by
    have h := roundToDouble_eq_of_close (x := offGridTimeStamp) (e := 10)
      (n := 4647974300190507) (by norm_num [offGridTimeStamp])
      (by norm_num [offGridTimeStamp]) (by norm_num) (by norm_num [offGridTimeStamp])
    rw [h]
    norm_num [offGridTimeStamp]
  have hst : roundToDouble 1024 = 1024 := by
    have h := roundToDouble_eq_of_close (x := 1024) (e := 10)
      (n := 4503599627370496) (by norm_num) (by norm_num) (by norm_num) (by norm_num)
    rw [h]
    norm_num
  have hfl : ⌊(144374672820011 / 4398046511104 : ℚ)⌋ = 32 := by
    rw [Int.floor_eq_iff]; norm_num
  refine ⟨hts, hst, ?_, ?_, ?_, ?_⟩
  · rw [elapsedTime_offGrid]; norm_num
  · rw [elapsedTime_offGrid]; norm_num
  · simp only [MainContentComponent.addMessageToList, elapsedTime_offGrid,
      roundToDouble_offGrid_millis, toInt]
    norm_num
    decide
  · rw [elapsedTime_offGrid, hfl, Int.floor_eq_iff]
    norm_num

/-- C26 (amended): in `addMessageToList`, for an elapsed time
`t = timeStamp - startTime` (the `double` difference) with `0 ≤ t` and
`1000 * t < 2 ^ 31`, the four fields of the time code are in range (`hours` in
0..23, `minutes` and `seconds` in 0..59, `millis` in 0..999) and
`hours * 3600 + minutes * 60 + seconds` is `floor t mod 86400`; `millis` is
`floor d mod 1000` for the `double` `d` nearest to `1000 * t`, which is
`floor (1000 * (t - floor t))` unless `1000 * t` rounds up to a whole number, and
is then one more modulo 1000.  No conversion to `int` overflows. -/
theorem timecode_fields (timeStamp startTime : ℚ)
    (h0 : 0 ≤ MainContentComponent.elapsedTime timeStamp startTime)
    (h31 : 1000 * MainContentComponent.elapsedTime timeStamp startTime < 2 ^ 31) :
    0 ≤ (MainContentComponent.addMessageToList timeStamp startTime).hours ∧
    (MainContentComponent.addMessageToList timeStamp startTime).hours < 24 ∧
    0 ≤ (MainContentComponent.addMessageToList timeStamp startTime).minutes ∧
    (MainContentComponent.addMessageToList timeStamp startTime).minutes < 60 ∧
    0 ≤ (MainContentComponent.addMessageToList timeStamp startTime).seconds ∧
    (MainContentComponent.addMessageToList timeStamp startTime).seconds < 60 ∧
    0 ≤ (MainContentComponent.addMessageToList timeStamp startTime).millis ∧
    (MainContentComponent.addMessageToList timeStamp startTime).millis < 1000 ∧
    (MainContentComponent.addMessageToList timeStamp startTime).hours * 3600 +
      (MainContentComponent.addMessageToList timeStamp startTime).minutes * 60 +
      (MainContentComponent.addMessageToList timeStamp startTime).seconds =
      ⌊MainContentComponent.elapsedTime timeStamp startTime⌋ % 86400 ∧
    (MainContentComponent.addMessageToList timeStamp startTime).millis =
      ⌊roundToDouble (MainContentComponent.elapsedTime timeStamp startTime * 1000)⌋ % 1000 ∧
    (roundToDouble (MainContentComponent.elapsedTime timeStamp startTime * 1000) ≠
        (⌊1000 * MainContentComponent.elapsedTime timeStamp startTime⌋ : ℚ) + 1 →
      (MainContentComponent.addMessageToList timeStamp startTime).millis =
        ⌊1000 * (MainContentComponent.elapsedTime timeStamp startTime -
          (⌊MainContentComponent.elapsedTime timeStamp startTime⌋ : ℚ))⌋) ∧
    (roundToDouble (MainContentComponent.elapsedTime timeStamp startTime * 1000) =
        (⌊1000 * MainContentComponent.elapsedTime timeStamp startTime⌋ : ℚ) + 1 →
      (MainContentComponent.addMessageToList timeStamp startTime).millis =
        (⌊1000 * (MainContentComponent.elapsedTime timeStamp startTime -
          (⌊MainContentComponent.elapsedTime timeStamp startTime⌋ : ℚ))⌋ + 1) % 1000) ∧
    toInt (roundToDouble (MainContentComponent.elapsedTime timeStamp startTime * 1000)) < 2 ^ 31 := by
  have hrep : roundToDouble (MainContentComponent.elapsedTime timeStamp startTime) =
      MainContentComponent.elapsedTime timeStamp startTime := roundToDouble_idem _
  simp only [MainContentComponent.addMessageToList]
  generalize MainContentComponent.elapsedTime timeStamp startTime = t at h0 h31 hrep ⊢
  have hT : 0 ≤ ⌊t⌋ := Int.floor_nonneg.2 h0
  have ht31 : t < 2 ^ 31 := by norm_num at h31 ⊢; linarith
  have f1 : ⌊roundToDouble (t / 3600)⌋ = ⌊t⌋ / 3600 := by
    exact_mod_cast floor_roundToDouble_div (c := 3600) hrep h0 (by decide) (by decide) ht31
  have f2 : ⌊roundToDouble (t / 60)⌋ = ⌊t⌋ / 60 := by
    exact_mod_cast floor_roundToDouble_div (c := 60) hrep h0 (by decide) (by decide) ht31
  have hx0 : 0 ≤ t * 1000 := by positivity
  have hx53 : t * 1000 < 2 ^ 53 := by norm_num at h31 ⊢; linarith
  have hxabs : |t * 1000| < 2 ^ 53 := by rw [abs_of_nonneg hx0]; exact hx53
  have n1 : 0 ≤ roundToDouble (t / 3600) := by
    have := le_roundToDouble (x := t / 3600) (n := 0)
      (by rw [abs_of_nonneg (by positivity)]; norm_num at ht31 ⊢; linarith)
      (by push_cast; positivity)
    exact_mod_cast this
  have n2 : 0 ≤ roundToDouble (t / 60) := by
    have := le_roundToDouble (x := t / 60) (n := 0)
      (by rw [abs_of_nonneg (by positivity)]; norm_num at ht31 ⊢; linarith)
      (by push_cast; positivity)
    exact_mod_cast this
  have n3 : 0 ≤ roundToDouble (t * 1000) := by
    have := le_roundToDouble (x := t * 1000) (n := 0) hxabs (by push_cast; exact hx0)
    exact_mod_cast this
  have i1 : toInt (roundToDouble (t / 3600)) = ⌊t⌋ / 3600 := by rw [toInt, if_pos n1, f1]
  have i2 : toInt (roundToDouble (t / 60)) = ⌊t⌋ / 60 := by rw [toInt, if_pos n2, f2]
  have i3 : toInt t = ⌊t⌋ := by rw [toInt, if_pos h0]
  have i4 : toInt (roundToDouble (t * 1000)) = ⌊roundToDouble (t * 1000)⌋ := by
    rw [toInt, if_pos n3]
  have hM : 0 ≤ ⌊roundToDouble (t * 1000)⌋ := Int.floor_nonneg.2 n3
  have hlt : ⌊roundToDouble (t * 1000)⌋ < 2 ^ 31 := by
    rw [Int.floor_lt]
    push_cast
    exact roundToDouble_mul_1000_lt hrep h0 h31
  have hcomm : (1000 : ℚ) * t = t * 1000 := mul_comm _ _
  have hfl : ⌊t * 1000⌋ = 1000 * ⌊t⌋ + ⌊1000 * (t - (⌊t⌋ : ℚ))⌋ := by
    have : t * 1000 = 1000 * (t - (⌊t⌋ : ℚ)) + ((1000 * ⌊t⌋ : ℤ) : ℚ) := by
      push_cast; ring
    rw [this, Int.floor_add_int]
    ring
  have hfr0 : 0 ≤ ⌊1000 * (t - (⌊t⌋ : ℚ))⌋ :=
    Int.floor_nonneg.2 (by nlinarith [Int.floor_le t])
  have hfr1 : ⌊1000 * (t - (⌊t⌋ : ℚ))⌋ < 1000 := by
    rw [Int.floor_lt]
    push_cast
    nlinarith [Int.lt_floor_add_one t]
  obtain ⟨r1, r2⟩ := floor_roundToDouble hx0 hx53
  simp only [i1, i2, i3, i4]
  rw [Int.tmod_eq_emod (Int.ediv_nonneg hT (by decide)) (by decide),
    Int.tmod_eq_emod (Int.ediv_nonneg hT (by decide)) (by decide),
    Int.tmod_eq_emod hT (by decide), Int.tmod_eq_emod hM (by decide), hcomm]
  refine ⟨?_, ?_, ?_, ?_, ?_, ?_, ?_, ?_, ?_, rfl, ?_, ?_, hlt⟩
  · omega
  · omega
  · omega
  · omega
  · omega
  · omega
  · omega
  · omega
  · omega
  · intro hne
    rw [r1 hne]
    omega
  · intro he
    rw [r2 he]
    omega

theorem timecode_fields_witness :
    0 ≤ MainContentComponent.elapsedTime offGridTimeStamp 1024 ∧
    1000 * MainContentComponent.elapsedTime offGridTimeStamp 1024 < 2 ^ 31 ∧
    (0 ≤ (MainContentComponent.addMessageToList offGridTimeStamp 1024).hours ∧
    (MainContentComponent.addMessageToList offGridTimeStamp 1024).hours < 24 ∧
    0 ≤ (MainContentComponent.addMessageToList offGridTimeStamp 1024).minutes ∧
    (MainContentComponent.addMessageToList offGridTimeStamp 1024).minutes < 60 ∧
    0 ≤ (MainContentComponent.addMessageToList offGridTimeStamp 1024).seconds ∧
    (MainContentComponent.addMessageToList offGridTimeStamp 1024).seconds < 60 ∧
    0 ≤ (MainContentComponent.addMessageToList offGridTimeStamp 1024).millis ∧
    (MainContentComponent.addMessageToList offGridTimeStamp 1024).millis < 1000 ∧
    (MainContentComponent.addMessageToList offGridTimeStamp 1024).hours * 3600 +
      (MainContentComponent.addMessageToList offGridTimeStamp 1024).minutes * 60 +
      (MainContentComponent.addMessageToList offGridTimeStamp 1024).seconds =
      ⌊MainContentComponent.elapsedTime offGridTimeStamp 1024⌋ % 86400 ∧
    (MainContentComponent.addMessageToList offGridTimeStamp 1024).millis =
      ⌊roundToDouble (MainContentComponent.elapsedTime offGridTimeStamp 1024 * 1000)⌋ % 1000 ∧
    (roundToDouble (MainContentComponent.elapsedTime offGridTimeStamp 1024 * 1000) ≠
        (⌊1000 * MainContentComponent.elapsedTime offGridTimeStamp 1024⌋ : ℚ) + 1 →
      (MainContentComponent.addMessageToList offGridTimeStamp 1024).millis =
        ⌊1000 * (MainContentComponent.elapsedTime offGridTimeStamp 1024 -
          (⌊MainContentComponent.elapsedTime offGridTimeStamp 1024⌋ : ℚ))⌋) ∧
    (roundToDouble (MainContentComponent.elapsedTime offGridTimeStamp 1024 * 1000) =
        (⌊1000 * MainContentComponent.elapsedTime offGridTimeStamp 1024⌋ : ℚ) + 1 →
      (MainContentComponent.addMessageToList offGridTimeStamp 1024).millis =
        (⌊1000 * (MainContentComponent.elapsedTime offGridTimeStamp 1024 -
          (⌊MainContentComponent.elapsedTime offGridTimeStamp 1024⌋ : ℚ))⌋ + 1) % 1000) ∧
    toInt (roundToDouble (MainContentComponent.elapsedTime offGridTimeStamp 1024 * 1000)) < 2 ^ 31) :=
  ⟨by rw [elapsedTime_offGrid]; norm_num, by rw [elapsedTime_offGrid]; norm_num,
    timecode_fields offGridTimeStamp 1024 (by rw [elapsedTime_offGrid]; norm_num)
      (by rw [elapsedTime_offGrid]; norm_num)⟩

/-- C27: the pad loop of `setMidiInput` sends exactly 64 messages; the message
for row `r` and column `c` (the one at position `8 * r + c`) has three bytes, is a
note-on, has note number `11 + 8 * r + c` and velocity (colour) `44 + 8 * c + r`,
both below 128, and is on channel `r mod 3 + 1`; the 64 note numbers are pairwise
distinct and are exactly the numbers 11..74. -/
theorem padLoop_messages :
    MainContentComponent.padLoop.length = 64 ∧
    (∀ r, r < 8 → ∀ c, c < 8 →
      ∃ m, MainContentComponent.padLoop[8 * r + c]? = some m ∧
        m.bytes.length = 3 ∧ m.isNoteOn = true ∧
        m.getNoteNumber = 11 + 8 * r + c ∧ m.getVelocity = 44 + 8 * c + r ∧
        m.getNoteNumber < 128 ∧ m.getVelocity < 128 ∧
        m.getChannel = r % 3 + 1) ∧
    (MainContentComponent.padLoop.map MidiMessage.getNoteNumber).Nodup ∧
    (∀ n, 11 ≤ n → n ≤ 74 →
      n ∈ MainContentComponent.padLoop.map MidiMessage.getNoteNumber) ∧
    (∀ n, n ∈ MainContentComponent.padLoop.map MidiMessage.getNoteNumber →
      11 ≤ n ∧ n ≤ 74) := by
  have hl : MainContentComponent.padLoop.map MidiMessage.getNoteNumber = List.range' 11 64 := by
    decide
  refine ⟨by decide, ?_, ?_, ?_, ?_⟩
  · intro r hr c hc
    interval_cases r <;> interval_cases c <;> exact ⟨_, rfl, by decide⟩
  · rw [hl]; exact List.nodup_range' 11 64
  · intro n h1 h2
    rw [hl, List.mem_range']
    exact ⟨n - 11, by omega, by omega⟩
  · intro n hn
    rw [hl, List.mem_range'] at hn
    obtain ⟨i, hi, rfl⟩ := hn
    omega

/-! ## Claims on interleaved use of the queue -/

/-! ### Lemmas on interleaved use -/

namespace AudioBufferQueue

variable {α : Type}

theorem prepareToWrite_blockSize1 {q : AudioBufferQueue α} (h : q.WellFormed) :
    (q.abstractFifo.prepareToWrite 1).blockSize1 > 0 ↔ 0 < q.abstractFifo.getFreeSpace := by
  refine WellFormed.ind h ?_
  intro vs ve b hvs hve
  interval_cases vs <;> interval_cases ve <;>
    simp [AbstractFifo.prepareToWrite, AbstractFifo.getFreeSpace, AbstractFifo.getNumReady]

theorem prepareToRead_blockSize1 {q : AudioBufferQueue α} (h : q.WellFormed) :
    (q.abstractFifo.prepareToRead 1).blockSize1 > 0 ↔ 0 < q.numUnread := by
  refine WellFormed.ind h ?_
  intro vs ve b hvs hve
  interval_cases vs <;> interval_cases ve <;>
    simp [AbstractFifo.prepareToRead, numUnread, AbstractFifo.getNumReady]

theorem runOps_wellFormed (ops : List (QueueOp α)) :
    ∀ {q : AudioBufferQueue α}, q.WellFormed → (q.runOps ops).WellFormed := by
  induction ops with
  | nil => intro q h; exact h
  | cons op ops ih =>
    intro q h
    cases op with
    | push d n => exact ih (push_wellFormed h d n)
    | pop out => exact ih (pop_wellFormed h out)

/-- Order of the snapshots for a queue that already holds unread snapshots: the
pops that return data return, position by position, the data of `pending`
followed by the accepted pushes. -/
theorem returnedPops_fifo (ops : List (QueueOp α)) :
    ∀ {q : AudioBufferQueue α} (pending : List ((Nat → α) × Nat)), q.WellFormed →
      List.Forall₂ HoldsDataOf q.unread pending →
      ∃ matched rest, pending ++ q.acceptedPushes ops = matched ++ rest ∧
        List.Forall₂ HoldsDataOf (q.returnedPops ops) matched := by
  induction ops with
  | nil => intro q pending _ _; exact ⟨[], pending ++ [], rfl, List.Forall₂.nil⟩
  | cons op ops ih =>
    intro q pending h hp
    cases op with
    | push d n =>
      have hr := numUnread_range h
      have hf := getFreeSpace_eq h
      by_cases hfree : 0 < q.abstractFifo.getFreeSpace
      · have hu := unread_push_of_free h hfree d n
        have hp2 : List.Forall₂ HoldsDataOf (q.push d n).unread (pending ++ [(d, n)]) := by
          rw [hu]
          refine List.rel_append hp (List.Forall₂.cons ?_ List.Forall₂.nil)
          intro i hi
          simp only [copy]
          rw [if_pos hi]
        obtain ⟨matched, rest, e, hm⟩ := ih (pending ++ [(d, n)]) (push_wellFormed h d n) hp2
        refine ⟨matched, rest, ?_, hm⟩
        simp only [acceptedPushes, if_pos ((prepareToWrite_blockSize1 h).2 hfree)]
        rw [← e]; simp
      · have hfull : q.abstractFifo.getFreeSpace = 0 := by omega
        have hq := push_of_full h hfull d n
        obtain ⟨matched, rest, e, hm⟩ := ih pending h hp
        refine ⟨matched, rest, ?_, ?_⟩
        · simp only [acceptedPushes, if_neg (fun hc => hfree ((prepareToWrite_blockSize1 h).1 hc)),
            hq]
          exact e
        · simp only [returnedPops, hq]; exact hm
    | pop out =>
      rcases (numUnread_range h).1.eq_or_lt with h0 | hpos
      · have he := pop_of_empty h h0.symm out
        obtain ⟨matched, rest, e, hm⟩ := ih pending h hp
        have hn : ¬ (q.abstractFifo.prepareToRead 1).blockSize1 > 0 := by
          intro hc
          have := (prepareToRead_blockSize1 h).1 hc
          omega
        refine ⟨matched, rest, ?_, ?_⟩
        · simp only [acceptedPushes, he]; exact e
        · simp only [returnedPops, if_neg hn, he]; exact hm
      · obtain ⟨h1, h2, _⟩ := pop_of_nonempty h hpos out
        rw [h2] at hp
        cases hp with
        | cons hsp htl =>
          rename_i p pending2
          obtain ⟨matched, rest, e, hm⟩ := ih pending2 (pop_wellFormed h out) htl
          refine ⟨p :: matched, rest, ?_, ?_⟩
          · simp only [acceptedPushes, List.cons_append, e]
          · simp only [returnedPops, if_pos ((prepareToRead_blockSize1 h).2 hpos)]
            refine List.Forall₂.cons ?_ hm
            intro i hi
            rw [h1]
            simp only [copy]
            rw [if_pos (lt_of_lt_of_le hi (min_le_left _ _))]
            exact hsp i hi

end AudioBufferQueue

/-- C22: for any sequence of `push` and `pop` calls on a newly constructed
queue, the snapshots come out in the order they went in: the pops that return
data are at most as many as the pushes that were not dropped, and the `j`-th of
them returns the data of the `j`-th such push.  The number of unread snapshots
after the calls is between 0 and `numBuffers - 1`, so it never exceeds the
capacity `numBuffers`. -/
theorem pops_return_pushes_in_order {α : Type} (b : Nat → Nat → α) (ops : List (QueueOp α)) :
    ((AudioBufferQueue.create b).returnedPops ops).length ≤
      ((AudioBufferQueue.create b).acceptedPushes ops).length ∧
    List.Forall₂ AudioBufferQueue.HoldsDataOf
      ((AudioBufferQueue.create b).returnedPops ops)
      (((AudioBufferQueue.create b).acceptedPushes ops).take
        ((AudioBufferQueue.create b).returnedPops ops).length) ∧
    0 ≤ ((AudioBufferQueue.create b).runOps ops).numUnread ∧
    ((AudioBufferQueue.create b).runOps ops).numUnread ≤ (numBuffers : Int) - 1 ∧
    ((AudioBufferQueue.create b).runOps ops).numUnread ≤ (numBuffers : Int) := by
  have hw := AudioBufferQueue.wellFormed_create b
  have hu : (AudioBufferQueue.create b).unread = [] :=
    (AudioBufferQueue.unread_eq_nil hw).2 rfl
  obtain ⟨matched, rest, e, hm⟩ :=
    AudioBufferQueue.returnedPops_fifo ops [] hw (by rw [hu]; exact List.Forall₂.nil)
  have hl := hm.length_eq
  have hr := AudioBufferQueue.numUnread_range (AudioBufferQueue.runOps_wellFormed ops hw)
  simp only [List.nil_append] at e
  refine ⟨?_, ?_, hr.1, ?_, ?_⟩
  · rw [e, hl]; simp
  · rw [e, hl]; simpa using hm
  · simp only [numBuffers]; omega
  · simp only [numBuffers]; omega

/-! ## Claims on a completed capture and on short pushes -/

/-! ### Lemmas on a completed capture -/

namespace ScopeDataCollector

theorem firstCapture_some (data : List ℚ) :
    ∀ (c : ScopeDataCollector) (b : Nat → ℚ), (firstCapture c data).2 = some b →
      (firstCapture c data).1 =
        { buffer := b, numCollected := bufferSize, prevSample := 100,
          state := State.waitingForTrigger } := by
  induction data with
  | nil => intro c b h; simp [firstCapture] at h
  | cons s rest ih =>
    intro c b h
    obtain ⟨buf, n, p, st⟩ := c
    cases st with
    | waitingForTrigger =>
      simp only [firstCapture] at h ⊢
      split
      · rename_i ht; rw [if_pos ht] at h; exact ih _ _ h
      · rename_i ht; rw [if_neg ht] at h; exact ih _ _ h
    | collecting =>
      simp only [firstCapture] at h ⊢
      split
      · rename_i ht
        rw [if_pos ht] at h
        simp only [Option.some.injEq] at h
        simp only [← h, ht]
      · rename_i ht; rw [if_neg ht] at h; exact ih _ _ h

end ScopeDataCollector

theorem push_ne_self_of_free {α : Type} {q : AudioBufferQueue α} (h : q.WellFormed)
    (hfree : 0 < q.abstractFifo.getFreeSpace) (d : Nat → α) (n : Nat) : q.push d n ≠ q := by
  intro he
  have := AudioBufferQueue.numUnread_push_of_free h hfree d n
  rw [he] at this
  omega

/-- C21: one `process` call pushes at most one snapshot: for every queue `q` and
block, the queue afterwards is `q` or `q` after one `push` of `bufferSize`
samples.  Once a capture completes within the samples `xs` of a call (seen as a
change of the queue `q0`), whatever samples `rest` follow in the block are
ignored: the call on `xs ++ rest` gives the same collector and queue as the call
on `xs`, the collector is in state `waitingForTrigger` with `prevSample = 100`
and `numCollected = bufferSize`, and the queue got the one push. -/
theorem process_pushes_at_most_once (c : ScopeDataCollector) (q0 : AudioBufferQueue ℚ)
    (xs : List ℚ) (hpush : (ScopeDataCollector.process c q0 xs).2 ≠ q0) :
    (∃ b : Nat → ℚ, ∀ (q : AudioBufferQueue ℚ) (rest : List ℚ),
      ScopeDataCollector.process c q (xs ++ rest) =
        ({ buffer := b, numCollected := bufferSize, prevSample := 100,
           state := State.waitingForTrigger }, q.push b bufferSize) ∧
      ScopeDataCollector.process c q (xs ++ rest) = ScopeDataCollector.process c q xs) ∧
    (∀ (q : AudioBufferQueue ℚ) (data : List ℚ),
      (ScopeDataCollector.process c q data).2 = q ∨
      ∃ b : Nat → ℚ, (ScopeDataCollector.process c q data).2 = q.push b bufferSize) := by
  constructor
  · rw [ScopeDataCollector.process_eq_firstCapture] at hpush
    cases hb : (ScopeDataCollector.firstCapture c xs).2 with
    | none => rw [hb] at hpush; exact absurd rfl hpush
    | some b =>
      have h1 := ScopeDataCollector.firstCapture_some xs c b hb
      refine ⟨b, fun q rest => ?_⟩
      have h2 : ScopeDataCollector.firstCapture c (xs ++ rest) =
          ScopeDataCollector.firstCapture c xs := by
        rw [ScopeDataCollector.firstCapture_append, hb]
      rw [ScopeDataCollector.process_eq_firstCapture, ScopeDataCollector.process_eq_firstCapture,
        h2, h1, hb]
      exact ⟨rfl, rfl⟩
  · intro q data
    rw [ScopeDataCollector.process_eq_firstCapture]
    cases hb : (ScopeDataCollector.firstCapture c data).2 with
    | none => exact Or.inl rfl
    | some b => exact Or.inr ⟨b, rfl⟩

theorem process_pushes_at_most_once_witness :
    (ScopeDataCollector.process almostFull (AudioBufferQueue.create (fun _ _ => 0)) [4]).2 ≠
      AudioBufferQueue.create (fun _ _ => 0) ∧
    ((∃ b : Nat → ℚ, ∀ (q : AudioBufferQueue ℚ) (rest : List ℚ),
      ScopeDataCollector.process almostFull q ([4] ++ rest) =
        ({ buffer := b, numCollected := bufferSize, prevSample := 100,
           state := State.waitingForTrigger }, q.push b bufferSize) ∧
      ScopeDataCollector.process almostFull q ([4] ++ rest) =
        ScopeDataCollector.process almostFull q [4]) ∧
    (∀ (q : AudioBufferQueue ℚ) (data : List ℚ),
      (ScopeDataCollector.process almostFull q data).2 = q ∨
      ∃ b : Nat → ℚ, (ScopeDataCollector.process almostFull q data).2 = q.push b bufferSize)) :=
  have h : (ScopeDataCollector.process almostFull (AudioBufferQueue.create (fun _ _ => 0)) [4]).2 ≠
      AudioBufferQueue.create (fun _ _ => 0) :=
    push_ne_self_of_free (AudioBufferQueue.wellFormed_create _) (by decide) _ _
  ⟨h, process_pushes_at_most_once almostFull _ [4] h⟩

/-- C23: `push (d, n)` with `n < bufferSize` into a queue with a free slot writes
the slot at the write cursor: its first `n` samples become those of `d`, its
samples from `n` on keep their previous values, and the other slots are
unchanged.  The slot becomes the newest unread snapshot, and the pop that
returns it (the one after the pops of the snapshots unread before) copies all
`bufferSize` samples: the output buffer holds `d` below `n`, the earlier content
of the slot from `n` up to `bufferSize`, and is unchanged beyond. -/
theorem push_short_overwrites_prefix_only {α : Type} {q : AudioBufferQueue α}
    (hq : q.WellFormed) (hfree : 0 < q.abstractFifo.getFreeSpace) (d : Nat → α) (n : Nat)
    (hn : n < bufferSize) :
    (∀ i, i < n → (q.push d n).buffers q.abstractFifo.validEnd.toNat i = d i) ∧
    (∀ i, n ≤ i → (q.push d n).buffers q.abstractFifo.validEnd.toNat i =
      q.buffers q.abstractFifo.validEnd.toNat i) ∧
    (∀ s, s ≠ q.abstractFifo.validEnd.toNat → (q.push d n).buffers s = q.buffers s) ∧
    (q.push d n).unread = q.unread ++ [(q.push d n).buffers q.abstractFifo.validEnd.toNat] ∧
    (∀ (outs : List (Nat → α)) (out : Nat → α), outs.length = q.unread.length →
      ((q.push d n).popMany (outs ++ [out])).2.getLast? =
        some (fun i => if i < n then d i
          else if i < bufferSize then q.buffers q.abstractFifo.validEnd.toNat i
          else out i)) := by
  have hb : (q.push d n).buffers q.abstractFifo.validEnd.toNat =
      copy (q.buffers q.abstractFifo.validEnd.toNat) d n ∧
      ∀ s, s ≠ q.abstractFifo.validEnd.toNat → (q.push d n).buffers s = q.buffers s := by
    revert hfree
    refine AudioBufferQueue.WellFormed.ind hq ?_
    intro vs ve b hvs hve
    interval_cases vs <;> interval_cases ve <;>
      simp [AudioBufferQueue.push, AbstractFifo.prepareToWrite, AbstractFifo.finishedWrite,
        AbstractFifo.getFreeSpace, AbstractFifo.getNumReady, Function.update,
        min_eq_right (le_of_lt hn)] <;> intro s hs <;> simp [hs]
  have hu := AudioBufferQueue.unread_push_of_free hq hfree d n
  rw [min_eq_right (le_of_lt hn), ← hb.1] at hu
  refine ⟨?_, ?_, hb.2, hu, ?_⟩
  · intro i hi
    rw [hb.1]; simp [copy, hi]
  · intro i hi
    rw [hb.1]; simp [copy, Nat.not_lt.2 hi]
  · intro outs out hl
    rw [AudioBufferQueue.popMany_outputs _ (AudioBufferQueue.push_wellFormed hq d n), hu,
      List.zipWith_append _ _ _ _ _ hl]
    simp only [List.length_append, List.length_singleton, List.zipWith_cons_cons,
      List.zipWith_nil_right]
    rw [List.drop_eq_nil_of_le (by simp [hl])]
    simp only [List.append_nil, List.getLast?_append, List.getLast?_singleton]
    rw [show ∀ (a : Nat → α) (o : Option (Nat → α)), (some a).or o = some a from fun _ _ => rfl]
    congr 1
    funext i
    rw [hb.1]
    simp only [copy]
    by_cases h1 : i < n
    · simp [h1, lt_trans h1 hn]
    · simp [h1]

theorem push_short_overwrites_prefix_only_witness :
    staleQueue.WellFormed ∧ 0 < staleQueue.abstractFifo.getFreeSpace ∧ 3 < bufferSize ∧
    ((∀ i, i < 3 → (staleQueue.push (fun _ => 1) 3).buffers staleQueue.abstractFifo.validEnd.toNat i = (fun _ => 1) i) ∧
    (∀ i, 3 ≤ i → (staleQueue.push (fun _ => 1) 3).buffers staleQueue.abstractFifo.validEnd.toNat i =
      staleQueue.buffers staleQueue.abstractFifo.validEnd.toNat i) ∧
    (∀ s, s ≠ staleQueue.abstractFifo.validEnd.toNat → (staleQueue.push (fun _ => 1) 3).buffers s = staleQueue.buffers s) ∧
    (staleQueue.push (fun _ => 1) 3).unread = staleQueue.unread ++ [(staleQueue.push (fun _ => 1) 3).buffers staleQueue.abstractFifo.validEnd.toNat] ∧
    (∀ (outs : List (Nat → Nat)) (out : Nat → Nat), outs.length = staleQueue.unread.length →
      ((staleQueue.push (fun _ => 1) 3).popMany (outs ++ [out])).2.getLast? =
        some (fun i => if i < 3 then (fun _ => 1) i
          else if i < bufferSize then staleQueue.buffers staleQueue.abstractFifo.validEnd.toNat i
          else out i))) :=
  ⟨by decide, by decide, by decide,
    push_short_overwrites_prefix_only (q := staleQueue) (by decide) (by decide) (fun _ => 1) 3
      (by decide)⟩

/-! ## Claims on the samples of the wavetable -/

/-! ### Lemmas on the samples of the wavetable -/

namespace MainContentComponent

variable {K : Type} [Field K]

theorem foldl_range_addHarmonic (sin : K → K) (d w : K) (samples : List K) :
    ∀ n : Nat, n ≤ samples.length →
      ((List.range n).foldl
        (fun (st : List K × K) (i : Nat) =>
          (st.1.set i (st.1.getD i 0 + sin st.2 * w), st.2 + d)) (samples, 0)).2 = (n : K) * d ∧
      ((List.range n).foldl
        (fun (st : List K × K) (i : Nat) =>
          (st.1.set i (st.1.getD i 0 + sin st.2 * w), st.2 + d)) (samples, 0)).1.length =
        samples.length ∧
      ∀ j, ((List.range n).foldl
        (fun (st : List K × K) (i : Nat) =>
          (st.1.set i (st.1.getD i 0 + sin st.2 * w), st.2 + d)) (samples, 0)).1.getD j 0 =
        if j < n then samples.getD j 0 + sin ((j : K) * d) * w else samples.getD j 0 := by
  intro n
  induction n with
  | zero => intro _; simp
  | succ n ih =>
    intro hn
    obtain ⟨h1, h2, h3⟩ := ih (by omega)
    rw [List.range_succ, List.foldl_append, List.foldl_cons, List.foldl_nil]
    generalize List.foldl
      (fun (st : List K × K) (i : Nat) =>
        (st.1.set i (st.1.getD i 0 + sin st.2 * w), st.2 + d)) (samples, 0) (List.range n) = st
      at h1 h2 h3 ⊢
    refine ⟨?_, ?_, ?_⟩
    · simp only [h1]; push_cast; ring
    · simp only [List.length_set, h2]
    · intro j
      have h3n := h3 n
      have h3j := h3 j
      simp only [List.getD_eq_getElem?_getD, List.getElem?_set, h2] at h3n h3j ⊢
      by_cases hj : n = j
      · subst hj
        rw [if_pos rfl, if_pos (by omega), if_pos (by omega)]
        simp only [Option.getD_some, h3n, h1, lt_irrefl, if_false]
      · rw [if_neg hj, h3j]
        by_cases hlt : j < n
        · rw [if_pos hlt, if_pos (by omega)]
        · rw [if_neg hlt, if_neg (by omega)]

theorem getD_addHarmonic (sin : K → K) (twoPi : K) (samples : List K) (harmonic : Nat)
    (weight : K) (hl : tableSize ≤ samples.length) (j : Nat) :
    (addHarmonic sin twoPi samples harmonic weight).getD j 0 =
      if j < tableSize then
        samples.getD j 0 +
          sin ((j : K) * (twoPi / ((tableSize - 1 : Nat) : K) * (harmonic : K))) * weight
      else samples.getD j 0 :=
  (foldl_range_addHarmonic sin _ weight samples tableSize hl).2.2 j

theorem getD_foldl_addHarmonic (sin : K → K) (twoPi : K) (j : Nat) (hj : j < tableSize)
    (hws : List (Nat × K)) :
    ∀ samples : List K, tableSize ≤ samples.length →
      (hws.foldl (fun s hw => addHarmonic sin twoPi s hw.1 hw.2) samples).getD j 0 =
        samples.getD j 0 +
          (hws.map (fun hw =>
            sin ((j : K) * (twoPi / ((tableSize - 1 : Nat) : K) * (hw.1 : K))) * hw.2)).sum := by
  induction hws with
  | nil => intro s _; simp
  | cons hw hws ih =>
    intro s hs
    rw [List.foldl_cons, ih _ (by rw [length_addHarmonic]; exact hs),
      getD_addHarmonic sin twoPi s hw.1 hw.2 hs, if_pos hj, List.map_cons, List.sum_cons]
    ring

theorem getD_createWavetable (sin : K → K) (twoPi : K) (i : Nat) (hi : i < tableSize) :
    (createWavetable sin twoPi)[i]? = some (harmonicSum sin twoPi i) := by
  have hts : tableSize = 128 := rfl
  have hlen : (createWavetable sin twoPi).length = 129 := by
    unfold createWavetable
    simp only [List.length_set]
    rw [length_foldl_addHarmonic, List.length_replicate, hts]
  have hv : (createWavetable sin twoPi).getD i 0 = harmonicSum sin twoPi i := by
    have hset : ∀ (S : List K) (x : K), (S.set tableSize x).getD i 0 = S.getD i 0 := by
      intro S x
      rw [List.getD_eq_getElem?_getD, List.getD_eq_getElem?_getD,
        List.getElem?_set_ne (Nat.ne_of_gt hi)]
    have hzero : (List.replicate (tableSize + 1) (0 : K)).getD i 0 = 0 := by
      rw [List.getD_eq_getElem?_getD, List.getElem?_replicate_of_lt (Nat.lt_succ_of_lt hi)]
      rfl
    unfold createWavetable
    rw [hset, getD_foldl_addHarmonic sin twoPi i hi _ _
        (by rw [List.length_replicate]; exact Nat.le_succ _), hzero, zero_add]
    unfold harmonicSum
    refine congrArg List.sum (List.map_congr_left ?_)
    intro hw _
    have harg : (i : K) * (twoPi / ((tableSize - 1 : Nat) : K) * (hw.1 : K)) =
        twoPi * (hw.1 : K) * (i : K) / ((tableSize : K) - 1) := by
      rw [hts]
      push_cast
      norm_num
      ring
    rw [harg, mul_comm]
  rw [← hv, List.getD_eq_getElem?_getD, List.getElem?_eq_getElem (by omega)]
  rfl

theorem getElem?_createWavetable_last (sin : K → K) (twoPi : K) :
    (createWavetable sin twoPi)[tableSize]? = some (harmonicSum sin twoPi 0) := by
  have h0 := getD_createWavetable sin twoPi 0 (by decide)
  have hS : ∀ S : List K, S.length = tableSize + 1 →
      (S.set tableSize (S.getD 0 0))[tableSize]? = (S.set tableSize (S.getD 0 0))[0]? := by
    intro S hl
    rw [List.getElem?_set_self (by omega), List.getElem?_set_ne (by decide),
      List.getD_eq_getElem?_getD, List.getElem?_eq_getElem (by omega)]
    rfl
  rw [← h0]
  unfold createWavetable
  exact hS _ (by rw [length_foldl_addHarmonic, List.length_replicate])

theorem harmonicSum_add_period (j : Nat) :
    harmonicSum Real.sin (2 * Real.pi) (j + (tableSize - 1)) =
      harmonicSum Real.sin (2 * Real.pi) j := by
  unfold harmonicSum
  refine congrArg List.sum (List.map_congr_left ?_)
  intro hw _
  have hts : tableSize = 128 := rfl
  have harg : 2 * Real.pi * (hw.1 : ℝ) * ((j + (tableSize - 1) : Nat) : ℝ) / ((tableSize : ℝ) - 1) =
      2 * Real.pi * (hw.1 : ℝ) * (j : ℝ) / ((tableSize : ℝ) - 1) + (hw.1 : ℝ) * (2 * Real.pi) := by
    rw [hts]
    push_cast
    norm_num
    ring
  rw [harg, Real.sin_add_nat_mul_two_pi]

theorem harmonicSum_zero : harmonicSum Real.sin (2 * Real.pi) 0 = 0 := by
  unfold harmonicSum
  apply List.sum_eq_zero
  intro x hx
  rw [List.mem_map] at hx
  obtain ⟨hw, _, rfl⟩ := hx
  simp

end MainContentComponent

/-- C24: in exact real arithmetic (`sin` the real sine and `twoPi` the real
number 2π), for every `i` below `tableSize`, sample `i` of the table made by
`createWavetable` is the sum over the 8 harmonics `h` with weight `w` of
`w * sin (2π * h * i / (tableSize - 1))`.  That sum has period `tableSize - 1`
in `i`, and the samples at the indices 0, `tableSize - 1` and `tableSize` are 0. -/
theorem createWavetable_samples (i : Nat) (hi : i < MainContentComponent.tableSize) :
    (MainContentComponent.createWavetable Real.sin (2 * Real.pi))[i]? =
      some (MainContentComponent.harmonicSum Real.sin (2 * Real.pi) i) ∧
    (∀ j : Nat,
      MainContentComponent.harmonicSum Real.sin (2 * Real.pi)
          (j + (MainContentComponent.tableSize - 1)) =
        MainContentComponent.harmonicSum Real.sin (2 * Real.pi) j) ∧
    (MainContentComponent.createWavetable Real.sin (2 * Real.pi))[0]? = some 0 ∧
    (MainContentComponent.createWavetable Real.sin (2 * Real.pi))[
      MainContentComponent.tableSize - 1]? = some 0 ∧
    (MainContentComponent.createWavetable Real.sin (2 * Real.pi))[
      MainContentComponent.tableSize]? = some 0 := by
  refine ⟨MainContentComponent.getD_createWavetable _ _ i hi,
    MainContentComponent.harmonicSum_add_period, ?_, ?_, ?_⟩
  · rw [MainContentComponent.getD_createWavetable _ _ 0 (by decide),
      MainContentComponent.harmonicSum_zero]
  · rw [MainContentComponent.getD_createWavetable _ _ _ (by decide)]
    have h := MainContentComponent.harmonicSum_add_period 0
    rw [Nat.zero_add] at h
    rw [h, MainContentComponent.harmonicSum_zero]
  · rw [MainContentComponent.getElem?_createWavetable_last,
      MainContentComponent.harmonicSum_zero]

theorem createWavetable_samples_witness :
    1 < MainContentComponent.tableSize ∧
    ((MainContentComponent.createWavetable Real.sin (2 * Real.pi))[1]? =
      some (MainContentComponent.harmonicSum Real.sin (2 * Real.pi) 1) ∧
    (∀ j : Nat,
      MainContentComponent.harmonicSum Real.sin (2 * Real.pi)
          (j + (MainContentComponent.tableSize - 1)) =
        MainContentComponent.harmonicSum Real.sin (2 * Real.pi) j) ∧
    (MainContentComponent.createWavetable Real.sin (2 * Real.pi))[0]? = some 0 ∧
    (MainContentComponent.createWavetable Real.sin (2 * Real.pi))[
      MainContentComponent.tableSize - 1]? = some 0 ∧
    (MainContentComponent.createWavetable Real.sin (2 * Real.pi))[
      MainContentComponent.tableSize]? = some 0) :=
  ⟨by decide, createWavetable_samples 1 (by decide)⟩

/-! ## Claims on getNextAudioBlock -/

/-! ### Lemmas on getNextAudioBlock -/

namespace MainContentComponent

variable {O : Type}

end MainContentComponent

end JucePlugins
